import Mathlib

/-!
# Montgomery arithmetic and short-Weierstrass point arithmetic (`mont.c`, `ec_ws.c`)

A shallow embedding of the C sources.  Word arrays (`uint64_t *`) are lists of
natural numbers, least significant word first; every `uint64_t` operation is
written with its explicit reduction modulo `2^64`.  Functions that return an
error code return `Except`.

ec_ws.c calls `mont_add` and `mont_sub` with five arguments, the fourth a
scratchpad; mont.c defines functions of these names with four arguments, so the
two that ec_ws.c calls are not among the sources.  The functions of ec_ws.c take
them as a parameter (`MontArith`); what is proved about these functions holds
for every such pair, or for every pair that satisfies a stated contract
(`MontArithOk`, `SubNoBorrow`).  `mont_mult`, `mont_from_bytes`, `mont_to_bytes`
and `mont_inv_prime` are those of mont.c.

The multiples of a point are read in the group of the curve: `dec` gives the
residue that a Montgomery number stands for, `jac` the Jacobian triple of three
coordinates, and the Jacobian formulas and the group law are those of Mathlib
(`WeierstrassCurve.Jacobian`).
-/

namespace Mont

/-! ## Machine words -/

/-- The radix of a 64-bit machine word. -/
def W64 : Nat := 18446744073709551616

/-- `a + b` on `uint64_t`. -/
def add64 (a b : Nat) : Nat := (a + b) % W64

/-- `a - b` on `uint64_t` (wrapping). -/
def sub64 (a b : Nat) : Nat := (a + (W64 - b % W64)) % W64

/-- `a * b` on `uint64_t`. -/
def mul64 (a b : Nat) : Nat := (a * b) % W64

/-- The C value of the comparison `a < b`. -/
def lt64 (a b : Nat) : Nat := if a < b then 1 else 0

/-- `~a` on `uint64_t`. -/
def not64 (a : Nat) : Nat := W64 - 1 - a % W64

/-- `a - b` on `unsigned` (32 bits, wrapping). -/
def sub32 (a b : Nat) : Nat := (a + (4294967296 - b % 4294967296)) % 4294967296

/-- Modelled from the spec: the macro `DP_MULT(a, b, lo, hi)` of `multiply.h`
(not among the sources), the "128-bit double-word multiply": low word. -/
def dp_mult_lo (a b : Nat) : Nat := (a * b) % W64

/-- Modelled from the spec: the macro `DP_MULT(a, b, lo, hi)` of `multiply.h`
(not among the sources), the "128-bit double-word multiply": high word. -/
def dp_mult_hi (a b : Nat) : Nat := (a * b) / W64 % W64

/-- The integer held by a little-endian word array. -/
def wval : List Nat → Nat
  | [] => 0
  | x :: xs => x + W64 * wval xs

/-- Every entry of the array is a 64-bit word. -/
def WordsOk (l : List Nat) : Prop := ∀ x ∈ l, x < W64

instance (l : List Nat) : Decidable (WordsOk l) := by
  unfold WordsOk; infer_instance

/-- `is_odd` of mont.c. -/
def is_odd (x : Nat) : Bool := 1 == (x &&& 1)

/-- `is_even` of mont.c. -/
def is_even (x : Nat) : Bool := !is_odd x

/-! ## Word utilities of mont.c -/

/-- `inverse64` of mont.c. -/
def inverse64 (a : Nat) : Nat :=
  let x := (((((a <<< 1) % W64) ^^^ a) &&& 4) <<< 1) % W64 ^^^ a
  let x := add64 x (sub64 x (mul64 (mul64 a x) x))
  let x := add64 x (sub64 x (mul64 (mul64 a x) x))
  let x := add64 x (sub64 x (mul64 (mul64 a x) x))
  let x := add64 x (sub64 x (mul64 (mul64 a x) x))
  x

/-- The loop of `ge`, over the words from the most significant one down;
`mask` and `result` are the two `unsigned` locals. -/
def ge_loop : List Nat → List Nat → Nat → Nat → Nat
  | x :: xs, y :: ys, mask, result =>
      let greater := lt64 y x
      let lower := lt64 x y
      let result := result ||| (mask &&& (greater ||| (lower <<< 1)))
      let mask := mask &&& sub32 (greater ^^^ lower) 1
      ge_loop xs ys mask result
  | _, _, _, result => result

/-- `ge` of mont.c: 1 if x >= y, 0 if x < y. -/
def ge (x y : List Nat) (nw : Nat) : Nat :=
  lt64 (ge_loop (x.take nw).reverse (y.take nw).reverse 4294967295 0) 2

/-- The loop of `sub`; the result is the array `out` and the last borrow. -/
def sub_loop : List Nat → List Nat → Nat → List Nat × Nat
  | a :: as, b :: bs, borrow2 =>
      let borrow1 := lt64 a b
      let o := sub64 a b
      let borrow1 := borrow1 ||| lt64 o borrow2
      let o := sub64 o borrow2
      let r := sub_loop as bs borrow1
      (o :: r.1, r.2)
  | _, _, borrow2 => ([], borrow2)

/-- `sub` of mont.c: `(out, borrow)`. -/
def sub (a b : List Nat) (nw : Nat) : List Nat × Nat :=
  sub_loop (a.take nw) (b.take nw) 0

/-- One iteration of the loop of `sub` on explicit arrays, at index `i`: the
state is the array `out`, the array `a` and `borrow2`.  `out_is_a` says that the
caller passes the same pointer as `out` and as `a`: then every write to
`out[i]` is a write to `a[i]` too. -/
def sub_mem_step (out_is_a : Bool) (b : List Nat) (i : Nat)
    (s : List Nat × List Nat × Nat) : List Nat × List Nat × Nat :=
  let out := s.1
  let a := s.2.1
  let borrow2 := s.2.2
  let borrow1 := lt64 (a.getD i 0) (b.getD i 0)
  let out := out.set i (sub64 (a.getD i 0) (b.getD i 0))
  let a := if out_is_a then out else a
  let borrow1 := borrow1 ||| lt64 (out.getD i 0) borrow2
  let out := out.set i (sub64 (out.getD i 0) borrow2)
  let a := if out_is_a then out else a
  (out, a, borrow1)

/-- The loop `for (i=0; i<nw; i++)` of `sub` on explicit arrays; the first
argument counts the iterations left. -/
def sub_mem_loop (out_is_a : Bool) (b : List Nat) :
    Nat → Nat → List Nat × List Nat × Nat → List Nat × List Nat × Nat
  | 0, _, s => s
  | cnt + 1, i, s => sub_mem_loop out_is_a b cnt (i + 1) (sub_mem_step out_is_a b i s)

/-- `sub` of mont.c on explicit arrays: the array `out` after the call and the
borrow returned.  With `out_is_a` the arrays `out` and `a` are the same one (its
content before the call is `a`); otherwise `out` is a separate array. -/
def sub_mem (out_is_a : Bool) (out a b : List Nat) (nw : Nat) : List Nat × Nat :=
  let s := sub_mem_loop out_is_a b nw 0 (if out_is_a then a else out, a, 0)
  (s.1, s.2.2)

/-- The second loop of `addmul`: `for (; carry; i++)`.  A carry that leaves the
array is dropped (the C code asserts that it does not happen). -/
def addmul_carry : List Nat → Nat → List Nat
  | [], _ => []
  | x :: t, carry =>
      if carry = 0 then x :: t
      else
        let s := add64 x carry
        s :: addmul_carry t (lt64 s carry)

/-- The first loop of `addmul`, followed by the carry loop. -/
def addmul_loop : List Nat → List Nat → Nat → Nat → List Nat
  | x :: t, ai :: a, k, carry =>
      let prod_lo := dp_mult_lo ai k
      let prod_hi := dp_mult_hi ai k
      let prod_lo := add64 prod_lo carry
      let prod_hi := add64 prod_hi (lt64 prod_lo carry)
      let ti := add64 x prod_lo
      let prod_hi := add64 prod_hi (lt64 ti prod_lo)
      ti :: addmul_loop t a k prod_hi
  | t, [], _, carry => addmul_carry t carry
  | [], _ :: _, _, _ => []

/-- `addmul` of mont.c: t += a*k, where `t` is the array starting at the
pointer passed by the caller. -/
def addmul (t a : List Nat) (aw k : Nat) : List Nat :=
  addmul_loop t (a.take aw) k 0

/-- Modelled from the spec: `addmul128` of `multiply.h` (not among the
sources), "identical shape [to addmul] but processes two 64-bit scalars of b
together against one word of a": t += a*(b0 + b1*2^64). -/
def addmul128 (t a : List Nat) (b0 b1 nw : Nat) : List Nat :=
  match addmul t a nw b0 with
  | [] => []
  | x :: t1 => x :: addmul t1 a nw b1

/-- The loop of `product` over the words of `b`, two at a time, and the last
word when their number is odd; `i` is the loop index. -/
def product_loop (a : List Nat) (nw : Nat) : List Nat → Nat → List Nat → List Nat
  | b0 :: b1 :: bs, i, t =>
      product_loop a nw bs (i + 2) (t.take i ++ addmul128 (t.drop i) a b0 b1 nw)
  | [b0], i, t => t.take i ++ addmul (t.drop i) a nw b0
  | [], _, t => t

/-- `product` of mont.c, on the scratchpad `t`. -/
def product (t a b : List Nat) (nw : Nat) : List Nat :=
  product_loop a nw (b.take nw) 0 (List.replicate (2 * nw) 0 ++ t.drop (2 * nw))

/-- Modelled from the spec: `square_w` of `multiply.h` (not among the sources),
"N-word squaring": the first 2*nw words of `t` receive a*a. -/
def square_w (t a : List Nat) (nw : Nat) : List Nat := product t a a nw

/-- The body of the reduction loop of `mont_mult_internal` at index `i`. -/
def reduce_body (n : List Nat) (m0 nw i : Nat) (t : List Nat) : List Nat :=
  let k0 := mul64 (t.getD i 0) m0
  let prod_lo := dp_mult_lo k0 (n.getD 0 0)
  let prod_hi := dp_mult_hi k0 (n.getD 0 0)
  let prod_lo := add64 prod_lo (t.getD i 0)
  let prod_hi := add64 prod_hi (lt64 prod_lo (t.getD i 0))
  let ti1 := add64 (add64 (t.getD (i + 1) 0) (mul64 (n.getD 1 0) k0)) prod_hi
  let k1 := mul64 ti1 m0
  t.take i ++ addmul128 (t.drop i) n k0 k1 nw

/-- The reduction loop of `mont_mult_internal` ("clear lower words, two at a
time"); the first argument counts the iterations left, `i` is the loop index. -/
def reduce_loop (n : List Nat) (m0 nw : Nat) : Nat → Nat → List Nat → List Nat
  | 0, _, t => t
  | cnt + 1, i, t => reduce_loop n m0 nw cnt (i + 2) (reduce_body n m0 nw i t)

/-- The first part of `mont_mult_internal`: the product (or the square when
`aliased` says that `a` and `b` are the same pointer) and the reduction.  The
result is the scratchpad `t` at the assertion `t[2*nw] <= 1`. -/
def mont_mult_reduce (aliased : Bool) (a b n : List Nat) (m0 : Nat) (t : List Nat)
    (nw : Nat) : List Nat :=
  let t := if aliased then square_w t a nw else product t a b nw
  let t := t.set (2 * nw) 0
  let t := reduce_loop n m0 nw ((nw ^^^ (nw &&& 1)) / 2) 0 t
  if is_odd nw then
    t.take (nw - 1) ++ addmul (t.drop (nw - 1)) n nw (mul64 (t.getD (nw - 1) 0) m0)
  else t

/-- The last part of `mont_mult_internal`: "divide by R and possibly subtract
n".  `t2`, the last nw words of the scratchpad, receives the output of `sub`. -/
def mont_mult_select (t n : List Nat) (nw : Nat) : List Nat :=
  let t2 := (sub (t.drop nw) n nw).1
  let mask := sub64 (if t.getD (2 * nw) 0 = 1 ∨ ge (t.drop nw) n nw ≠ 0 then 1 else 0) 1
  (List.range nw).map fun i => (t.getD (nw + i) 0 &&& mask) ^^^ (t2.getD i 0 &&& not64 mask)

/-- `mont_mult_internal` of mont.c; `t` is the scratchpad of 3*nw+1 words. -/
def mont_mult_internal (aliased : Bool) (a b n : List Nat) (m0 : Nat) (t : List Nat)
    (nw : Nat) : List Nat :=
  mont_mult_select (mont_mult_reduce aliased a b n m0 t nw) n nw

/-- The shift by one bit of `rsquare` ("double, by shifting left by one bit");
`c` is the top bit of the word below. -/
def shl1 : List Nat → Nat → List Nat
  | [], _ => []
  | x :: xs, c => add64 ((x <<< 1) % W64) c :: shl1 xs (x >>> 63)

/-- The loop `while (overflow || ge(r2_mod_n, n, nw))` of `rsquare`; the first
argument bounds the number of iterations (two are always enough, see
`rsquare_reduce_spec`). -/
def rsquare_reduce (n : List Nat) (nw : Nat) : Nat → Nat → List Nat → List Nat
  | 0, _, r => r
  | fuel + 1, overflow, r =>
      if overflow ≠ 0 ∨ ge r n nw ≠ 0 then rsquare_reduce n nw fuel 0 (sub r n nw).1
      else r

/-- The outer loop of `rsquare`; the first argument counts the iterations left. -/
def rsquare_loop (n : List Nat) (nw : Nat) : Nat → List Nat → List Nat
  | 0, r => r
  | cnt + 1, r =>
      let overflow := r.getD (nw - 1) 0 >>> 63
      let r := shl1 r 0
      rsquare_loop n nw cnt (rsquare_reduce n nw 2 overflow r)

/-- `rsquare` of mont.c: R^2 mod N. -/
def rsquare (n : List Nat) (nw : Nat) : List Nat :=
  let r := (List.replicate nw 0).set 0 1
  let R_bits := nw * 8 * 8
  rsquare_loop n nw (R_bits * 2) r

/-! ## Byte strings -/

/-- The integer held by a big-endian byte string. -/
def be_val (bytes : List Nat) : Nat := bytes.foldl (fun acc b => acc * 256 + b) 0

/-- The `nw` little-endian 64-bit words of `v`. -/
def to_words : Nat → Nat → List Nat
  | 0, _ => []
  | nw + 1, v => v % W64 :: to_words nw (v / W64)

/-- The big-endian encoding of `v` on `len` bytes, padded with zeroes on the left. -/
def to_be_bytes : Nat → Nat → List Nat
  | 0, _ => []
  | len + 1, v => to_be_bytes len (v / 256) ++ [v % 256]

/-- Modelled from the spec: `bytes_to_words` of `endianess.h` (not among the
sources), the "big-endian byte-array to word-array conversion with
right-justified zero padding". -/
def bytes_to_words (nw : Nat) (bytes : List Nat) : List Nat := to_words nw (be_val bytes)

/-- Modelled from the spec: `words_to_bytes` of `endianess.h` (not among the
sources), the "word-array to big-endian byte-array conversion", "zero-padded on
the left". -/
def words_to_bytes (len : Nat) (w : List Nat) : List Nat := to_be_bytes len (wval w)

/-! ## The Montgomery context -/

deriving instance DecidableEq for Except

/-- The error codes used by the two files, and a mark for a call whose
behaviour is undefined. -/
inductive Err where
  | ERR_NULL
  | ERR_MEMORY
  | ERR_NOT_ENOUGH_DATA
  | ERR_VALUE
  | ERR_EC_POINT
  | ERR_EC_CURVE
  /-- Not an error code: the call frees a block twice, its behaviour is undefined. -/
  | UNDEFINED
  deriving DecidableEq, Repr

/-- The structure `MontContext` (declared in `mont.h`), with the fields that mont.c fills. -/
structure MontContext where
  words : Nat
  bytes : Nat
  modulus : List Nat
  r2_mod_n : List Nat
  m0 : Nat
  one : List Nat
  r_mod_n : List Nat
  modulus_min_2 : List Nat
  deriving DecidableEq, Repr

/-- A scratchpad as `calloc` returns it. -/
def scratchpad (words : Nat) : List Nat := List.replicate (3 * words + 1) 0

/-- The part of `mont_context_init` that fills the context, once the
modulus has passed the checks. -/
def mont_context_build (modulus : List Nat) : MontContext :=
  let mod_len := modulus.length
  let words := (mod_len + 7) / 8
  let bytes := words * 8
  let n := bytes_to_words words modulus
  let r2_mod_n := rsquare n words
  let m0 := inverse64 (add64 (not64 (n.getD 0 0)) 1)
  let one := (List.replicate words 0).set 0 1
  let r_mod_n := mont_mult_internal false one r2_mod_n n m0 (scratchpad words) words
  let modulus_min_2 := (sub n one words).1
  let modulus_min_2 := (sub modulus_min_2 one words).1
  { words := words, bytes := bytes, modulus := n, r2_mod_n := r2_mod_n, m0 := m0,
    one := one, r_mod_n := r_mod_n, modulus_min_2 := modulus_min_2 }

/-- `mont_context_init` of mont.c, for non-null arguments and successful
allocations; `modulus` is the big-endian byte string, `mod_len` its length.
The loop `for (i=1; i<mod_len && modulus[i]; i++);` stops at the first zero
byte after the first one. -/
def mont_context_init (modulus : List Nat) : Except Err MontContext :=
  let mod_len := modulus.length
  if mod_len = 0 then .error Err.ERR_NOT_ENOUGH_DATA
  else if is_even (modulus.getD (mod_len - 1) 0) then .error Err.ERR_VALUE
  else if modulus.getD 0 0 < 3 ∧
      1 + ((modulus.drop 1).takeWhile (fun x => x != 0)).length = mod_len then
    .error Err.ERR_VALUE
  else .ok (mont_context_build modulus)

/-- The invariants of a Montgomery context for an odd modulus N >= 3 (those
listed in the data model: R > N, R mod N, R^2 mod N, m0, N - 2). -/
structure MontCtxOk (ctx : MontContext) : Prop where
  words_pos : 1 ≤ ctx.words
  bytes_eq : ctx.bytes = ctx.words * 8
  n_len : ctx.modulus.length = ctx.words
  n_ok : WordsOk ctx.modulus
  n_ge : 3 ≤ wval ctx.modulus
  n_odd : wval ctx.modulus % 2 = 1
  m0_eq : (ctx.m0 * ctx.modulus.getD 0 0) % W64 = W64 - 1
  r2_len : ctx.r2_mod_n.length = ctx.words
  r2_ok : WordsOk ctx.r2_mod_n
  r2_val : wval ctx.r2_mod_n = (W64 ^ ctx.words * W64 ^ ctx.words) % wval ctx.modulus
  one_len : ctx.one.length = ctx.words
  one_ok : WordsOk ctx.one
  one_val : wval ctx.one = 1
  r_len : ctx.r_mod_n.length = ctx.words
  r_ok : WordsOk ctx.r_mod_n
  r_val : wval ctx.r_mod_n = W64 ^ ctx.words % wval ctx.modulus
  min2_len : ctx.modulus_min_2.length = ctx.words
  min2_ok : WordsOk ctx.modulus_min_2
  min2_val : wval ctx.modulus_min_2 = wval ctx.modulus - 2

/-- A Montgomery number of the context: `words` words with a value below N. -/
def Canon (a : List Nat) (ctx : MontContext) : Prop :=
  a.length = ctx.words ∧ WordsOk a ∧ wval a < wval ctx.modulus

/-- A byte string: every entry is below 256. -/
def BytesOk (l : List Nat) : Prop := ∀ x ∈ l, x < 256

instance (l : List Nat) : Decidable (BytesOk l) := by
  unfold BytesOk; infer_instance

/-- `mont_bytes` of mont.c. -/
def mont_bytes (ctx : MontContext) : Nat := ctx.bytes

/-- `mont_from_bytes` of mont.c, for non-null arguments and successful allocations. -/
def mont_from_bytes (ctx : MontContext) (number : List Nat) : Except Err (List Nat) :=
  let len := number.length
  if len = 0 then .error Err.ERR_NOT_ENOUGH_DATA
  else if ctx.bytes < len then .error Err.ERR_VALUE
  else
    let tmp1 := bytes_to_words ctx.words number
    if ge tmp1 ctx.modulus ctx.words ≠ 0 then .error Err.ERR_VALUE
    else
      .ok (mont_mult_internal false tmp1 ctx.r2_mod_n ctx.modulus ctx.m0
        (scratchpad ctx.words) ctx.words)

/-- `mont_to_bytes` of mont.c, for non-null arguments and successful allocations. -/
def mont_to_bytes (ctx : MontContext) (mont_number : List Nat) : Except Err (List Nat) :=
  let tmp1 := mont_mult_internal false mont_number ctx.one ctx.modulus ctx.m0
    (scratchpad ctx.words) ctx.words
  .ok (words_to_bytes ctx.bytes tmp1)

/-- The loop of `mont_add`; `carry` is the `unsigned` local.  `out_is_b` says
that `out` and `b` are the same array: the statement `out[i] = a[i] + carry` has
then overwritten `b[i]` before `out[i] += b[i]` and `out[i] < b[i]` read it. -/
def mont_add_loop (out_is_b : Bool) : List Nat → List Nat → Nat → List Nat
  | a :: as, b :: bs, carry =>
      let o := add64 a carry
      let carry := lt64 o carry
      let bi := if out_is_b then o else b
      let o := add64 o bi
      let bi := if out_is_b then o else b
      let carry := carry + lt64 o bi
      o :: mont_add_loop out_is_b as bs carry
  | _, _, _ => []

/-- `mont_add` of mont.c: the array `out` (the function returns 0 for non-null
arguments).  There is no reduction modulo N.  `out_is_b` says that the caller
passes the same pointer as `out` and as `b`; `out` may be `a` without effect,
since `a[i]` is read before `out[i]` is written. -/
def mont_add (out_is_b : Bool) (a b : List Nat) (ctx : MontContext) : List Nat :=
  mont_add_loop out_is_b (a.take ctx.words) (b.take ctx.words) 0

/-- `mont_mult` of mont.c: the array `out`; `aliased` says that `a` and `b` are
the same pointer. -/
def mont_mult (aliased : Bool) (a b : List Nat) (ctx : MontContext) : List Nat :=
  mont_mult_internal aliased a b ctx.modulus ctx.m0 (scratchpad ctx.words) ctx.words

/-- The loop of `mont_mult_scalar`. -/
def mont_mult_scalar_loop : List Nat → Nat → Nat → List Nat
  | ai :: a, k, carry =>
      let prod_lo := dp_mult_lo ai k
      let prod_hi := dp_mult_hi ai k
      let prod_lo := add64 prod_lo carry
      let prod_hi := add64 prod_hi (lt64 prod_lo carry)
      prod_lo :: mont_mult_scalar_loop a k (prod_hi % 4294967296)
  | [], _, _ => []

/-- `mont_mult_scalar` of mont.c: the array `out`.  The local `carry` is an
`unsigned`, so the assignment `carry = prod_hi` keeps 32 bits. -/
def mont_mult_scalar (a : List Nat) (k : Nat) (ctx : MontContext) : List Nat :=
  mont_mult_scalar_loop (a.take ctx.words) k 0

/-- `mont_sub` of mont.c: the array `out`.  Nothing is added back when a < b. -/
def mont_sub (a b : List Nat) (ctx : MontContext) : List Nat :=
  (sub_loop (a.take ctx.words) (b.take ctx.words) 0).1

/-- The first loop of `mont_inv_prime`: the index of the most significant
non-zero word of the exponent, searched from `idx_word` down. -/
def inv_find_word (exponent : List Nat) : Nat → Nat
  | 0 => 0
  | idx + 1 => if exponent.getD (idx + 1) 0 ≠ 0 then idx + 1 else inv_find_word exponent idx

/-- The loop `for (bit = 1 << 63; 0 == (exponent[idx_word] & bit); bit--);` of
`mont_inv_prime`, on the word `e`; the first argument bounds the number of
iterations. -/
def inv_find_bit (e : Nat) : Nat → Nat → Nat
  | 0, bit => bit
  | fuel + 1, bit => if e &&& bit = 0 then inv_find_bit e fuel (sub64 bit 1) else bit

/-- The inner loop of the exponentiation in `mont_inv_prime`, over the bits of
the word `e`, until `bit == 1`; the first argument bounds the number of
iterations (64 for a non-zero `bit`, which is halved each time). -/
def inv_bits (a : List Nat) (ctx : MontContext) (e : Nat) : Nat → Nat → List Nat → List Nat
  | 0, _, out => out
  | fuel + 1, bit, out =>
      let tmp1 := mont_mult_internal true out out ctx.modulus ctx.m0
        (scratchpad ctx.words) ctx.words
      let out := if e &&& bit ≠ 0 then
          mont_mult_internal false tmp1 a ctx.modulus ctx.m0 (scratchpad ctx.words) ctx.words
        else tmp1
      if bit = 1 then out else inv_bits a ctx e fuel (bit >>> 1) out

/-- The outer loop of the exponentiation in `mont_inv_prime`, over the words of
the exponent from `idx_word` down to 0. -/
def inv_words (a : List Nat) (ctx : MontContext) (exponent : List Nat) :
    Nat → Nat → List Nat → List Nat
  | 0, bit, out => inv_bits a ctx (exponent.getD 0 0) 64 bit out
  | idx + 1, bit, out =>
      inv_words a ctx exponent idx 9223372036854775808
        (inv_bits a ctx (exponent.getD (idx + 1) 0) 64 bit out)

/-- `mont_inv_prime` of mont.c: the array `out`. -/
def mont_inv_prime (a : List Nat) (ctx : MontContext) : List Nat :=
  let exponent := ctx.modulus_min_2
  let idx_word := inv_find_word exponent (ctx.words - 1)
  let bit := inv_find_bit (exponent.getD idx_word 0) 64 9223372036854775808
  let out := ctx.r_mod_n.take ctx.words
  inv_words a ctx exponent idx_word bit out

/-! ## Helpers of the Montgomery module that ec_ws.c uses -/

/-- Modelled from the spec: `mont_is_zero` (not among the sources), the test
"z = 0" on the `words` words of a number. -/
def mont_is_zero (a : List Nat) (ctx : MontContext) : Bool :=
  (a.take ctx.words).all fun w => w == 0

/-- Modelled from the spec: `mont_is_one` (not among the sources), the test
"the input's z is 1": the number is the Montgomery form of 1, `r_mod_n`. -/
def mont_is_one (a : List Nat) (ctx : MontContext) : Bool :=
  a.take ctx.words == ctx.r_mod_n.take ctx.words

/-- Modelled from the spec: `mont_is_equal` (not among the sources), the
equality of two numbers, word by word. -/
def mont_is_equal (a b : List Nat) (ctx : MontContext) : Bool :=
  a.take ctx.words == b.take ctx.words

/-- Modelled from the spec: `mont_copy` (not among the sources), "copy". -/
def mont_copy (a : List Nat) (ctx : MontContext) : List Nat := a.take ctx.words

/-- Modelled from the spec: `mont_set` (not among the sources), which stores a
small integer "in Montgomery form": zero, `r_mod_n` for 1 (the two values that
ec_ws.c stores, with a null scratchpad), x*R mod N in general. -/
def mont_set (x : Nat) (ctx : MontContext) : List Nat :=
  if x = 0 then List.replicate ctx.words 0
  else if x = 1 then ctx.r_mod_n.take ctx.words
  else mont_mult_internal false (to_words ctx.words x) ctx.r2_mod_n ctx.modulus ctx.m0
    (scratchpad ctx.words) ctx.words

/-- Modelled from the spec: `mont_select` (not among the sources), the
"constant-time select": `a` when `cond` holds, else `b`. -/
def mont_select (a b : List Nat) (cond : Bool) (ctx : MontContext) : List Nat :=
  if cond then a.take ctx.words else b.take ctx.words

/-- Modelled from the spec: `mont_number` (not among the sources), which
allocates `count` numbers of `words` zero words. -/
def mont_number (count : Nat) (ctx : MontContext) : List Nat :=
  List.replicate (count * ctx.words) 0

end Mont

namespace EcWs

open Mont

/-! ## Points of a short Weierstrass curve (ec_ws.c) -/

/-- The structure `EcContext`, with the fields that ec_ws.c uses. -/
structure EcContext where
  mont_ctx : MontContext
  b : List Nat
  order : List Nat
  deriving DecidableEq, Repr

/-- The structure `EcPoint` of ec.h: a point in Jacobian coordinates. -/
structure EcPoint where
  ec_ctx : EcContext
  x : List Nat
  y : List Nat
  z : List Nat
  deriving DecidableEq, Repr

/-- Three coordinates, as the formulas write them to `x3`, `y3`, `z3`. -/
abbrev Coords := List Nat × List Nat × List Nat

/-- The functions `mont_add` and `mont_sub` as ec_ws.c calls them, with five
arguments `(out, a, b, scratchpad, ctx)`.  They are not among the sources: mont.c
defines functions of these names with four arguments, so it is not the file that
ec_ws.c is written against, and the functions of ec_ws.c take the two as a
parameter.  `mont_add a b ctx` and `mont_sub a b ctx` are the arrays written
to `out`: functions of the numbers `a` and `b`, also when `out` is the array
of one of them (the formulas of ec_ws.c say "Input and output points can
match"). -/
structure MontArith where
  mont_add : List Nat → List Nat → MontContext → List Nat
  mont_sub : List Nat → List Nat → MontContext → List Nat

/-- The contract of addition and subtraction modulo N: on Montgomery numbers
of the context (`words` words, value below N) the result is again a Montgomery
number of the context, with the value of the sum or of the difference
modulo N. -/
structure MontArithOk (ar : MontArith) (ctx : MontContext) : Prop where
  add_canon : ∀ a b, Canon a ctx → Canon b ctx →
    Canon (ar.mont_add a b ctx) ctx ∧
    wval (ar.mont_add a b ctx) = (wval a + wval b) % wval ctx.modulus
  sub_canon : ∀ a b, Canon a ctx → Canon b ctx →
    Canon (ar.mont_sub a b ctx) ctx ∧
    wval (ar.mont_sub a b ctx)
      = (wval a + wval ctx.modulus - wval b) % wval ctx.modulus

/-- A subtraction that adds N back only after a borrow: when b <= a the array
written holds the plain difference a - b (as the word-wise `mont_sub` of mont.c
does, and as a subtraction that selects between a - b and a - b + N on the
borrow does).  `ec_ws_neg` subtracts from the modulus itself. -/
def SubNoBorrow (ar : MontArith) (ctx : MontContext) : Prop :=
  ∀ a b, a.length = ctx.words → WordsOk a → b.length = ctx.words → WordsOk b →
    wval b ≤ wval a →
    (ar.mont_sub a b ctx).length = ctx.words ∧ WordsOk (ar.mont_sub a b ctx) ∧
    wval (ar.mont_sub a b ctx) = wval a - wval b

/-- An instance of the two functions: the sum modulo N, and the difference
a - b when b <= a, a + N - b otherwise, as arrays of `words` words.  It
satisfies `MontArithOk` and `SubNoBorrow`; the theorems that assume them are
evaluated at this instance. -/
def mod_arith : MontArith :=
  { mont_add := fun a b ctx => to_words ctx.words ((wval a + wval b) % wval ctx.modulus),
    mont_sub := fun a b ctx =>
      to_words ctx.words
        (if wval b ≤ wval a then wval a - wval b else wval a + wval ctx.modulus - wval b) }

/-- `ec_full_double` of ec_ws.c.  `mont_mult` is the multiplication of mont.c
(the scratchpad that ec_ws.c passes is the one that `mont_mult` of mont.c
allocates); `mont_add` and `mont_sub` are the parameter `ar`.  No input is read
after an output that may be the same array has been written. -/
def ec_full_double (ar : MontArith) (x1 y1 z1 : List Nat) (ctx : MontContext) : Coords :=
  if mont_is_zero z1 ctx then (mont_set 1 ctx, mont_set 1 ctx, mont_set 0 ctx)
  else
    let a := mont_mult true z1 z1 ctx
    let b := mont_mult true y1 y1 ctx
    let c := mont_mult false x1 b ctx
    let d := ar.mont_sub x1 a ctx
    let e := ar.mont_add x1 a ctx
    let d := mont_mult false d e ctx
    let e := ar.mont_add d d ctx
    let d := ar.mont_add d e ctx
    let z3 := ar.mont_add y1 z1 ctx
    let z3 := mont_mult true z3 z3 ctx
    let z3 := ar.mont_sub z3 b ctx
    let z3 := ar.mont_sub z3 a ctx
    let x3 := mont_mult true d d ctx
    let e := ar.mont_add c c ctx
    let e := ar.mont_add e e ctx
    let e := ar.mont_add e e ctx
    let x3 := ar.mont_sub x3 e ctx
    let e := ar.mont_add c c ctx
    let y3 := ar.mont_add e e ctx
    let y3 := ar.mont_sub y3 x3 ctx
    let y3 := mont_mult false d y3 ctx
    let e := mont_mult true b b ctx
    let e := ar.mont_add e e ctx
    let e := ar.mont_add e e ctx
    let e := ar.mont_add e e ctx
    let y3 := ar.mont_sub y3 e ctx
    (x3, y3, z3)

/-- `ec_mix_add` of ec_ws.c: Jacobian (x1, y1, z1) plus affine (x2, y2);
`mont_add` and `mont_sub` are the parameter `ar`. -/
def ec_mix_add (ar : MontArith) (x1 y1 z1 x2 y2 : List Nat) (ctx : MontContext) : Coords :=
  if mont_is_zero z1 ctx then (mont_copy x2 ctx, mont_copy y2 ctx, mont_set 1 ctx)
  else if mont_is_zero x2 ctx && mont_is_zero y2 ctx then
    (mont_copy x1 ctx, mont_copy y1 ctx, mont_copy z1 ctx)
  else
    let a := mont_mult true z1 z1 ctx
    let b := mont_mult false x2 a ctx
    let c := mont_mult false y2 z1 ctx
    let c := mont_mult false c a ctx
    if mont_is_equal x1 b ctx then
      if mont_is_equal y1 c ctx then ec_full_double ar x1 y1 z1 ctx
      else (mont_set 1 ctx, mont_set 1 ctx, mont_set 0 ctx)
    else
      let b := ar.mont_sub b x1 ctx
      let d := mont_mult true b b ctx
      let e := ar.mont_add d d ctx
      let e := ar.mont_add e e ctx
      let f := mont_mult false b e ctx
      let c := ar.mont_sub c y1 ctx
      let c := ar.mont_add c c ctx
      let e := mont_mult false x1 e ctx
      let x3 := mont_mult true c c ctx
      let x3 := ar.mont_sub x3 f ctx
      let x3 := ar.mont_sub x3 e ctx
      let x3 := ar.mont_sub x3 e ctx
      let f := mont_mult false y1 f ctx
      let f := ar.mont_add f f ctx
      let y3 := ar.mont_sub e x3 ctx
      let y3 := mont_mult false c y3 ctx
      let y3 := ar.mont_sub y3 f ctx
      let z3 := ar.mont_add z1 b ctx
      let z3 := mont_mult true z3 z3 ctx
      let z3 := ar.mont_sub z3 a ctx
      let z3 := ar.mont_sub z3 d ctx
      (x3, y3, z3)

/-- `ec_full_add` of ec_ws.c: Jacobian (x1, y1, z1) plus Jacobian (x2, y2, z2);
`mont_add` and `mont_sub` are the parameter `ar`. -/
def ec_full_add (ar : MontArith) (x1 y1 z1 x2 y2 z2 : List Nat) (ctx : MontContext) : Coords :=
  if mont_is_zero z1 ctx then (mont_copy x2 ctx, mont_copy y2 ctx, mont_copy z2 ctx)
  else
    let p2_is_pai := mont_is_zero z2 ctx
    let a := mont_mult true z1 z1 ctx
    let b := mont_mult true z2 z2 ctx
    let c := mont_mult false x1 b ctx
    let d := mont_mult false x2 a ctx
    let e := mont_mult false y1 z2 ctx
    let e := mont_mult false e b ctx
    let f := mont_mult false y2 z1 ctx
    let f := mont_mult false f a ctx
    if mont_is_equal c d ctx then
      if mont_is_equal e f ctx then ec_full_double ar x1 y1 z1 ctx
      else (mont_set 1 ctx, mont_set 1 ctx, mont_set 0 ctx)
    else
      let d := ar.mont_sub d c ctx
      let g := ar.mont_add d d ctx
      let g := mont_mult true g g ctx
      let h := mont_mult false d g ctx
      let f := ar.mont_sub f e ctx
      let f := ar.mont_add f f ctx
      let c := mont_mult false c g ctx
      let g := mont_mult true f f ctx
      let g := ar.mont_sub g h ctx
      let g := ar.mont_sub g c ctx
      let g := ar.mont_sub g c ctx
      let x3 := mont_select x1 g p2_is_pai ctx
      let g := ar.mont_sub c g ctx
      let g := mont_mult false f g ctx
      let c := mont_mult false e h ctx
      let c := ar.mont_add c c ctx
      let g := ar.mont_sub g c ctx
      let y3 := mont_select y1 g p2_is_pai ctx
      let g := ar.mont_add z1 z2 ctx
      let g := mont_mult true g g ctx
      let g := ar.mont_sub g a ctx
      let g := ar.mont_sub g b ctx
      let g := mont_mult false g d ctx
      let z3 := mont_select z1 g p2_is_pai ctx
      (x3, y3, z3)

/-- `ec_ws_normalize` of ec_ws.c: the affine pair (x3, y3). -/
def ec_ws_normalize (x1 y1 z1 : List Nat) (ctx : MontContext) : List Nat × List Nat :=
  if mont_is_zero z1 ctx then (mont_set 0 ctx, mont_set 0 ctx)
  else
    let a := mont_inv_prime z1 ctx
    let b := mont_mult true a a ctx
    let c := mont_mult false b a ctx
    let x3 := mont_mult false x1 b ctx
    let y3 := mont_mult false y1 c ctx
    (x3, y3)

/-- The loop of `ec_exp` that fills the window: entry i is entry i-1 plus the
input point (`ec_mix_add` when z1 is one, else `ec_full_add`); the first argument counts
the entries left, `prev` is entry i-1. -/
def ec_exp_window (ar : MontArith) (x1 y1 z1 : List Nat) (z1_is_one : Bool)
    (ctx : MontContext) :
    Nat → Coords → List Coords
  | 0, _ => []
  | cnt + 1, prev =>
      let next := if z1_is_one then ec_mix_add ar prev.1 prev.2.1 prev.2.2 x1 y1 ctx
        else ec_full_add ar prev.1 prev.2.1 prev.2.2 x1 y1 z1 ctx
      next :: ec_exp_window ar x1 y1 z1 z1_is_one ctx cnt next

/-- The loop "find first non-zero byte in exponent" of `ec_exp`. -/
def skip_zero_bytes : List Nat → List Nat
  | [] => []
  | b :: l => if b = 0 then skip_zero_bytes l else b :: l

/-- Modelled from the spec: `init_bit_window` and `get_next_digit` of
`modexp_utils.h` (not among the sources), "a bit-window iterator that emits
the scalar's 4-bit digits in MSB-first order". -/
def window_digits : List Nat → List Nat
  | [] => []
  | b :: l => ((b >>> 4) &&& 15) :: (b &&& 15) :: window_digits l

/-- Modelled from the spec: `scatter` and `gather` of `modexp_utils.h` (not
among the sources), "constant-time indexed reads" of the table: entry `index`. -/
def gather (window : List Coords) (index : Nat) : Coords :=
  window.getD index ([], [], [])

/-- The four doublings of one step of the ladder of `ec_exp`. -/
def ec_exp_doublings (ar : MontArith) (ctx : MontContext) : Nat → Coords → Coords
  | 0, p => p
  | j + 1, p => ec_exp_doublings ar ctx j (ec_full_double ar p.1 p.2.1 p.2.2 ctx)

/-- The ladder of `ec_exp`, over the digits of the exponent. -/
def ec_exp_ladder (ar : MontArith) (window : List Coords) (ctx : MontContext) :
    List Nat → Coords → Coords
  | [], p => p
  | index :: digits, p =>
      let w := gather window index
      let p := ec_exp_doublings ar ctx 4 p
      let p := ec_full_add ar p.1 p.2.1 p.2.2 w.1 w.2.1 w.2.2 ctx
      ec_exp_ladder ar window ctx digits p

/-- `ec_exp` of ec_ws.c, for successful allocations; the seed only places the
table in memory.  `exp` is the byte string of `exp_size` bytes. -/
def ec_exp (ar : MontArith) (x1 y1 z1 : List Nat) (exp : List Nat) (ctx : MontContext) :
    Coords :=
  let z1_is_one := mont_is_one z1 ctx
  let w0 : Coords := (mont_set 1 ctx, mont_set 1 ctx, mont_set 0 ctx)
  let w1 : Coords := (mont_copy x1 ctx, mont_copy y1 ctx, mont_copy z1 ctx)
  let window := w0 :: w1 :: ec_exp_window ar x1 y1 z1 z1_is_one ctx 14 w1
  let start : Coords := (mont_set 1 ctx, mont_set 1 ctx, mont_set 0 ctx)
  ec_exp_ladder ar window ctx (window_digits (skip_zero_bytes exp)) start

/-- `ec_ws_new_context` of ec_ws.c, for non-null arguments and successful
allocations; the three byte strings have `len` bytes. -/
def ec_ws_new_context (modulus b order : List Nat) (len : Nat) : Except Err EcContext :=
  if len = 0 then .error Err.ERR_NOT_ENOUGH_DATA
  else
    match mont_context_init (modulus.take len) with
    | .error e => .error e
    | .ok mont_ctx =>
      match mont_from_bytes mont_ctx (b.take len) with
      | .error e => .error e
      | .ok bm =>
        let order_words := (len + 7) / 8
        .ok { mont_ctx := mont_ctx, b := bm, order := bytes_to_words order_words (order.take len) }

/-- The outcome of `ec_ws_new_point` when a call of `mont_from_bytes` has
returned `e`: the function jumps to `cleanup`, which frees `ecp->x` and
`ecp->y`.  When `mont_from_bytes` of mont.c fails after it has stored the new
block in `*out` (its test "number < modulus", `ERR_VALUE`, as the length is
not above `ctx->bytes` here), it has freed that block itself and left the
pointer in place: the block is freed twice. -/
def new_point_cleanup (e : Err) : Err :=
  if e = Err.ERR_VALUE then Err.UNDEFINED else e

/-- `ec_ws_new_point` of ec_ws.c, for non-null arguments and successful
allocations; `x` and `y` are byte strings of `len` bytes.  `mont_from_bytes`
and `mont_mult` are those of mont.c, `mont_add` and `mont_sub` are the
parameter `ar`. -/
def ec_ws_new_point (ar : MontArith) (x y : List Nat) (len : Nat) (ec_ctx : EcContext) :
    Except Err EcPoint :=
  let ctx := ec_ctx.mont_ctx
  if len ≠ ctx.bytes then .error Err.ERR_VALUE
  else
    match mont_from_bytes ctx (x.take len) with
    | .error e => .error (new_point_cleanup e)
    | .ok px =>
      match mont_from_bytes ctx (y.take len) with
      | .error e => .error (new_point_cleanup e)
      | .ok py =>
        let pz := mont_set 1 ctx
        if mont_is_zero px ctx && mont_is_zero py ctx then
          .ok { ec_ctx := ec_ctx, x := mont_set 1 ctx, y := mont_set 1 ctx, z := mont_set 0 ctx }
        else
          let a := mont_mult true py py ctx
          let c := mont_mult true px px ctx
          let c := mont_mult false c px ctx
          let c := ar.mont_sub c px ctx
          let c := ar.mont_sub c px ctx
          let c := ar.mont_sub c px ctx
          let c := ar.mont_add c ec_ctx.b ctx
          if !mont_is_equal a c ctx then .error Err.ERR_EC_POINT
          else .ok { ec_ctx := ec_ctx, x := px, y := py, z := pz }

/-- `ec_ws_get_xy` of ec_ws.c, for non-null arguments and successful
allocations: the two byte strings written to `x` and `y`. -/
def ec_ws_get_xy (len : Nat) (ecp : EcPoint) : Except Err (List Nat × List Nat) :=
  let ctx := ecp.ec_ctx.mont_ctx
  if len ≠ mont_bytes ctx then .error Err.ERR_VALUE
  else
    let w := ec_ws_normalize ecp.x ecp.y ecp.z ctx
    match mont_to_bytes ctx w.1 with
    | .error e => .error e
    | .ok x =>
      match mont_to_bytes ctx w.2 with
      | .error e => .error e
      | .ok y => .ok (x, y)

/-- `ec_ws_double` of ec_ws.c, for a non-null point: the point after the call
(the function returns 0). -/
def ec_ws_double (ar : MontArith) (p : EcPoint) : EcPoint :=
  let r := ec_full_double ar p.x p.y p.z p.ec_ctx.mont_ctx
  { p with x := r.1, y := r.2.1, z := r.2.2 }

/-- `ec_ws_add` of ec_ws.c, for non-null points: the first point after the
call.  The two contexts are the same object when they are equal. -/
def ec_ws_add (ar : MontArith) (ecpa ecpb : EcPoint) : Except Err EcPoint :=
  if ecpa.ec_ctx ≠ ecpb.ec_ctx then .error Err.ERR_EC_CURVE
  else
    let r := ec_full_add ar ecpa.x ecpa.y ecpa.z ecpb.x ecpb.y ecpb.z ecpa.ec_ctx.mont_ctx
    .ok { ecpa with x := r.1, y := r.2.1, z := r.2.2 }

/-- `blind_scalar_factor` of ec_ws.c: the blinded scalar, as a byte string. -/
def blind_scalar_factor (scalar : List Nat) (scalar_len R_seed : Nat) (order : List Nat)
    (order_words : Nat) : List Nat :=
  let scalar_words := (scalar_len + 7) / 8
  let blind_scalar_words := max (order_words + 2) (scalar_words + 2)
  let blind_scalar_len := blind_scalar_words * 8
  let output_u64 := bytes_to_words blind_scalar_words (scalar.take scalar_len)
  let output_u64 := addmul128 output_u64 order R_seed 0 order_words
  words_to_bytes blind_scalar_len output_u64

/-- `ec_ws_scalar_multiply` of ec_ws.c, for non-null arguments and successful
allocations: the point after the call.  `expand_seed` (not among the sources)
is the seed-expansion function: `expand_seed seed words` is the word array it
writes to `factor`. -/
def ec_ws_scalar_multiply (ar : MontArith) (expand_seed : Nat → Nat → List Nat)
    (ecp : EcPoint) (k : List Nat) (len seed : Nat) : Except Err EcPoint :=
  let ctx := ecp.ec_ctx.mont_ctx
  if len = 0 then .error Err.ERR_NOT_ENOUGH_DATA
  else if seed ≠ 0 then
    let factor := expand_seed seed ctx.words
    let z := mont_mult false ecp.z factor ctx
    let factor_pow := mont_mult true factor factor ctx
    let x := mont_mult false ecp.x factor_pow ctx
    let factor_pow := mont_mult false factor_pow factor ctx
    let y := mont_mult false ecp.y factor_pow ctx
    let blind_scalar := blind_scalar_factor k len (seed % 4294967296) ecp.ec_ctx.order ctx.words
    let r := ec_exp ar x y z blind_scalar ctx
    .ok { ecp with x := r.1, y := r.2.1, z := r.2.2 }
  else
    let r := ec_exp ar ecp.x ecp.y ecp.z (k.take len) ctx
    .ok { ecp with x := r.1, y := r.2.1, z := r.2.2 }

/-- The block "Blind the base point" of `ec_ws_scalar_multiply`: the point
after the five `mont_mult` that multiply z by `factor`, x by its square and y
by its cube (`factor_pow` holds the square, then the cube). -/
def blind_base_point (factor : List Nat) (ecp : EcPoint) : EcPoint :=
  let ctx := ecp.ec_ctx.mont_ctx
  let z := mont_mult false ecp.z factor ctx
  let factor_pow := mont_mult true factor factor ctx
  let x := mont_mult false ecp.x factor_pow ctx
  let factor_pow := mont_mult false factor_pow factor ctx
  let y := mont_mult false ecp.y factor_pow ctx
  { ecp with x := x, y := y, z := z }

/-- The block "Blind the scalar" of `ec_ws_scalar_multiply`: the byte string
`blind_scalar` that is passed to `ec_exp` when the seed is not zero, the output
of `blind_scalar_factor` for the factor `(uint32_t)seed`. -/
def blind_scalar (ecp : EcPoint) (k : List Nat) (len seed : Nat) : List Nat :=
  blind_scalar_factor k len (seed % 4294967296) ecp.ec_ctx.order ecp.ec_ctx.mont_ctx.words

/-- `ec_ws_clone` of ec_ws.c, for successful allocations. -/
def ec_ws_clone (ecp : EcPoint) : EcPoint :=
  let ctx := ecp.ec_ctx.mont_ctx
  { ec_ctx := ecp.ec_ctx, x := mont_copy ecp.x ctx, y := mont_copy ecp.y ctx,
    z := mont_copy ecp.z ctx }

/-- `ec_ws_cmp` of ec_ws.c, for non-null points: the `int` it returns, or the
error for points of different curves. -/
def ec_ws_cmp (ecp1 ecp2 : EcPoint) : Except Err Int :=
  if ecp1.ec_ctx ≠ ecp2.ec_ctx then .error Err.ERR_EC_CURVE
  else
    let ctx := ecp1.ec_ctx.mont_ctx
    if mont_is_zero ecp1.z ctx && mont_is_zero ecp2.z ctx then .ok 0
    else if mont_is_equal ecp1.z ecp2.z ctx then
      .ok (if !mont_is_equal ecp1.x ecp2.x ctx || !mont_is_equal ecp1.y ecp2.y ctx then 1 else 0)
    else
      let a := mont_mult true ecp2.z ecp2.z ctx
      let b := mont_mult false ecp1.x a ctx
      let c := mont_mult true ecp1.z ecp1.z ctx
      let d := mont_mult false ecp2.x c ctx
      if !mont_is_equal b d ctx then .ok (-1)
      else
        let a := mont_mult false ecp2.z a ctx
        let e := mont_mult false ecp1.y a ctx
        let c := mont_mult false ecp1.z c ctx
        let f := mont_mult false ecp2.y c ctx
        if !mont_is_equal e f ctx then .ok (-2)
        else .ok 0

/-- `ec_ws_neg` of ec_ws.c, for a non-null point: the point after the call.
`mont_sub` is the parameter `ar`; its first operand is the modulus itself. -/
def ec_ws_neg (ar : MontArith) (p : EcPoint) : EcPoint :=
  let ctx := p.ec_ctx.mont_ctx
  { p with y := ar.mont_sub ctx.modulus p.y ctx }

/-- The residue modulo N of the number held by an array. -/
def res (ctx : MontContext) (a : List Nat) : ZMod (wval ctx.modulus) :=
  (wval a : ZMod (wval ctx.modulus))

/-- The inverse of R = 2^(64 words) modulo N, as a residue: the product of two
Montgomery numbers u and v is u * v * rinv. -/
def rinv (ctx : MontContext) : ZMod (wval ctx.modulus) :=
  ((W64 ^ ctx.words : Nat) : ZMod (wval ctx.modulus))⁻¹

/-- The residue that a Montgomery number stands for: the residue of the
array times the inverse of R. -/
def dec (ctx : MontContext) (a : List Nat) : ZMod (wval ctx.modulus) := res ctx a * rinv ctx

/-- A valid point of the data model: each coordinate is a Montgomery number
of the context, an array of `words` words with a value below the modulus. -/
def PointOk (p : EcPoint) : Prop :=
  (p.x.length = p.ec_ctx.mont_ctx.words ∧ WordsOk p.x ∧
    wval p.x < wval p.ec_ctx.mont_ctx.modulus) ∧
  (p.y.length = p.ec_ctx.mont_ctx.words ∧ WordsOk p.y ∧
    wval p.y < wval p.ec_ctx.mont_ctx.modulus) ∧
  (p.z.length = p.ec_ctx.mont_ctx.words ∧ WordsOk p.z ∧
    wval p.z < wval p.ec_ctx.mont_ctx.modulus)

instance (p : EcPoint) : Decidable (PointOk p) := by
  unfold PointOk; infer_instance

/-- The prime of NIST P-256, 2^256 - 2^224 + 2^192 + 2^96 - 1, on 32 bytes. -/
def p256_modulus : List Nat :=
  to_be_bytes 32 0xFFFFFFFF00000001000000000000000000000000FFFFFFFFFFFFFFFFFFFFFFFF

/-- The order of the group of NIST P-256. -/
def p256_order : List Nat :=
  to_be_bytes 32 0xFFFFFFFF00000000FFFFFFFFFFFFFFFFBCE6FAADA7179E84F3B9CAC2FC632551

/-- The x coordinate of the generator G of NIST P-256. -/
def p256_Gx : List Nat :=
  to_be_bytes 32 0x6B17D1F2E12C4247F8BCE6E563A440F277037D812DEB33A0F4A13945D898C296

/-- The y coordinate of the generator G of NIST P-256. -/
def p256_Gy : List Nat :=
  to_be_bytes 32 0x4FE342E2FE1A7F9B8EE7EB4A7C0F9E162BCE33576B315ECECBB6406837BF51F5

/-- The x coordinate 5 of a point of NIST P-256. -/
def p256_x5 : List Nat := to_be_bytes 32 5

/-- A y coordinate of the point of NIST P-256 with x = 5. -/
def p256_y5 : List Nat :=
  to_be_bytes 32 0x459243B9AA581806FE913BCE99817ADE11CA503C64D9A3C533415C083248FBCC

/-- The EC context of NIST P-256, as `ec_ws_new_context` builds it. -/
def p256_ctx : EcContext :=
  { mont_ctx := mont_context_build p256_modulus,
    b := [15608596021259845087, 12461466548982526096, 16546823903870267094,
      15866188208926050356],
    order := bytes_to_words 4 p256_order }

/-- The point (5, y5) of NIST P-256, as `ec_ws_new_point` builds it. -/
def p256_p5 : EcPoint :=
  { ec_ctx := p256_ctx,
    x := [5, 18446744052234715136, 18446744073709551615, 21474836474],
    y := [1161345275794897124, 12253228564591697010, 2360158210429715858,
      17602631727593010051],
    z := [1, 18446744069414584320, 18446744073709551615, 4294967294] }

/-- The EC context of the curve y^2 = x^3 - 3x + 28 over the field of 31
elements (a group of 39 points), as `ec_ws_new_context` builds it from
one-byte parameters. -/
def c31_ctx : EcContext :=
  { mont_ctx := mont_context_build [31], b := [14], order := [39] }

/-- The point (24, 4) of the curve over the field of 31 elements, as
`ec_ws_new_point` builds it. -/
def c31_p : EcPoint := { ec_ctx := c31_ctx, x := [12], y := [2], z := [16] }

/-- The EC context of the curve y^2 = x^3 - 3x + 4 over the field of 7 elements
(a group of 10 points), as `ec_ws_new_context` builds it from one-byte
parameters. -/
def c7_ctx : EcContext :=
  { mont_ctx := mont_context_build [7], b := [1], order := [10] }

/-- The point (4, 0) of order 2 of the curve over the field of 7 elements, as
`ec_ws_new_point` builds it. -/
def c7_p : EcPoint := { ec_ctx := c7_ctx, x := [1], y := [0], z := [2] }

/-- The triple (0, 0, 0) on the curve over the field of 31 elements: canonical
coordinates with z = 0. -/
def c31_zero : EcPoint := { ec_ctx := c31_ctx, x := [0], y := [0], z := [0] }

/-- The point (24, 4) of the curve over the field of 31 elements in the
Jacobian coordinates (24 * 2^2, 4 * 2^3, 2), in Montgomery form. -/
def c31_p2 : EcPoint := { ec_ctx := c31_ctx, x := [17], y := [16], z := [1] }

/-- A point structure with z != 1 and canonical coordinates for the curve
context over the field of 31 elements: the Montgomery forms of (16, 15, 8). -/
def c31_p3 : EcPoint := { ec_ctx := c31_ctx, x := [8], y := [23], z := [4] }

/-- The EC context of the curve y^2 = x^3 - 3x + 6 over the field of 7 elements
(a group of prime order 11), as `ec_ws_new_context` builds it from one-byte
parameters. -/
def c7b_ctx : EcContext :=
  { mont_ctx := mont_context_build [7], b := [5], order := [11] }

/-- The point (1, 2) of the curve y^2 = x^3 - 3x + 6 over the field of 7
elements, as `ec_ws_new_point` builds it. -/
def c7b_p : EcPoint := { ec_ctx := c7b_ctx, x := [2], y := [4], z := [2] }

end EcWs

namespace Mont

/-! ## Basic facts on word arrays -/

theorem W64_pos : 0 < W64 := by unfold W64; omega

theorem W64_eq : W64 = 2 ^ 64 := by unfold W64; norm_num

theorem WordsOk_nil : WordsOk [] := by intro x hx; cases hx

theorem WordsOk_cons {x : Nat} {l : List Nat} :
    WordsOk (x :: l) ↔ x < W64 ∧ WordsOk l := by
  unfold WordsOk; simp

theorem WordsOk_append {l r : List Nat} :
    WordsOk (l ++ r) ↔ WordsOk l ∧ WordsOk r := by
  unfold WordsOk
  constructor
  · intro h
    exact ⟨fun x hx => h x (List.mem_append_left _ hx),
      fun x hx => h x (List.mem_append_right _ hx)⟩
  · rintro ⟨h1, h2⟩ x hx
    rcases List.mem_append.mp hx with h | h
    · exact h1 x h
    · exact h2 x h

theorem WordsOk_take {l : List Nat} (h : WordsOk l) (i : Nat) : WordsOk (l.take i) :=
  fun x hx => h x (List.mem_of_mem_take hx)

theorem WordsOk_drop {l : List Nat} (h : WordsOk l) (i : Nat) : WordsOk (l.drop i) :=
  fun x hx => h x (List.mem_of_mem_drop hx)

theorem WordsOk_replicate_zero (k : Nat) : WordsOk (List.replicate k 0) := by
  intro x hx
  rw [List.eq_of_mem_replicate hx]
  exact W64_pos

theorem wval_nil : wval [] = 0 := rfl

theorem wval_cons (x : Nat) (l : List Nat) : wval (x :: l) = x + W64 * wval l := rfl

theorem wval_append (l r : List Nat) :
    wval (l ++ r) = wval l + W64 ^ l.length * wval r := by
  induction l with
  | nil => simp [wval]
  | cons x l ih =>
    simp only [List.cons_append, wval_cons, ih, List.length_cons, pow_succ]
    ring

theorem wval_lt {l : List Nat} (h : WordsOk l) : wval l < W64 ^ l.length := by
  induction l with
  | nil => simp [wval]
  | cons x l ih =>
    rw [WordsOk_cons] at h
    have h1 := ih h.2
    have h2 := h.1
    rw [wval_cons, List.length_cons, pow_succ, Nat.mul_comm (W64 ^ l.length) W64]
    have h3 : W64 * (wval l + 1) ≤ W64 * W64 ^ l.length := Nat.mul_le_mul_left _ h1
    rw [Nat.mul_succ] at h3
    omega

theorem wval_replicate_zero (k : Nat) : wval (List.replicate k 0) = 0 := by
  induction k with
  | zero => rfl
  | succ k ih => simp [List.replicate_succ, wval_cons, ih]

theorem wval_take_add_drop (l : List Nat) (i : Nat) (hi : i ≤ l.length) :
    wval l = wval (l.take i) + W64 ^ i * wval (l.drop i) := by
  conv_lhs => rw [← List.take_append_drop i l]
  rw [wval_append, List.length_take, Nat.min_eq_left hi]

theorem wval_drop {l : List Nat} (h : WordsOk l) (i : Nat) (hi : i ≤ l.length) :
    wval (l.drop i) = wval l / W64 ^ i := by
  have h1 := wval_take_add_drop l i hi
  have h2 : wval (l.take i) < W64 ^ i := by
    have := wval_lt (WordsOk_take h i)
    rwa [List.length_take, Nat.min_eq_left hi] at this
  have hp : 0 < W64 ^ i := pow_pos W64_pos i
  rw [h1, Nat.add_mul_div_left _ _ hp, Nat.div_eq_of_lt h2, zero_add]

theorem wval_take {l : List Nat} (h : WordsOk l) (i : Nat) (hi : i ≤ l.length) :
    wval (l.take i) = wval l % W64 ^ i := by
  have h1 := wval_take_add_drop l i hi
  have h2 : wval (l.take i) < W64 ^ i := by
    have := wval_lt (WordsOk_take h i)
    rwa [List.length_take, Nat.min_eq_left hi] at this
  rw [h1, Nat.add_mul_mod_self_left, Nat.mod_eq_of_lt h2]

theorem getD_eq_digit {l : List Nat} (h : WordsOk l) (i : Nat) :
    l.getD i 0 = wval l / W64 ^ i % W64 := by
  induction l generalizing i with
  | nil => simp [wval]
  | cons x l ih =>
    rw [WordsOk_cons] at h
    cases i with
    | zero =>
      simp only [List.getD_cons_zero, pow_zero, Nat.div_one, wval_cons]
      rw [Nat.add_mul_mod_self_left, Nat.mod_eq_of_lt h.1]
    | succ i =>
      simp only [List.getD_cons_succ, wval_cons, pow_succ]
      rw [ih h.2 i, mul_comm (W64 ^ i) W64, ← Nat.div_div_eq_div_mul,
        Nat.add_mul_div_left _ _ W64_pos, Nat.div_eq_of_lt h.1, zero_add]

theorem wval_inj {l r : List Nat} (hl : WordsOk l) (hr : WordsOk r)
    (hlen : l.length = r.length) (hv : wval l = wval r) : l = r := by
  induction l generalizing r with
  | nil =>
    cases r with
    | nil => rfl
    | cons y r => simp at hlen
  | cons x l ih =>
    cases r with
    | nil => simp at hlen
    | cons y r =>
      rw [WordsOk_cons] at hl hr
      simp only [wval_cons] at hv
      have hx : x = y := by
        have := congrArg (· % W64) hv
        simp only [Nat.add_mul_mod_self_left] at this
        rwa [Nat.mod_eq_of_lt hl.1, Nat.mod_eq_of_lt hr.1] at this
      subst hx
      have hv2 : wval l = wval r := by
        have h3 : W64 * wval l = W64 * wval r := by omega
        exact Nat.eq_of_mul_eq_mul_left W64_pos h3
      rw [ih hl.2 hr.2 (by simpa using hlen) hv2]

end Mont

namespace Mont

/-! ## `sub`, `ge`, `addmul` -/

theorem cons_mod (a B n : Nat) (ha : a < W64) :
    (a + W64 * B) % W64 ^ (n + 1) = a + W64 * (B % W64 ^ n) := by
  rw [pow_succ, mul_comm (W64 ^ n) W64, Nat.mod_mul, Nat.add_mul_mod_self_left,
    Nat.mod_eq_of_lt ha, Nat.add_mul_div_left _ _ W64_pos, Nat.div_eq_of_lt ha, zero_add]

theorem lor_bits (x y : Nat) (hx : x ≤ 1) (hy : y ≤ 1) :
    x ||| y = if x = 0 ∧ y = 0 then 0 else 1 := by
  interval_cases x <;> interval_cases y <;> decide

theorem lt64_le_one (a b : Nat) : lt64 a b ≤ 1 := by
  unfold lt64; split <;> omega

theorem sub64_eq (a b : Nat) (ha : a < W64) (hb : b < W64) :
    sub64 a b < W64 ∧ (b ≤ a → sub64 a b = a - b) ∧ (a < b → sub64 a b = a + W64 - b) := by
  unfold sub64 W64 at *
  omega

theorem lt64_pos {a b : Nat} (h : a < b) : lt64 a b = 1 := by simp [lt64, h]

theorem lt64_neg {a b : Nat} (h : b ≤ a) : lt64 a b = 0 := by
  simp [lt64, Nat.not_lt.mpr h]

theorem sub_step (a b bin : Nat) (ha : a < W64) (hb : b < W64) (hbin : bin ≤ 1) :
    a + W64 * (lt64 a b ||| lt64 (sub64 a b) bin) = sub64 (sub64 a b) bin + b + bin ∧
    sub64 (sub64 a b) bin < W64 ∧ (lt64 a b ||| lt64 (sub64 a b) bin) ≤ 1 := by
  rw [lor_bits _ _ (lt64_le_one _ _) (lt64_le_one _ _)]
  obtain ⟨h1, h2, h3⟩ := sub64_eq a b ha hb
  have hbin' : bin < W64 := by unfold W64; omega
  obtain ⟨h4, h5, h6⟩ := sub64_eq (sub64 a b) bin h1 hbin'
  generalize sub64 (sub64 a b) bin = o at *
  generalize sub64 a b = o1 at *
  refine ⟨?_, h4, by split_ifs <;> omega⟩
  rcases Nat.lt_or_ge a b with c1 | c1
  · have e1 := h3 c1
    rcases Nat.lt_or_ge o1 bin with c2 | c2
    · have e2 := h6 c2
      rw [lt64_pos c1, lt64_pos c2]
      unfold W64 at *
      simp only [one_ne_zero, and_self, if_false]
      omega
    · have e2 := h5 c2
      rw [lt64_pos c1, lt64_neg c2]
      unfold W64 at *
      simp only [one_ne_zero, false_and, if_false]
      omega
  · have e1 := h2 c1
    rcases Nat.lt_or_ge o1 bin with c2 | c2
    · have e2 := h6 c2
      rw [lt64_neg c1, lt64_pos c2]
      unfold W64 at *
      simp only [one_ne_zero, and_false, if_false]
      omega
    · have e2 := h5 c2
      rw [lt64_neg c1, lt64_neg c2]
      unfold W64 at *
      simp only [and_self, if_true]
      omega

theorem sub_loop_spec (a b : List Nat) (bin : Nat) (hlen : a.length = b.length)
    (ha : WordsOk a) (hb : WordsOk b) (hbin : bin ≤ 1) :
    (sub_loop a b bin).1.length = a.length ∧ WordsOk (sub_loop a b bin).1 ∧
    (sub_loop a b bin).2 ≤ 1 ∧
    wval a + W64 ^ a.length * (sub_loop a b bin).2
      = wval (sub_loop a b bin).1 + wval b + bin := by
  induction a generalizing b bin with
  | nil =>
    cases b with
    | nil => simp [sub_loop, wval, WordsOk_nil, hbin]
    | cons y b => simp at hlen
  | cons x a ih =>
    cases b with
    | nil => simp at hlen
    | cons y b =>
      rw [WordsOk_cons] at ha hb
      obtain ⟨h1, h2, h3⟩ := sub_step x y bin ha.1 hb.1 hbin
      obtain ⟨i1, i2, i3, i4⟩ := ih b _ (by simpa using hlen) ha.2 hb.2 h3
      simp only [sub_loop, List.length_cons, wval_cons, WordsOk_cons]
      refine ⟨by rw [i1], ⟨h2, i2⟩, i3, ?_⟩
      rw [pow_succ]
      have e1 : W64 * (wval a + W64 ^ a.length * (sub_loop a b (lt64 x y ||| lt64 (sub64 x y) bin)).2)
          = W64 * (wval (sub_loop a b (lt64 x y ||| lt64 (sub64 x y) bin)).1 + wval b +
            (lt64 x y ||| lt64 (sub64 x y) bin)) := by rw [i4]
      nlinarith [e1, h1]

/-- `sub` computes the difference modulo 2^(64 nw) and the borrow. -/
theorem sub_spec (a b : List Nat) (nw : Nat) (hla : nw ≤ a.length) (hlb : nw ≤ b.length)
    (ha : WordsOk a) (hb : WordsOk b) :
    (sub a b nw).1.length = nw ∧ WordsOk (sub a b nw).1 ∧ (sub a b nw).2 ≤ 1 ∧
    wval (a.take nw) + W64 ^ nw * (sub a b nw).2
      = wval (sub a b nw).1 + wval (b.take nw) := by
  have hl : (a.take nw).length = (b.take nw).length := by
    rw [List.length_take, List.length_take, Nat.min_eq_left hla, Nat.min_eq_left hlb]
  obtain ⟨i1, i2, i3, i4⟩ := sub_loop_spec (a.take nw) (b.take nw) 0 hl
    (WordsOk_take ha nw) (WordsOk_take hb nw) (by omega)
  rw [List.length_take, Nat.min_eq_left hla] at i1 i4
  exact ⟨i1, i2, i3, by simpa using i4⟩

theorem ge_loop_mask_zero (xs ys : List Nat) (r : Nat) : ge_loop xs ys 0 r = r := by
  induction xs generalizing ys r with
  | nil => cases ys <;> simp [ge_loop]
  | cons x xs ih =>
    cases ys with
    | nil => simp [ge_loop]
    | cons y ys => simp [ge_loop, ih]

theorem ge_loop_spec (xs ys : List Nat) (hlen : xs.length = ys.length)
    (hx : WordsOk xs) (hy : WordsOk ys) :
    ge_loop xs ys 4294967295 0 =
      if wval xs.reverse = wval ys.reverse then 0
      else if wval ys.reverse < wval xs.reverse then 1 else 2 := by
  induction xs generalizing ys with
  | nil =>
    cases ys with
    | nil => simp [ge_loop]
    | cons y ys => simp at hlen
  | cons x xs ih =>
    cases ys with
    | nil => simp at hlen
    | cons y ys =>
      rw [WordsOk_cons] at hx hy
      have hl : xs.length = ys.length := by simpa using hlen
      have bx : wval xs.reverse < W64 ^ xs.length := by
        have := wval_lt (l := xs.reverse) (fun v hv => hx.2 v (List.mem_reverse.mp hv))
        simpa using this
      have bY : wval ys.reverse < W64 ^ xs.length := by
        have := wval_lt (l := ys.reverse) (fun v hv => hy.2 v (List.mem_reverse.mp hv))
        rw [hl]; simpa using this
      simp only [List.reverse_cons, wval_append, List.length_reverse, wval_cons, wval_nil,
        mul_zero, add_zero, ← hl]
      have hp : 0 < W64 ^ xs.length := pow_pos W64_pos _
      rcases Nat.lt_trichotomy x y with h | h | h
      · have e : ge_loop (x :: xs) (y :: ys) 4294967295 0 = 2 := by
          have h' : ¬ y < x := by omega
          simp only [ge_loop, lt64, h, h', if_true, if_false]
          exact ge_loop_mask_zero _ _ _
        rw [e]
        have : wval xs.reverse + W64 ^ xs.length * x < wval ys.reverse + W64 ^ xs.length * y := by
          have : W64 ^ xs.length * (x + 1) ≤ W64 ^ xs.length * y := Nat.mul_le_mul_left _ h
          rw [Nat.mul_succ] at this
          omega
        rw [if_neg (by omega), if_neg (by omega)]
      · subst h
        have e : ge_loop (x :: xs) (x :: ys) 4294967295 0 = ge_loop xs ys 4294967295 0 := by
          simp only [ge_loop, lt64, lt_irrefl, if_false]
          rfl
        rw [e, ih ys hl hx.2 hy.2]
        simp only [Nat.add_right_cancel_iff, Nat.add_lt_add_iff_right]
      · have e : ge_loop (x :: xs) (y :: ys) 4294967295 0 = 1 := by
          have h' : ¬ x < y := by omega
          simp only [ge_loop, lt64, h, h', if_true, if_false]
          exact ge_loop_mask_zero _ _ _
        rw [e]
        have : wval ys.reverse + W64 ^ xs.length * y < wval xs.reverse + W64 ^ xs.length * x := by
          have : W64 ^ xs.length * (y + 1) ≤ W64 ^ xs.length * x := Nat.mul_le_mul_left _ h
          rw [Nat.mul_succ] at this
          omega
        rw [if_neg (by omega), if_pos (by omega)]

/-- `ge` returns 1 exactly when x >= y as integers, and 0 otherwise. -/
theorem ge_spec (x y : List Nat) (nw : Nat) (hlx : nw ≤ x.length) (hly : nw ≤ y.length)
    (hx : WordsOk x) (hy : WordsOk y) :
    ge x y nw = if wval (y.take nw) ≤ wval (x.take nw) then 1 else 0 := by
  unfold ge
  rw [ge_loop_spec _ _ (by simp [Nat.min_eq_left hlx, Nat.min_eq_left hly])
    (fun v hv => hx v (List.mem_of_mem_take (List.mem_reverse.mp hv)))
    (fun v hv => hy v (List.mem_of_mem_take (List.mem_reverse.mp hv)))]
  simp only [List.reverse_reverse]
  unfold lt64
  split_ifs <;> omega

end Mont

namespace Mont

theorem add64_lt (a b : Nat) : add64 a b < W64 := Nat.mod_lt _ W64_pos

theorem mul64_lt (a b : Nat) : mul64 a b < W64 := Nat.mod_lt _ W64_pos

theorem mul_le_sq {a k : Nat} (ha : a < W64) (hk : k < W64) :
    a * k ≤ (W64 - 1) * (W64 - 1) :=
  Nat.mul_le_mul (by omega) (by omega)

theorem addmul_step (x ai k carry : Nat) (hx : x < W64) (hai : ai < W64) (hk : k < W64)
    (hc : carry < W64) :
    add64 x (add64 (dp_mult_lo ai k) carry)
      + W64 * add64 (add64 (dp_mult_hi ai k) (lt64 (add64 (dp_mult_lo ai k) carry) carry))
          (lt64 (add64 x (add64 (dp_mult_lo ai k) carry)) (add64 (dp_mult_lo ai k) carry))
      = x + ai * k + carry := by
  have hp := mul_le_sq hai hk
  unfold add64 dp_mult_lo dp_mult_hi lt64 at *
  generalize ai * k = p at *
  unfold W64 at *
  split_ifs <;> omega

theorem addmul_carry_spec (t : List Nat) (carry : Nat) (ht : WordsOk t) (hc : carry < W64) :
    (addmul_carry t carry).length = t.length ∧ WordsOk (addmul_carry t carry) ∧
    wval (addmul_carry t carry) = (wval t + carry) % W64 ^ t.length := by
  induction t generalizing carry with
  | nil => simp [addmul_carry, WordsOk_nil, wval, Nat.mod_one]
  | cons x t ih =>
    rw [WordsOk_cons] at ht
    unfold addmul_carry
    by_cases h0 : carry = 0
    · subst h0
      simp only [if_true, add_zero]
      refine ⟨trivial, WordsOk_cons.mpr ht, ?_⟩
      rw [Nat.mod_eq_of_lt (wval_lt (WordsOk_cons.mpr ht))]
    · simp only [h0, if_false, List.length_cons, WordsOk_cons, wval_cons]
      have hl : lt64 (add64 x carry) carry < W64 := by
        have := lt64_le_one (add64 x carry) carry
        unfold W64; omega
      obtain ⟨i1, i2, i3⟩ := ih _ ht.2 hl
      refine ⟨by rw [i1], ⟨add64_lt _ _, i2⟩, ?_⟩
      rw [i3]
      have key : add64 x carry + W64 * lt64 (add64 x carry) carry = x + carry := by
        have hx := ht.1
        unfold add64 lt64 W64 at *
        split_ifs <;> omega
      rw [← cons_mod _ _ _ (add64_lt _ _)]
      congr 1
      rw [mul_add, ← add_assoc, add_right_comm, key]
      ring

theorem addmul_loop_spec (t a : List Nat) (k carry : Nat) (ht : WordsOk t) (ha : WordsOk a)
    (hk : k < W64) (hc : carry < W64) (hlen : a.length ≤ t.length) :
    (addmul_loop t a k carry).length = t.length ∧ WordsOk (addmul_loop t a k carry) ∧
    wval (addmul_loop t a k carry) = (wval t + wval a * k + carry) % W64 ^ t.length := by
  induction t generalizing a carry with
  | nil =>
    cases a with
    | nil => simp [addmul_loop, addmul_carry, WordsOk_nil, wval, Nat.mod_one]
    | cons y a => simp at hlen
  | cons x t ih =>
    cases a with
    | nil =>
      have := addmul_carry_spec (x :: t) carry ht hc
      simpa [addmul_loop, wval] using this
    | cons ai a =>
      rw [WordsOk_cons] at ht ha
      have key := addmul_step x ai k carry ht.1 ha.1 hk hc
      simp only [addmul_loop, List.length_cons, WordsOk_cons, wval_cons]
      obtain ⟨i1, i2, i3⟩ := ih a _ ht.2 ha.2 (add64_lt _ _) (by simpa using hlen)
      refine ⟨by rw [i1], ⟨add64_lt _ _, i2⟩, ?_⟩
      rw [i3, ← cons_mod _ _ _ (add64_lt _ _)]
      congr 1
      rw [mul_add, ← add_assoc]
      have e : ∀ A B C D : Nat, A + (B + C) + D = (A + D) + B + C := by intros; ring
      rw [mul_add, e, key]
      ring

/-- `addmul` adds a*k to the array t, modulo the size of t. -/
theorem addmul_spec (t a : List Nat) (aw k : Nat) (ht : WordsOk t) (ha : WordsOk a)
    (hk : k < W64) (hlen : aw ≤ t.length) :
    (addmul t a aw k).length = t.length ∧ WordsOk (addmul t a aw k) ∧
    wval (addmul t a aw k) = (wval t + wval (a.take aw) * k) % W64 ^ t.length := by
  have hl : (a.take aw).length ≤ t.length := by
    rw [List.length_take]; exact le_trans (Nat.min_le_left _ _) hlen
  simpa [addmul] using addmul_loop_spec t (a.take aw) k 0 ht (WordsOk_take ha aw) hk W64_pos hl

/-- The model of `addmul128` adds a*(b0 + b1*2^64), modulo the size of t. -/
theorem addmul128_spec (t a : List Nat) (b0 b1 nw : Nat) (ht : WordsOk t) (ha : WordsOk a)
    (h0 : b0 < W64) (h1 : b1 < W64) (hlen : nw + 1 ≤ t.length) :
    (addmul128 t a b0 b1 nw).length = t.length ∧ WordsOk (addmul128 t a b0 b1 nw) ∧
    wval (addmul128 t a b0 b1 nw)
      = (wval t + wval (a.take nw) * (b0 + W64 * b1)) % W64 ^ t.length := by
  obtain ⟨i1, i2, i3⟩ := addmul_spec t a nw b0 ht ha h0 (by omega)
  unfold addmul128
  cases hr : addmul t a nw b0 with
  | nil => rw [hr] at i1; simp at i1; omega
  | cons x t1 =>
    rw [hr] at i1 i2 i3
    rw [WordsOk_cons] at i2
    simp only [List.length_cons] at i1
    obtain ⟨j1, j2, j3⟩ := addmul_spec t1 a nw b1 i2.2 ha h1 (by omega)
    simp only [List.length_cons, WordsOk_cons, wval_cons]
    refine ⟨by rw [j1, i1], ⟨i2.1, j2⟩, ?_⟩
    rw [j3]
    obtain ⟨n, hn⟩ : ∃ n, t.length = n + 1 := ⟨t.length - 1, by omega⟩
    have hn1 : t1.length = n := by omega
    rw [hn1, ← cons_mod _ _ _ i2.1, hn]
    rw [hn, wval_cons] at i3
    rw [mul_add, ← add_assoc, i3, Nat.mod_add_mod]
    congr 1
    ring

end Mont

namespace Mont

/-! ## `product` -/

theorem mod_pow_split (A B i m : Nat) (hA : A < W64 ^ i) :
    (A + W64 ^ i * B) % W64 ^ (i + m) = A + W64 ^ i * (B % W64 ^ m) := by
  have hp : 0 < W64 ^ i := pow_pos W64_pos i
  rw [pow_add, Nat.mod_mul, Nat.add_mul_mod_self_left, Nat.mod_eq_of_lt hA,
    Nat.add_mul_div_left _ _ hp, Nat.div_eq_of_lt hA, zero_add]

/-- Rewriting the part of `t` that starts at index `i` (the C pointer `&t[i]`). -/
theorem wval_splice (t r : List Nat) (i X : Nat) (hi : i ≤ t.length) (ht : WordsOk t)
    (hr : wval r = (wval (t.drop i) + X) % W64 ^ (t.length - i)) :
    wval (t.take i ++ r) = (wval t + W64 ^ i * X) % W64 ^ t.length := by
  have h2 : wval (t.take i) < W64 ^ i := by
    have := wval_lt (WordsOk_take ht i)
    rwa [List.length_take, Nat.min_eq_left hi] at this
  rw [wval_append, List.length_take, Nat.min_eq_left hi, hr]
  conv_rhs => rw [wval_take_add_drop t i hi, add_assoc, ← mul_add,
    show t.length = i + (t.length - i) by omega]
  rw [mod_pow_split _ _ _ _ h2]

theorem splice_length (t r : List Nat) (i : Nat) (hi : i ≤ t.length)
    (hr : r.length = (t.drop i).length) : (t.take i ++ r).length = t.length := by
  rw [List.length_append, List.length_take, Nat.min_eq_left hi, hr, List.length_drop]
  omega

theorem addmul_at_spec (t a : List Nat) (i aw k : Nat) (ht : WordsOk t) (ha : WordsOk a)
    (hk : k < W64) (hlen : i + aw ≤ t.length) :
    (t.take i ++ addmul (t.drop i) a aw k).length = t.length ∧
    WordsOk (t.take i ++ addmul (t.drop i) a aw k) ∧
    wval (t.take i ++ addmul (t.drop i) a aw k)
      = (wval t + W64 ^ i * (wval (a.take aw) * k)) % W64 ^ t.length := by
  obtain ⟨i1, i2, i3⟩ := addmul_spec (t.drop i) a aw k (WordsOk_drop ht i) ha hk
    (by rw [List.length_drop]; omega)
  refine ⟨splice_length _ _ _ (by omega) i1, WordsOk_append.mpr ⟨WordsOk_take ht i, i2⟩, ?_⟩
  apply wval_splice _ _ _ _ (by omega) ht
  rw [i3, List.length_drop]

theorem addmul128_at_spec (t a : List Nat) (i nw b0 b1 : Nat) (ht : WordsOk t)
    (ha : WordsOk a) (h0 : b0 < W64) (h1 : b1 < W64) (hlen : i + nw + 1 ≤ t.length) :
    (t.take i ++ addmul128 (t.drop i) a b0 b1 nw).length = t.length ∧
    WordsOk (t.take i ++ addmul128 (t.drop i) a b0 b1 nw) ∧
    wval (t.take i ++ addmul128 (t.drop i) a b0 b1 nw)
      = (wval t + W64 ^ i * (wval (a.take nw) * (b0 + W64 * b1))) % W64 ^ t.length := by
  obtain ⟨i1, i2, i3⟩ := addmul128_spec (t.drop i) a b0 b1 nw (WordsOk_drop ht i) ha h0 h1
    (by rw [List.length_drop]; omega)
  refine ⟨splice_length _ _ _ (by omega) i1, WordsOk_append.mpr ⟨WordsOk_take ht i, i2⟩, ?_⟩
  apply wval_splice _ _ _ _ (by omega) ht
  rw [i3, List.length_drop]

theorem product_loop_spec (a : List Nat) (nw : Nat) (ha : WordsOk a) :
    ∀ (k : Nat) (b : List Nat) (i : Nat) (t : List Nat), b.length ≤ k → WordsOk b →
      WordsOk t → i + b.length + nw ≤ t.length →
      (product_loop a nw b i t).length = t.length ∧ WordsOk (product_loop a nw b i t) ∧
      wval (product_loop a nw b i t)
        = (wval t + W64 ^ i * (wval (a.take nw) * wval b)) % W64 ^ t.length := by
  intro k
  induction k with
  | zero =>
    intro b i t hb _ ht _
    have : b = [] := List.length_eq_zero.mp (by omega)
    subst this
    simp only [product_loop, wval_nil, mul_zero, add_zero]
    exact ⟨trivial, ht, (Nat.mod_eq_of_lt (wval_lt ht)).symm⟩
  | succ k ih =>
    intro b i t hb hbo ht hlen
    match b, hb, hbo, hlen with
    | [], _, _, _ =>
      simp only [product_loop, wval_nil, mul_zero, add_zero]
      exact ⟨trivial, ht, (Nat.mod_eq_of_lt (wval_lt ht)).symm⟩
    | [b0], _, hbo, hlen =>
      simp only [product_loop, wval_cons, wval_nil, mul_zero, add_zero]
      simp only [List.length_singleton] at hlen
      exact addmul_at_spec t a i nw b0 ht ha (hbo b0 (by simp)) (by omega)
    | b0 :: b1 :: bs, hb, hbo, hlen =>
      simp only [List.length_cons] at hlen hb
      rw [WordsOk_cons, WordsOk_cons] at hbo
      obtain ⟨i1, i2, i3⟩ := addmul128_at_spec t a i nw b0 b1 ht ha hbo.1 hbo.2.1 (by omega)
      obtain ⟨j1, j2, j3⟩ := ih bs (i + 2) _ (by omega) hbo.2.2 i2 (by rw [i1]; omega)
      simp only [product_loop]
      refine ⟨by rw [j1, i1], j2, ?_⟩
      rw [j3, i3, i1, Nat.mod_add_mod]
      congr 1
      simp only [wval_cons, pow_succ]
      ring

/-- `product` leaves a*b in the scratchpad, above it what was there before. -/
theorem product_spec (t a b : List Nat) (nw : Nat) (ht : WordsOk t) (ha : WordsOk a)
    (hb : WordsOk b) (hla : a.length = nw) (hlb : b.length = nw)
    (hlt : 2 * nw + 1 ≤ t.length) :
    (product t a b nw).length = t.length ∧ WordsOk (product t a b nw) ∧
    wval (product t a b nw) = wval a * wval b + W64 ^ (2 * nw) * wval (t.drop (2 * nw)) := by
  have hz : WordsOk (List.replicate (2 * nw) 0 ++ t.drop (2 * nw)) :=
    WordsOk_append.mpr ⟨WordsOk_replicate_zero _, WordsOk_drop ht _⟩
  have hzl : (List.replicate (2 * nw) 0 ++ t.drop (2 * nw)).length = t.length := by
    simp; omega
  obtain ⟨i1, i2, i3⟩ := product_loop_spec a nw ha nw (b.take nw) 0 _
    (by simp) (WordsOk_take hb nw) hz (by rw [hzl]; simp; omega)
  unfold product
  refine ⟨by rw [i1, hzl], i2, ?_⟩
  rw [i3, hzl, wval_append, wval_replicate_zero, List.length_replicate, pow_zero, one_mul,
    zero_add, List.take_of_length_le (by omega), List.take_of_length_le (by omega)]
  rw [add_comm]
  apply Nat.mod_eq_of_lt
  have h1 : wval a < W64 ^ nw := by have := wval_lt ha; rwa [hla] at this
  have h2 : wval b < W64 ^ nw := by have := wval_lt hb; rwa [hlb] at this
  have h3 : wval (t.drop (2 * nw)) < W64 ^ (t.length - 2 * nw) := by
    have := wval_lt (WordsOk_drop ht (2 * nw)); rwa [List.length_drop] at this
  have h4 : wval a * wval b < W64 ^ (2 * nw) := by
    rw [two_mul, pow_add]; exact Nat.mul_lt_mul'' h1 h2
  have h5 : W64 ^ t.length = W64 ^ (2 * nw) * W64 ^ (t.length - 2 * nw) := by
    rw [← pow_add]; congr 1; omega
  rw [h5]
  have h6 : wval (t.drop (2 * nw)) + 1 ≤ W64 ^ (t.length - 2 * nw) := h3
  calc wval a * wval b + W64 ^ (2 * nw) * wval (t.drop (2 * nw))
      < W64 ^ (2 * nw) + W64 ^ (2 * nw) * wval (t.drop (2 * nw)) := by omega
    _ = W64 ^ (2 * nw) * (wval (t.drop (2 * nw)) + 1) := by ring
    _ ≤ _ := Nat.mul_le_mul_left _ h6

end Mont

namespace Mont

/-! ## The arithmetic of one reduction step -/

theorem half_even_part (nw : Nat) : (nw ^^^ (nw &&& 1)) / 2 = nw / 2 := by
  rw [Nat.xor_div_two, Nat.and_one_is_mod]
  have : nw % 2 / 2 = 0 := by omega
  rw [this, Nat.xor_zero]

theorem is_odd_iff (x : Nat) : is_odd x = true ↔ x % 2 = 1 := by
  unfold is_odd
  rw [Nat.and_one_is_mod]
  constructor
  · intro h; exact (beq_iff_eq.mp h).symm
  · intro h; exact beq_iff_eq.mpr h.symm

/-- With m0 * N = -1 modulo 2^64, adding N * (v[0] * m0) clears the lowest word. -/
theorem red_one_arith (v N m0 : Nat) (hm : (m0 * (N % W64)) % W64 = W64 - 1) :
    W64 ∣ v + N * ((v % W64) * m0 % W64) := by
  have h1 : (v % W64) * m0 % W64 ≡ v * m0 [MOD W64] :=
    (Nat.mod_modEq _ _).trans ((Nat.mod_modEq v W64).mul_right m0)
  have h2 : v + N * ((v % W64) * m0 % W64) ≡ v + N * (v * m0) [MOD W64] :=
    (Nat.ModEq.refl v).add (h1.mul_left N)
  have h3 : 1 + m0 * N ≡ 0 [MOD W64] := by
    have e : m0 * N ≡ m0 * (N % W64) [MOD W64] := (Nat.mod_modEq N W64).symm.mul_left m0
    have e2 : 1 + m0 * N ≡ 1 + m0 * (N % W64) [MOD W64] := (Nat.ModEq.refl 1).add e
    refine e2.trans ?_
    unfold Nat.ModEq
    rw [Nat.add_mod, hm]
    unfold W64; decide
  have h4 : v + N * (v * m0) = v * (1 + m0 * N) := by ring
  rw [h4] at h2
  have h5 : v * (1 + m0 * N) ≡ v * 0 [MOD W64] := h3.mul_left v
  exact (Nat.modEq_zero_iff_dvd).mp (by simpa using h2.trans h5)

/-- The "simulated muladd": `ti1` is the word above the lowest one of v + N*k0. -/
theorem sim_digit (ti vd n0 nd k0 : Nat) (hti : ti < W64) (hn0 : n0 < W64) (hk0 : k0 < W64) :
    add64 (add64 (vd % W64) (mul64 (nd % W64) k0))
        (add64 (dp_mult_hi k0 n0) (lt64 (add64 (dp_mult_lo k0 n0) ti) ti))
      = ((ti + W64 * vd) + (n0 + W64 * nd) * k0) / W64 % W64 := by
  have hp := mul_le_sq hk0 hn0
  have e1 : k0 * n0 + ti = add64 (dp_mult_lo k0 n0) ti
      + W64 * add64 (dp_mult_hi k0 n0) (lt64 (add64 (dp_mult_lo k0 n0) ti) ti) := by
    unfold add64 dp_mult_lo dp_mult_hi lt64 at *
    generalize k0 * n0 = p at *
    unfold W64 at *
    split_ifs <;> omega
  have hlo : add64 (dp_mult_lo k0 n0) ti < W64 := add64_lt _ _
  generalize add64 (dp_mult_hi k0 n0) (lt64 (add64 (dp_mult_lo k0 n0) ti) ti) = hi at *
  generalize add64 (dp_mult_lo k0 n0) ti = lo at *
  have e2 : (ti + W64 * vd) + (n0 + W64 * nd) * k0 = lo + W64 * (hi + vd + nd * k0) := by
    have : (ti + W64 * vd) + (n0 + W64 * nd) * k0 = (k0 * n0 + ti) + W64 * (vd + nd * k0) := by
      ring
    rw [this, e1]; ring
  rw [e2, Nat.add_mul_div_left _ _ W64_pos, Nat.div_eq_of_lt hlo, zero_add]
  unfold add64 mul64
  have m1 : (vd % W64 + nd % W64 * k0 % W64) % W64 + hi ≡ hi + vd + nd * k0 [MOD W64] := by
    have a1 : vd % W64 ≡ vd [MOD W64] := Nat.mod_modEq _ _
    have a2 : nd % W64 * k0 % W64 ≡ nd * k0 [MOD W64] :=
      (Nat.mod_modEq _ _).trans ((Nat.mod_modEq nd W64).mul_right k0)
    have a3 : (vd % W64 + nd % W64 * k0 % W64) % W64 ≡ vd + nd * k0 [MOD W64] :=
      (Nat.mod_modEq _ _).trans (a1.add a2)
    have a4 := a3.add (Nat.ModEq.refl hi)
    have e : vd + nd * k0 + hi = hi + vd + nd * k0 := by ring
    rwa [e] at a4
  exact m1

/-- Two words are cleared by one iteration of the reduction loop. -/
theorem red_pair_arith (v N m0 : Nat) (hm : (m0 * (N % W64)) % W64 = W64 - 1) :
    W64 ^ 2 ∣ v + N * ((v % W64) * m0 % W64
      + W64 * (((v + N * ((v % W64) * m0 % W64)) / W64 % W64) * m0 % W64)) := by
  obtain ⟨u, hu⟩ := red_one_arith v N m0 hm
  rw [hu, Nat.mul_div_cancel_left _ W64_pos]
  obtain ⟨w, hw⟩ := red_one_arith u N m0 hm
  refine ⟨w, ?_⟩
  rw [mul_add, ← add_assoc, hu, pow_two, mul_assoc, ← hw]
  ring

end Mont

namespace Mont

/-! ## The reduction loop -/

theorem reduce_body_spec (n : List Nat) (m0 nw i : Nat) (t : List Nat) (hn : WordsOk n)
    (hnl : n.length = nw) (hm : (m0 * n.getD 0 0) % W64 = W64 - 1)
    (ht : WordsOk t) (hlen : i + nw + 2 ≤ t.length) (hdiv : W64 ^ i ∣ wval t) :
    (reduce_body n m0 nw i t).length = t.length ∧ WordsOk (reduce_body n m0 nw i t) ∧
    W64 ^ (i + 2) ∣ wval (reduce_body n m0 nw i t) ∧
    ∃ κ, κ < W64 ^ 2 ∧
      wval (reduce_body n m0 nw i t) = (wval t + W64 ^ i * (wval n * κ)) % W64 ^ t.length := by
  have hn0 : n.getD 0 0 = wval n % W64 := by
    rw [getD_eq_digit hn 0, pow_zero, Nat.div_one]
  have hn1 : n.getD 1 0 = wval n / W64 % W64 := by
    rw [getD_eq_digit hn 1, pow_one]
  have ht0 : t.getD i 0 = wval t / W64 ^ i % W64 := getD_eq_digit ht i
  have ht1 : t.getD (i + 1) 0 = wval t / W64 ^ i / W64 % W64 := by
    rw [getD_eq_digit ht (i + 1), pow_succ, Nat.div_div_eq_div_mul]
  rw [hn0] at hm
  unfold reduce_body
  simp only []
  rw [hn0, hn1, ht0, ht1]
  generalize hv : wval t / W64 ^ i = v
  have hk0 : mul64 (v % W64) m0 < W64 := mul64_lt _ _
  have hsim := sim_digit (v % W64) (v / W64) (wval n % W64) (wval n / W64)
    (mul64 (v % W64) m0) (Nat.mod_lt _ W64_pos) (Nat.mod_lt _ W64_pos) hk0
  rw [Nat.mod_add_div, Nat.mod_add_div] at hsim
  rw [hsim]
  obtain ⟨i1, i2, i3⟩ := addmul128_at_spec t n i nw (mul64 (v % W64) m0)
    (mul64 ((v + wval n * mul64 (v % W64) m0) / W64 % W64) m0) ht hn
    hk0 (mul64_lt _ _) (by omega)
  have hnt : n.take nw = n := List.take_of_length_le (by omega)
  rw [hnt] at i3
  refine ⟨i1, i2, ?_, ?_⟩
  · rw [i3]
    have hd : W64 ^ (i + 2) ∣ W64 ^ t.length := pow_dvd_pow _ (by omega)
    rw [Nat.dvd_mod_iff hd]
    have hV : wval t = W64 ^ i * v := by
      rw [← hv, Nat.mul_div_cancel' hdiv]
    obtain ⟨w, hw⟩ := red_pair_arith v (wval n) m0 hm
    unfold mul64
    rw [hV, ← mul_add, hw, pow_add, ← mul_assoc]
    exact Dvd.intro _ rfl
  · refine ⟨_, ?_, i3⟩
    have a := hk0
    have b := mul64_lt ((v + wval n * mul64 (v % W64) m0) / W64 % W64) m0
    rw [pow_two]
    have c := Nat.mul_le_mul_left W64 (Nat.succ_le_of_lt b)
    rw [Nat.mul_succ] at c
    omega

theorem reduce_loop_spec (n : List Nat) (m0 nw : Nat) (hn : WordsOk n)
    (hnl : n.length = nw) (hm : (m0 * n.getD 0 0) % W64 = W64 - 1) :
    ∀ (cnt i : Nat) (t : List Nat), WordsOk t → i + nw + 2 * cnt ≤ t.length →
      W64 ^ i ∣ wval t →
      (reduce_loop n m0 nw cnt i t).length = t.length ∧
      WordsOk (reduce_loop n m0 nw cnt i t) ∧
      W64 ^ (i + 2 * cnt) ∣ wval (reduce_loop n m0 nw cnt i t) ∧
      ∃ K, K < W64 ^ (2 * cnt) ∧
        wval (reduce_loop n m0 nw cnt i t)
          = (wval t + W64 ^ i * (wval n * K)) % W64 ^ t.length := by
  intro cnt
  induction cnt with
  | zero =>
    intro i t ht _ hdiv
    simp only [reduce_loop, mul_zero, add_zero, pow_zero]
    exact ⟨trivial, ht, hdiv, 0, by omega, by
      rw [mul_zero, mul_zero, add_zero, Nat.mod_eq_of_lt (wval_lt ht)]⟩
  | succ cnt ih =>
    intro i t ht hlen hdiv
    obtain ⟨i1, i2, i3, κ, hκ, i4⟩ :=
      reduce_body_spec n m0 nw i t hn hnl hm ht (by omega) hdiv
    obtain ⟨j1, j2, j3, K, hK, j4⟩ := ih (i + 2) _ i2 (by rw [i1]; omega) i3
    simp only [reduce_loop]
    refine ⟨by rw [j1, i1], j2, ?_, κ + W64 ^ 2 * K, ?_, ?_⟩
    · have : i + 2 * (cnt + 1) = i + 2 + 2 * cnt := by ring
      rw [this]; exact j3
    · have : W64 ^ (2 * (cnt + 1)) = W64 ^ 2 * W64 ^ (2 * cnt) := by
        rw [← pow_add]; congr 1; ring
      rw [this]
      have h1 : K + 1 ≤ W64 ^ (2 * cnt) := hK
      calc κ + W64 ^ 2 * K < W64 ^ 2 + W64 ^ 2 * K := by omega
        _ = W64 ^ 2 * (K + 1) := by ring
        _ ≤ _ := Nat.mul_le_mul_left _ h1
    · rw [j4, i4, i1, Nat.mod_add_mod]
      congr 1
      rw [pow_add]
      ring

end Mont

namespace Mont

/-! ## `mont_mult_internal` -/

theorem wval_set_zero (t : List Nat) (i : Nat) (ht : WordsOk t) (hi : i < t.length) :
    (t.set i 0).length = t.length ∧ WordsOk (t.set i 0) ∧
    wval (t.set i 0) = wval t % W64 ^ i + W64 ^ (i + 1) * wval (t.drop (i + 1)) := by
  refine ⟨List.length_set _ _ _, ?_, ?_⟩
  · rw [List.set_eq_take_append_cons_drop, if_pos hi]
    exact WordsOk_append.mpr ⟨WordsOk_take ht i,
      WordsOk_cons.mpr ⟨W64_pos, WordsOk_drop ht _⟩⟩
  · rw [List.set_eq_take_append_cons_drop, if_pos hi, wval_append, wval_cons,
      List.length_take, Nat.min_eq_left (le_of_lt hi), wval_take ht i (le_of_lt hi), zero_add,
      pow_succ, mul_assoc]

/-- The state of the scratchpad after the product and the reduction. -/
theorem mont_mult_reduce_spec (aliased : Bool) (a b n : List Nat) (m0 : Nat) (t : List Nat)
    (nw : Nat) (hnw : 1 ≤ nw) (ha : WordsOk a) (hb : WordsOk b) (hn : WordsOk n)
    (ht : WordsOk t) (hla : a.length = nw) (hlb : b.length = nw) (hln : n.length = nw)
    (hlt : 2 * nw + 1 ≤ t.length) (hm : (m0 * n.getD 0 0) % W64 = W64 - 1) :
    (mont_mult_reduce aliased a b n m0 t nw).length = t.length ∧
    WordsOk (mont_mult_reduce aliased a b n m0 t nw) ∧
    ∃ K J, K < W64 ^ nw ∧ J < W64 ^ (t.length - (2 * nw + 1)) ∧
      W64 ^ nw ∣ wval a * wval (if aliased then a else b) + wval n * K ∧
      wval (mont_mult_reduce aliased a b n m0 t nw)
        = wval a * wval (if aliased then a else b) + wval n * K + W64 ^ (2 * nw + 1) * J := by
  -- the product
  have hA : wval a < W64 ^ nw := by have := wval_lt ha; rwa [hla] at this
  have hB : wval (if aliased then a else b) < W64 ^ nw := by
    cases aliased
    · have := wval_lt hb; rwa [hlb] at this
    · exact hA
  have hN : wval n < W64 ^ nw := by have := wval_lt hn; rwa [hln] at this
  obtain ⟨t1, ht1, p1, p2, p3⟩ : ∃ t1, (if aliased then square_w t a nw else product t a b nw) = t1
      ∧ t1.length = t.length ∧ WordsOk t1 ∧
      wval t1 = wval a * wval (if aliased then a else b)
        + W64 ^ (2 * nw) * wval (t.drop (2 * nw)) := by
    cases aliased
    · exact ⟨_, rfl, product_spec t a b nw ht ha hb hla hlb hlt⟩
    · exact ⟨_, rfl, product_spec t a a nw ht ha ha hla hla hlt⟩
  generalize wval (if aliased then a else b) = B at *
  have hP : wval a * B < W64 ^ (2 * nw) := by
    rw [two_mul, pow_add]; exact Nat.mul_lt_mul'' hA hB
  -- t[2*nw] = 0
  obtain ⟨s1, s2, s3⟩ := wval_set_zero t1 (2 * nw) p2 (by omega)
  have s4 : wval t1 % W64 ^ (2 * nw) = wval a * B := by
    rw [p3, Nat.add_mul_mod_self_left, Nat.mod_eq_of_lt hP]
  rw [s4] at s3
  have hJ : wval (t1.drop (2 * nw + 1)) < W64 ^ (t.length - (2 * nw + 1)) := by
    have := wval_lt (WordsOk_drop p2 (2 * nw + 1))
    rwa [List.length_drop, p1] at this
  generalize wval (t1.drop (2 * nw + 1)) = J at *
  -- the loop
  obtain ⟨r1, r2, r3, K, hK, r4⟩ := reduce_loop_spec n m0 nw hn hln hm (nw / 2) 0
    (t1.set (2 * nw) 0) s2 (by rw [s1]; omega) (by simp)
  rw [pow_zero, one_mul, s1, p1, s3] at r4
  rw [zero_add] at r3
  -- the last word, when nw is odd
  obtain ⟨K', hK', hdvd, hlen', hok', hval⟩ : ∃ K', K' < W64 ^ nw ∧
      W64 ^ nw ∣ wval (mont_mult_reduce aliased a b n m0 t nw) ∧
      (mont_mult_reduce aliased a b n m0 t nw).length = t.length ∧
      WordsOk (mont_mult_reduce aliased a b n m0 t nw) ∧
      wval (mont_mult_reduce aliased a b n m0 t nw)
        = (wval a * B + W64 ^ (2 * nw + 1) * J + wval n * K') % W64 ^ t.length := by
    unfold mont_mult_reduce
    simp only [ht1, half_even_part]
    generalize reduce_loop n m0 nw (nw / 2) 0 (t1.set (2 * nw) 0) = t3 at *
    by_cases hodd : nw % 2 = 1
    · rw [if_pos ((is_odd_iff nw).mpr hodd)]
      have e2 : 2 * (nw / 2) = nw - 1 := by omega
      rw [e2] at r3 hK
      obtain ⟨a1, a2, a3⟩ := addmul_at_spec t3 n (nw - 1) nw
        (mul64 (t3.getD (nw - 1) 0) m0) r2 hn (mul64_lt _ _) (by rw [r1, s1, p1]; omega)
      have hnt : n.take nw = n := List.take_of_length_le (by omega)
      rw [hnt, r1, s1, p1] at a3
      refine ⟨K + W64 ^ (nw - 1) * mul64 (t3.getD (nw - 1) 0) m0, ?_, ?_,
        by rw [a1, r1, s1, p1], a2, ?_⟩
      · have h1 := mul64_lt (t3.getD (nw - 1) 0) m0
        have h2 : W64 ^ nw = W64 ^ (nw - 1) * W64 := by
          rw [← pow_succ]; congr 1; omega
        rw [h2]
        have h3 : mul64 (t3.getD (nw - 1) 0) m0 + 1 ≤ W64 := h1
        calc K + W64 ^ (nw - 1) * mul64 (t3.getD (nw - 1) 0) m0
            < W64 ^ (nw - 1) + W64 ^ (nw - 1) * mul64 (t3.getD (nw - 1) 0) m0 := by omega
          _ = W64 ^ (nw - 1) * (mul64 (t3.getD (nw - 1) 0) m0 + 1) := by ring
          _ ≤ _ := Nat.mul_le_mul_left _ h3
      · rw [a3]
        have hd : W64 ^ nw ∣ W64 ^ t.length := pow_dvd_pow _ (by omega)
        rw [Nat.dvd_mod_iff hd]
        obtain ⟨v, hv⟩ := r3
        have hq : wval t3 / W64 ^ (nw - 1) = v := by
          rw [hv, Nat.mul_div_cancel_left _ (pow_pos W64_pos _)]
        have hm' : (m0 * (wval n % W64)) % W64 = W64 - 1 := by
          rw [getD_eq_digit hn 0, pow_zero, Nat.div_one] at hm; exact hm
        obtain ⟨w, hw⟩ := red_one_arith v (wval n) m0 hm'
        rw [getD_eq_digit r2 (nw - 1), hq]
        unfold mul64
        have h2 : W64 ^ nw = W64 ^ (nw - 1) * W64 := by
          rw [← pow_succ]; congr 1; omega
        rw [h2, hv, ← mul_add, hw, ← mul_assoc]
        exact Dvd.intro _ rfl
      · rw [a3, r4, Nat.mod_add_mod]
        congr 1
        ring
    · have hev : is_odd nw = false := by
        cases h : is_odd nw
        · rfl
        · exact absurd ((is_odd_iff nw).mp h) hodd
      rw [hev]
      simp only [Bool.false_eq_true, if_false]
      have e2 : 2 * (nw / 2) = nw := by omega
      rw [e2] at r3 hK
      exact ⟨K, hK, r3, by rw [r1, s1, p1], r2, r4⟩
  -- no word is lost
  have hNK : wval n * K' < W64 ^ (2 * nw) := by
    rw [two_mul, pow_add]; exact Nat.mul_lt_mul'' hN hK'
  have hsmall : wval a * B + W64 ^ (2 * nw + 1) * J + wval n * K' < W64 ^ t.length := by
    have h5 : W64 ^ t.length = W64 ^ (2 * nw + 1) * W64 ^ (t.length - (2 * nw + 1)) := by
      rw [← pow_add]; congr 1; omega
    have h6 : J + 1 ≤ W64 ^ (t.length - (2 * nw + 1)) := hJ
    have h7 : 2 * W64 ^ (2 * nw) ≤ W64 ^ (2 * nw + 1) := by
      rw [pow_succ, mul_comm]
      exact Nat.mul_le_mul_left _ (by unfold W64; omega)
    rw [h5]
    calc wval a * B + W64 ^ (2 * nw + 1) * J + wval n * K'
        < W64 ^ (2 * nw + 1) + W64 ^ (2 * nw + 1) * J := by omega
      _ = W64 ^ (2 * nw + 1) * (J + 1) := by ring
      _ ≤ _ := Nat.mul_le_mul_left _ h6
  rw [Nat.mod_eq_of_lt hsmall] at hval
  refine ⟨hlen', hok', K', J, hK', hJ, ?_, by rw [hval]; ring⟩
  rw [hval] at hdvd
  have hd2 : W64 ^ nw ∣ W64 ^ (2 * nw + 1) * J :=
    Dvd.dvd.mul_right (pow_dvd_pow _ (by omega)) _
  have e : wval a * B + W64 ^ (2 * nw + 1) * J + wval n * K'
      = (wval a * B + wval n * K') + W64 ^ (2 * nw + 1) * J := by ring
  rw [e] at hdvd
  exact (Nat.dvd_add_left hd2).mp hdvd

end Mont

namespace Mont

theorem and_mask (y : Nat) (hy : y < W64) : y &&& (W64 - 1) = y := by
  have h := Nat.and_pow_two_sub_one_eq_mod y 64
  rw [← W64_eq] at h
  rw [h, Nat.mod_eq_of_lt hy]

theorem select_words (t t2 : List Nat) (nw c : Nat) (hc : c = 0 ∨ c = 1) (ht : WordsOk t)
    (ht2 : WordsOk t2) (hl2 : t2.length = nw) (hlt : 2 * nw ≤ t.length) :
    ((List.range nw).map fun i =>
        (t.getD (nw + i) 0 &&& sub64 c 1) ^^^ (t2.getD i 0 &&& not64 (sub64 c 1)))
      = if c = 1 then t2 else (t.drop nw).take nw := by
  have m1 : sub64 1 1 = 0 := by unfold sub64 W64; decide
  have m0 : sub64 0 1 = W64 - 1 := by unfold sub64 W64; decide
  have n1 : not64 0 = W64 - 1 := by unfold not64 W64; decide
  have n0 : not64 (W64 - 1) = 0 := by unfold not64 W64; decide
  apply List.ext_getElem
  · rcases hc with h | h <;> subst h <;> simp [hl2]; omega
  · intro i h1 _
    simp only [List.length_map, List.length_range] at h1
    rw [List.getElem_map, List.getElem_range]
    rcases hc with h | h
    · subst h
      simp only [m0, n0, Nat.and_zero, Nat.xor_zero, zero_ne_one, if_false]
      rw [List.getElem_take, List.getElem_drop, List.getD_eq_getElem _ _ (by omega)]
      exact and_mask _ (ht _ (List.getElem_mem _))
    · subst h
      simp only [m1, n1, Nat.and_zero, Nat.zero_xor, if_true]
      rw [List.getD_eq_getElem _ _ (by omega)]
      exact and_mask _ (ht2 _ (List.getElem_mem _))

/-- The final selection of `mont_mult_internal` on a scratchpad that holds
`R * q` (above it `J`), with `q < R + N`: the output is `q`, minus `N` when
`q >= N`; and `t[2*nw]` is 0 or 1. -/
theorem mont_mult_select_spec (t n : List Nat) (nw q J : Nat) (ht : WordsOk t)
    (hn : WordsOk n) (hln : n.length = nw) (hlt : 2 * nw + 1 ≤ t.length)
    (hq : q < W64 ^ nw + wval n)
    (hval : wval t = W64 ^ nw * q + W64 ^ (2 * nw + 1) * J) :
    (mont_mult_select t n nw).length = nw ∧ WordsOk (mont_mult_select t n nw) ∧
    wval (mont_mult_select t n nw) = (if wval n ≤ q then q - wval n else q) ∧
    t.getD (2 * nw) 0 ≤ 1 := by
  have hR : 0 < W64 ^ nw := pow_pos W64_pos nw
  have hN : wval n < W64 ^ nw := by have := wval_lt hn; rwa [hln] at this
  have hx : wval (t.drop nw) = q + W64 ^ nw * (W64 * J) := by
    rw [wval_drop ht nw (by omega), hval]
    have : W64 ^ (2 * nw + 1) * J = W64 ^ nw * (W64 ^ nw * (W64 * J)) := by
      rw [show 2 * nw + 1 = nw + (nw + 1) by ring, pow_add, pow_succ]; ring
    rw [this, ← mul_add, Nat.mul_div_cancel_left _ hR]
  have hxt : wval ((t.drop nw).take nw) = q % W64 ^ nw := by
    rw [wval_take (WordsOk_drop ht nw) nw (by rw [List.length_drop]; omega), hx,
      Nat.add_mul_mod_self_left]
  have hq1 : q / W64 ^ nw ≤ 1 := by
    have : q < W64 ^ nw * 2 := by omega
    have := Nat.div_lt_of_lt_mul this
    omega
  have htop : t.getD (2 * nw) 0 = q / W64 ^ nw := by
    rw [getD_eq_digit ht, two_mul, pow_add, ← Nat.div_div_eq_div_mul,
      ← wval_drop ht nw (by omega), hx, Nat.add_mul_div_left _ _ hR, Nat.add_mul_mod_self_left]
    apply Nat.mod_eq_of_lt
    exact lt_of_le_of_lt hq1 (by unfold W64; omega)
  obtain ⟨b1, b2, b3, b4⟩ := sub_spec (t.drop nw) n nw (by rw [List.length_drop]; omega)
    (by omega) (WordsOk_drop ht nw) hn
  have hnt : n.take nw = n := List.take_of_length_le (by omega)
  rw [hxt, hnt] at b4
  have hge := ge_spec (t.drop nw) n nw (by rw [List.length_drop]; omega) (by omega)
    (WordsOk_drop ht nw) hn
  rw [hxt, hnt] at hge
  have hsub : wval (sub (t.drop nw) n nw).1 < W64 ^ nw := by
    have := wval_lt b2; rwa [b1] at this
  have hdm := Nat.div_add_mod q (W64 ^ nw)
  unfold mont_mult_select
  simp only []
  rw [select_words t _ nw _ (by split <;> simp) ht b2 b1 (by omega)]
  by_cases hc : t.getD (2 * nw) 0 = 1 ∨ ge (t.drop nw) n nw ≠ 0
  · simp only [hc, if_true]
    refine ⟨b1, b2, ?_, by rw [htop]; exact hq1⟩
    have hNq : wval n ≤ q := by
      rcases hc with h | h
      · rw [htop] at h; rw [h] at hdm; omega
      · rw [hge] at h
        by_cases h' : wval n ≤ q % W64 ^ nw
        · omega
        · rw [if_neg h'] at h; exact absurd rfl h
    rw [if_pos hNq]
    generalize (sub (t.drop nw) n nw).2 = bw at *
    generalize wval (sub (t.drop nw) n nw).1 = sv at *
    rcases Nat.lt_or_ge q (W64 ^ nw) with h | h
    · have e : q % W64 ^ nw = q := Nat.mod_eq_of_lt h
      rw [e] at b4
      have : bw = 0 := by
        rcases Nat.eq_zero_or_pos bw with h0 | h0
        · exact h0
        · have : W64 ^ nw * 1 ≤ W64 ^ nw * bw := Nat.mul_le_mul_left _ h0
          omega
      subst this
      omega
    · have e1 : q / W64 ^ nw = 1 := by
        have := Nat.div_pos h hR
        omega
      rw [e1] at hdm
      have : bw = 1 := by
        rcases Nat.eq_zero_or_pos bw with h0 | h0
        · subst h0; omega
        · omega
      subst this
      omega
  · simp only [hc, if_false, zero_ne_one]
    have hc' := not_or.mp hc
    have h1 : q / W64 ^ nw = 0 := by
      have := hc'.1; rw [htop] at this; omega
    have h2 : ¬ wval n ≤ q % W64 ^ nw := by
      intro h
      apply hc'.2
      rw [hge, if_pos h]; exact one_ne_zero
    have e : q % W64 ^ nw = q := by rw [h1] at hdm; omega
    rw [e] at h2
    rw [if_neg h2]
    refine ⟨by simp; omega, WordsOk_take (WordsOk_drop ht nw) nw, ?_,
      by rw [htop]; exact hq1⟩
    rw [hxt, e]

end Mont

namespace Mont

/-- What `mont_mult_internal` computes, for operands of nw words that need not
be below the modulus: a value congruent to a*b/R, which is below the modulus
as soon as a*b < N*R. -/
theorem mont_mult_internal_spec (aliased : Bool) (a b n : List Nat) (m0 : Nat)
    (t : List Nat) (nw : Nat) (hnw : 1 ≤ nw) (ha : WordsOk a) (hb : WordsOk b)
    (hn : WordsOk n) (ht : WordsOk t) (hla : a.length = nw) (hlb : b.length = nw)
    (hln : n.length = nw) (hlt : 2 * nw + 1 ≤ t.length)
    (hm : (m0 * n.getD 0 0) % W64 = W64 - 1) :
    (mont_mult_internal aliased a b n m0 t nw).length = nw ∧
    WordsOk (mont_mult_internal aliased a b n m0 t nw) ∧
    wval (mont_mult_internal aliased a b n m0 t nw) * W64 ^ nw
      ≡ wval a * wval (if aliased then a else b) [MOD wval n] ∧
    (wval a * wval (if aliased then a else b) < wval n * W64 ^ nw →
      wval (mont_mult_internal aliased a b n m0 t nw) < wval n) ∧
    (mont_mult_reduce aliased a b n m0 t nw).getD (2 * nw) 0 ≤ 1 := by
  obtain ⟨r1, r2, K, J, hK, _, hdvd, hval⟩ :=
    mont_mult_reduce_spec aliased a b n m0 t nw hnw ha hb hn ht hla hlb hln hlt hm
  have hA : wval a < W64 ^ nw := by have := wval_lt ha; rwa [hla] at this
  have hB : wval (if aliased then a else b) < W64 ^ nw := by
    cases aliased
    · have := wval_lt hb; rwa [hlb] at this
    · exact hA
  have hN : wval n < W64 ^ nw := by have := wval_lt hn; rwa [hln] at this
  generalize wval (if aliased then a else b) = B at *
  have hR : 0 < W64 ^ nw := pow_pos W64_pos nw
  obtain ⟨q, hq⟩ := hdvd
  have hqb : q < W64 ^ nw + wval n := by
    have h1 : wval a * B < W64 ^ nw * W64 ^ nw := Nat.mul_lt_mul'' hA hB
    have h2 : wval n * K ≤ wval n * W64 ^ nw := Nat.mul_le_mul_left _ (le_of_lt hK)
    have h3 : W64 ^ nw * q < W64 ^ nw * (W64 ^ nw + wval n) := by
      rw [← hq, mul_add, mul_comm (W64 ^ nw) (wval n)]; omega
    exact Nat.lt_of_mul_lt_mul_left h3
  rw [hq] at hval
  obtain ⟨s1, s2, s3, s4⟩ := mont_mult_select_spec (mont_mult_reduce aliased a b n m0 t nw)
    n nw q J r2 hn hln (by rw [r1]; exact hlt) hqb hval
  unfold mont_mult_internal
  refine ⟨s1, s2, ?_, ?_, s4⟩
  · rw [s3]
    have e : q * W64 ^ nw ≡ wval a * B [MOD wval n] := by
      rw [mul_comm, ← hq]
      have : wval a * B + wval n * K ≡ wval a * B + 0 [MOD wval n] :=
        (Nat.ModEq.refl _).add ((Nat.modEq_zero_iff_dvd).mpr (Dvd.intro _ rfl))
      simpa using this
    by_cases h : wval n ≤ q
    · rw [if_pos h]
      refine Nat.ModEq.trans ?_ e
      have e2 : q * W64 ^ nw = (q - wval n) * W64 ^ nw + wval n * W64 ^ nw := by
        rw [← add_mul, Nat.sub_add_cancel h]
      rw [e2]
      have : (q - wval n) * W64 ^ nw + 0 ≡ (q - wval n) * W64 ^ nw + wval n * W64 ^ nw
          [MOD wval n] :=
        (Nat.ModEq.refl _).add ((Nat.modEq_zero_iff_dvd).mpr (Dvd.intro _ rfl)).symm
      simpa using this
    · rw [if_neg h]; exact e
  · intro hP
    rw [s3]
    have h2 : wval n * K + wval n ≤ wval n * W64 ^ nw := by
      have : K + 1 ≤ W64 ^ nw := hK
      calc wval n * K + wval n = wval n * (K + 1) := by ring
        _ ≤ _ := Nat.mul_le_mul_left _ this
    have h3 : W64 ^ nw * q < W64 ^ nw * (2 * wval n) := by
      rw [← hq]
      have : W64 ^ nw * (2 * wval n) = wval n * W64 ^ nw + wval n * W64 ^ nw := by ring
      rw [this]
      rcases Nat.eq_zero_or_pos (wval n) with h0 | h0
      · rw [h0] at hP; simp at hP
      · omega
    have h4 : q < 2 * wval n := Nat.lt_of_mul_lt_mul_left h3
    split_ifs <;> omega

end Mont

namespace Mont

theorem coprime_R (N nw : Nat) (hodd : N % 2 = 1) : Nat.Coprime (W64 ^ nw) N := by
  rw [W64_eq]
  apply Nat.Coprime.pow_left
  apply Nat.Coprime.pow_left
  rw [Nat.coprime_two_left]
  exact Nat.odd_iff.mpr hodd

/-- C2. For nw >= 1 words, an odd modulus N of nw words, m0 with
m0 * N[0] = -1 modulo 2^64 and operands a, b < N (for `aliased = true` the two
operands are the same array and the squaring path is taken),
`mont_mult_internal` writes the unique value in [0, N) that is congruent to
a*b/R modulo N, where R = 2^(64 nw): out * R = a * b modulo N. -/
theorem C2_mont_mult_internal_correct (aliased : Bool) (a b n : List Nat) (m0 : Nat)
    (t : List Nat) (nw : Nat) (hnw : 1 ≤ nw) (ha : WordsOk a) (hb : WordsOk b)
    (hn : WordsOk n) (ht : WordsOk t) (hla : a.length = nw) (hlb : b.length = nw)
    (hln : n.length = nw) (hlt : t.length = 3 * nw + 1) (hodd : wval n % 2 = 1)
    (hm : (m0 * n.getD 0 0) % W64 = W64 - 1) (haN : wval a < wval n)
    (hbN : wval b < wval n) (hal : aliased = true → b = a) :
    (mont_mult_internal aliased a b n m0 t nw).length = nw ∧
    WordsOk (mont_mult_internal aliased a b n m0 t nw) ∧
    wval (mont_mult_internal aliased a b n m0 t nw) < wval n ∧
    wval (mont_mult_internal aliased a b n m0 t nw) * W64 ^ nw
      ≡ wval a * wval b [MOD wval n] ∧
    ∀ v, v < wval n → v * W64 ^ nw ≡ wval a * wval b [MOD wval n] →
      v = wval (mont_mult_internal aliased a b n m0 t nw) := by
  obtain ⟨s1, s2, s3, s4, _⟩ := mont_mult_internal_spec aliased a b n m0 t nw hnw ha hb hn ht
    hla hlb hln (by omega) hm
  have hB : (if aliased then a else b) = b := by
    cases aliased
    · rfl
    · exact (hal rfl).symm
  rw [hB] at s3 s4
  have hN : wval n < W64 ^ nw := by have := wval_lt hn; rwa [hln] at this
  have hlt' : wval (mont_mult_internal aliased a b n m0 t nw) < wval n := by
    apply s4
    calc wval a * wval b < wval n * wval n := Nat.mul_lt_mul'' haN hbN
      _ ≤ wval n * W64 ^ nw := Nat.mul_le_mul_left _ (le_of_lt hN)
  refine ⟨s1, s2, hlt', s3, ?_⟩
  intro v hv hcong
  have h1 : v * W64 ^ nw ≡ wval (mont_mult_internal aliased a b n m0 t nw) * W64 ^ nw
      [MOD wval n] := hcong.trans s3.symm
  have h2 := Nat.ModEq.cancel_right_of_coprime ((coprime_R _ nw hodd).symm) h1
  unfold Nat.ModEq at h2
  rwa [Nat.mod_eq_of_lt hv, Nat.mod_eq_of_lt hlt'] at h2

/-- C2, at the two-word modulus 7 + 3 * 2^64 with a = 3 + 2^64, b = 5 + 2 * 2^64. -/
theorem C2_mont_mult_internal_correct_witness :
    (mont_mult_internal false [3, 1] [5, 2] [7, 3] 10540996613548315209
        (List.replicate 7 0) 2).length = 2 ∧
    WordsOk (mont_mult_internal false [3, 1] [5, 2] [7, 3] 10540996613548315209
        (List.replicate 7 0) 2) ∧
    wval (mont_mult_internal false [3, 1] [5, 2] [7, 3] 10540996613548315209
        (List.replicate 7 0) 2) < wval [7, 3] ∧
    wval (mont_mult_internal false [3, 1] [5, 2] [7, 3] 10540996613548315209
        (List.replicate 7 0) 2) * W64 ^ 2 ≡ wval [3, 1] * wval [5, 2] [MOD wval [7, 3]] ∧
    ∀ v, v < wval [7, 3] → v * W64 ^ 2 ≡ wval [3, 1] * wval [5, 2] [MOD wval [7, 3]] →
      v = wval (mont_mult_internal false [3, 1] [5, 2] [7, 3] 10540996613548315209
        (List.replicate 7 0) 2) :=
  C2_mont_mult_internal_correct false [3, 1] [5, 2] [7, 3] 10540996613548315209
    (List.replicate 7 0) 2 (by decide) (by decide) (by decide) (by decide) (by decide)
    (by decide) (by decide) (by decide) (by decide) (by decide) (by decide) (by decide)
    (by decide) (by intro h; cases h)

end Mont

namespace Mont

/-! ## `inverse64` -/

theorem xor_mod_two_pow (u v k : Nat) : (u ^^^ v) % 2 ^ k = (u % 2 ^ k) ^^^ (v % 2 ^ k) := by
  apply Nat.eq_of_testBit_eq
  intro i
  simp only [Nat.testBit_mod_two_pow, Nat.testBit_xor]
  by_cases h : i < k <;> simp [h]

theorem and_mod_two_pow (u v k : Nat) : (u &&& v) % 2 ^ k = (u % 2 ^ k) &&& (v % 2 ^ k) := by
  apply Nat.eq_of_testBit_eq
  intro i
  simp only [Nat.testBit_mod_two_pow, Nat.testBit_and]
  by_cases h : i < k <;> simp [h]

/-- The seed of `inverse64` is an inverse of a modulo 16. -/
theorem inverse64_seed (a : Nat) (hodd : a % 2 = 1) :
    (a * ((((((a <<< 1) % W64) ^^^ a) &&& 4) <<< 1) % W64 ^^^ a)) % 16 = 1 := by
  have h16 : (16 : Nat) = 2 ^ 4 := by norm_num
  have hd : (16 : Nat) ∣ W64 := by unfold W64; decide
  have e1 : ((((((a <<< 1) % W64) ^^^ a) &&& 4) <<< 1) % W64 ^^^ a) % 16
      = ((((((a % 16) <<< 1) % 16) ^^^ (a % 16)) &&& 4) <<< 1) % 16 ^^^ (a % 16) := by
    rw [h16, xor_mod_two_pow, ← h16, Nat.mod_mod_of_dvd _ hd]
    congr 1
    simp only [Nat.shiftLeft_eq, pow_one]
    rw [Nat.mul_mod, h16, and_mod_two_pow, xor_mod_two_pow, ← h16, Nat.mod_mod_of_dvd _ hd]
    conv_rhs => rw [Nat.mul_mod, h16, and_mod_two_pow, xor_mod_two_pow, ← h16]
    simp only [Nat.mod_mod]
    congr 4
    rw [Nat.mul_mod]
  rw [Nat.mul_mod, e1]
  have hlt : a % 16 < 16 := Nat.mod_lt _ (by omega)
  have ho : a % 16 % 2 = 1 := by omega
  generalize a % 16 = r at *
  interval_cases r <;> simp_all <;> decide

end Mont

namespace Mont

theorem add64_modEq (u v : Nat) : add64 u v ≡ u + v [MOD W64] := Nat.mod_modEq _ _

theorem mul64_modEq (u v : Nat) : mul64 u v ≡ u * v [MOD W64] := Nat.mod_modEq _ _

theorem sub64_add_modEq (u v : Nat) : sub64 u v + v ≡ u [MOD W64] := by
  have h1 : sub64 u v + v ≡ u + (W64 - v % W64) + v [MOD W64] :=
    (Nat.mod_modEq _ _).add_right v
  have h2 : u + (W64 - v % W64) + v = u + W64 * (1 + v / W64) := by
    have := Nat.mod_add_div v W64
    have := Nat.mod_lt v W64_pos
    unfold W64 at *
    omega
  rw [h2] at h1
  have h3 : u + W64 * (1 + v / W64) ≡ u + 0 [MOD W64] :=
    (Nat.ModEq.refl u).add ((Nat.modEq_zero_iff_dvd).mpr (Dvd.intro _ rfl))
  simpa using h1.trans h3

/-- One Newton step of `inverse64` doubles the number of correct bits. -/
theorem inverse64_step (a x k : Nat) (hk : 2 * k ≤ 64) (h : (a * x) % 2 ^ k = 1) :
    (a * add64 x (sub64 x (mul64 (mul64 a x) x))) % 2 ^ (2 * k) = 1 % 2 ^ (2 * k) := by
  have hd : 2 ^ (2 * k) ∣ W64 := by rw [W64_eq]; exact pow_dvd_pow _ hk
  generalize hp : mul64 (mul64 a x) x = p
  have p1 : p ≡ a * x * x [MOD W64] := by
    rw [← hp]
    exact (mul64_modEq _ _).trans ((mul64_modEq a x).mul_right x)
  have s1 : sub64 x p + p ≡ x [MOD W64] := sub64_add_modEq x p
  have x1 : add64 x (sub64 x p) + p ≡ x + x [MOD W64] := by
    have := (add64_modEq x (sub64 x p)).add_right p
    rw [add_assoc] at this
    exact this.trans ((Nat.ModEq.refl x).add s1)
  have x2 : add64 x (sub64 x p) + a * x * x ≡ x + x [MOD W64] :=
    (((Nat.ModEq.refl _).add p1.symm).trans x1)
  have x3 : a * add64 x (sub64 x p) + (a * x) * (a * x) ≡ 2 * (a * x) [MOD 2 ^ (2 * k)] := by
    have := (x2.of_dvd hd).mul_left a
    have e1 : a * (add64 x (sub64 x p) + a * x * x)
        = a * add64 x (sub64 x p) + (a * x) * (a * x) := by ring
    have e2 : a * (x + x) = 2 * (a * x) := by ring
    rwa [e1, e2] at this
  obtain ⟨e, he⟩ : ∃ e, a * x = 1 + 2 ^ k * e := ⟨a * x / 2 ^ k, by
    have := Nat.mod_add_div (a * x) (2 ^ k); omega⟩
  rw [he] at x3
  have e3 : (1 + 2 ^ k * e) * (1 + 2 ^ k * e)
      = (1 + 2 * (2 ^ k * e)) + 2 ^ (2 * k) * (e * e) := by
    rw [two_mul k, pow_add]; ring
  have e4 : 2 * (1 + 2 ^ k * e) = 1 + (1 + 2 * (2 ^ k * e)) := by ring
  rw [e3, e4, ← add_assoc] at x3
  have x4 : a * add64 x (sub64 x p) + (1 + 2 * (2 ^ k * e)) + 2 ^ (2 * k) * (e * e)
      ≡ a * add64 x (sub64 x p) + (1 + 2 * (2 ^ k * e)) + 0 [MOD 2 ^ (2 * k)] :=
    (Nat.ModEq.refl _).add ((Nat.modEq_zero_iff_dvd).mpr (Dvd.intro _ rfl))
  have x5 := (x4.symm.trans x3)
  rw [add_zero] at x5
  exact Nat.ModEq.add_right_cancel' _ x5

/-- `inverse64` returns the inverse modulo 2^64 of an odd number (the last
assertion of the C function holds). -/
theorem inverse64_spec (a : Nat) (hodd : a % 2 = 1) : (a * inverse64 a) % W64 = 1 := by
  have h0 := inverse64_seed a hodd
  have h1 := inverse64_step a _ 4 (by omega) h0
  have h2 := inverse64_step a _ 8 (by omega) h1
  have h3 := inverse64_step a _ 16 (by omega) h2
  have h4 := inverse64_step a _ 32 (by omega) h3
  unfold inverse64
  simp only []
  rw [W64_eq]
  exact h4

/-- The constant m0 of a context: m0 * N[0] = -1 modulo 2^64. -/
theorem m0_spec (n0 : Nat) (hodd : n0 % 2 = 1) (hlt : n0 < W64) :
    (inverse64 (add64 (not64 n0) 1) * n0) % W64 = W64 - 1 := by
  have e : add64 (not64 n0) 1 = W64 - n0 := by
    unfold add64 not64
    rw [Nat.mod_eq_of_lt hlt]
    have : W64 - 1 - n0 + 1 = W64 - n0 := by omega
    rw [this]
    apply Nat.mod_eq_of_lt
    unfold W64 at *; omega
  rw [e]
  have ho : (W64 - n0) % 2 = 1 := by unfold W64 at *; omega
  have h := inverse64_spec (W64 - n0) ho
  generalize inverse64 (W64 - n0) = m at *
  have h2 : (W64 - n0) * m + m * n0 = W64 * m := by
    rw [mul_comm m n0, ← add_mul, Nat.sub_add_cancel (le_of_lt hlt)]
  have h3 : ((W64 - n0) * m + m * n0) % W64 = 0 := by rw [h2]; exact Nat.mul_mod_right _ _
  rw [Nat.add_mod, h] at h3
  have := Nat.mod_lt (m * n0) W64_pos
  generalize m * n0 % W64 = r at *
  unfold W64 at *
  omega

end Mont

namespace Mont

/-! ## `rsquare` -/

theorem shl1_spec (r : List Nat) (c : Nat) (hr : WordsOk r) (hc : c ≤ 1) :
    (shl1 r c).length = r.length ∧ WordsOk (shl1 r c) ∧
    wval (shl1 r c) = (2 * wval r + c) % W64 ^ r.length := by
  induction r generalizing c with
  | nil => simp [shl1, WordsOk_nil, wval, Nat.mod_one]
  | cons x r ih =>
    rw [WordsOk_cons] at hr
    have hx := hr.1
    have hc2 : x >>> 63 ≤ 1 := by
      rw [Nat.shiftRight_eq_div_pow]; unfold W64 at hx; omega
    obtain ⟨i1, i2, i3⟩ := ih (x >>> 63) hr.2 hc2
    simp only [shl1, List.length_cons, WordsOk_cons, wval_cons]
    refine ⟨by rw [i1], ⟨add64_lt _ _, i2⟩, ?_⟩
    rw [i3, ← cons_mod _ _ _ (add64_lt _ _)]
    congr 1
    have key : add64 ((x <<< 1) % W64) c + W64 * (x >>> 63) = 2 * x + c := by
      rw [Nat.shiftRight_eq_div_pow, Nat.shiftLeft_eq]
      unfold add64 W64 at *
      omega
    rw [mul_add, ← add_assoc, add_right_comm, key]
    ring

theorem top_bit_spec (r : List Nat) (nw : Nat) (hr : WordsOk r) (hl : r.length = nw)
    (hnw : 1 ≤ nw) : r.getD (nw - 1) 0 >>> 63 = (2 * wval r) / W64 ^ nw := by
  have hv : wval r < W64 ^ nw := by have := wval_lt hr; rwa [hl] at this
  have hp : W64 ^ nw = W64 ^ (nw - 1) * W64 := by
    rw [← pow_succ]; congr 1; omega
  have hpos : 0 < W64 ^ (nw - 1) := pow_pos W64_pos _
  rw [getD_eq_digit hr, Nat.shiftRight_eq_div_pow, hp, ← Nat.div_div_eq_div_mul]
  have hd : wval r / W64 ^ (nw - 1) < W64 := by
    apply Nat.div_lt_of_lt_mul; rw [← hp]; exact hv
  rw [Nat.mod_eq_of_lt hd]
  have hdm := Nat.div_add_mod (wval r) (W64 ^ (nw - 1))
  have hm := Nat.mod_lt (wval r) hpos
  generalize wval r / W64 ^ (nw - 1) = d at *
  generalize wval r % W64 ^ (nw - 1) = m at *
  have e : 2 * wval r / W64 ^ (nw - 1) = 2 * d + 2 * m / W64 ^ (nw - 1) := by
    rw [← hdm, mul_add, ← mul_assoc, mul_comm 2 (W64 ^ (nw - 1)), mul_assoc,
      Nat.mul_add_div hpos]
  have hm2 : 2 * m / W64 ^ (nw - 1) ≤ 1 := by
    have : 2 * m < W64 ^ (nw - 1) * 2 := by omega
    have := Nat.div_lt_of_lt_mul this
    omega
  rw [e]
  generalize 2 * m / W64 ^ (nw - 1) = y at *
  unfold W64 at *
  omega

/-- The inner loop of `rsquare` stops after at most two iterations and reduces
a value below 2N to a value below N. -/
theorem rsquare_reduce_spec (n r : List Nat) (nw o : Nat) (hn : WordsOk n) (hr : WordsOk r)
    (hln : n.length = nw) (hlr : r.length = nw) (ho : o ≤ 1)
    (hX : wval r + W64 ^ nw * o < 2 * wval n) :
    (rsquare_reduce n nw 2 o r).length = nw ∧ WordsOk (rsquare_reduce n nw 2 o r) ∧
    wval (rsquare_reduce n nw 2 o r) = (wval r + W64 ^ nw * o) % wval n ∧
    ge (rsquare_reduce n nw 2 o r) n nw = 0 := by
  have hN : wval n < W64 ^ nw := by have := wval_lt hn; rwa [hln] at this
  have hR : wval r < W64 ^ nw := by have := wval_lt hr; rwa [hlr] at this
  have hnt : n.take nw = n := List.take_of_length_le (by omega)
  have hrt : r.take nw = r := List.take_of_length_le (by omega)
  have hge := ge_spec r n nw (by omega) (by omega) hr hn
  rw [hnt, hrt] at hge
  obtain ⟨b1, b2, b3, b4⟩ := sub_spec r n nw (by omega) (by omega) hr hn
  rw [hnt, hrt] at b4
  have hS : wval (sub r n nw).1 < W64 ^ nw := by have := wval_lt b2; rwa [b1] at this
  have hst : (sub r n nw).1.take nw = (sub r n nw).1 := List.take_of_length_le (by omega)
  have hge2 := ge_spec (sub r n nw).1 n nw (by omega) (by omega) b2 hn
  rw [hnt, hst] at hge2
  by_cases hc : o ≠ 0 ∨ ge r n nw ≠ 0
  · have hsv : wval (sub r n nw).1 = wval r + W64 ^ nw * o - wval n ∧
        wval n ≤ wval r + W64 ^ nw * o := by
      generalize (sub r n nw).2 = bw at *
      generalize wval (sub r n nw).1 = sv at *
      rcases hc with h | h
      · have : o = 1 := by omega
        subst this
        have : bw = 1 := by
          rcases Nat.eq_zero_or_pos bw with h0 | h0
          · subst h0; omega
          · omega
        subst this
        omega
      · have hle : wval n ≤ wval r := by
          by_contra h'
          rw [hge, if_neg h'] at h; exact h rfl
        have : bw = 0 := by
          rcases Nat.eq_zero_or_pos bw with h0 | h0
          · exact h0
          · have : W64 ^ nw * 1 ≤ W64 ^ nw * bw := Nat.mul_le_mul_left _ h0
            omega
        subst this
        rcases Nat.eq_zero_or_pos o with h0 | h0
        · subst h0; omega
        · have : W64 ^ nw * 1 ≤ W64 ^ nw * o := Nat.mul_le_mul_left _ h0
          omega
    have hlt : wval (sub r n nw).1 < wval n := by omega
    have hg0 : ge (sub r n nw).1 n nw = 0 := by
      rw [hge2, if_neg (by omega)]
    have e : rsquare_reduce n nw 2 o r = (sub r n nw).1 := by
      simp only [rsquare_reduce, if_pos hc]
      rw [if_neg (by simp [hg0])]
    rw [e]
    refine ⟨b1, b2, ?_, hg0⟩
    rw [hsv.1]
    have : wval r + W64 ^ nw * o = (wval r + W64 ^ nw * o - wval n) + wval n := by omega
    conv_rhs => rw [this, Nat.add_mod_right]
    exact (Nat.mod_eq_of_lt (by omega)).symm
  · have hc' := not_or.mp hc
    have ho0 : o = 0 := by
      by_contra h; exact hc'.1 h
    subst ho0
    have hlt : wval r < wval n := by
      by_contra h'
      apply hc'.2
      rw [hge, if_pos (by omega)]; exact one_ne_zero
    have e : rsquare_reduce n nw 2 0 r = r := by
      simp only [rsquare_reduce, if_neg hc]
    rw [e]
    refine ⟨hlr, hr, ?_, ?_⟩
    · rw [mul_zero, add_zero, Nat.mod_eq_of_lt hlt]
    · rw [hge, if_neg (by omega)]

theorem rsquare_loop_spec (n : List Nat) (nw : Nat) (hn : WordsOk n) (hln : n.length = nw)
    (hnw : 1 ≤ nw) (hN : 2 ≤ wval n) :
    ∀ (cnt i : Nat) (r : List Nat), WordsOk r → r.length = nw → wval r = 2 ^ i % wval n →
      (rsquare_loop n nw cnt r).length = nw ∧ WordsOk (rsquare_loop n nw cnt r) ∧
      wval (rsquare_loop n nw cnt r) = 2 ^ (i + cnt) % wval n := by
  intro cnt
  induction cnt with
  | zero => intro i r hr hl hv; exact ⟨hl, hr, hv⟩
  | succ cnt ih =>
    intro i r hr hl hv
    have hlt : wval r < wval n := by rw [hv]; exact Nat.mod_lt _ (by omega)
    obtain ⟨s1, s2, s3⟩ := shl1_spec r 0 hr (by omega)
    rw [hl, add_zero] at s3
    have hto := top_bit_spec r nw hr hl hnw
    have hX : wval (shl1 r 0) + W64 ^ nw * (r.getD (nw - 1) 0 >>> 63) = 2 * wval r := by
      rw [s3, hto]; exact Nat.mod_add_div _ _
    have ho : r.getD (nw - 1) 0 >>> 63 ≤ 1 := by
      rw [hto]
      have hR : wval r < W64 ^ nw := by have := wval_lt hr; rwa [hl] at this
      have : 2 * wval r < W64 ^ nw * 2 := by omega
      have := Nat.div_lt_of_lt_mul this
      omega
    obtain ⟨q1, q2, q3, _⟩ := rsquare_reduce_spec n (shl1 r 0) nw _ hn s2 hln
      (by rw [s1, hl]) ho (by rw [hX]; omega)
    rw [hX] at q3
    simp only [rsquare_loop]
    have := ih (i + 1) _ q2 q1 (by
      rw [q3, hv, pow_succ, mul_comm (2 ^ i) 2, Nat.mul_mod, Nat.mod_mod, ← Nat.mul_mod])
    rw [show i + (cnt + 1) = i + 1 + cnt by ring]
    exact this

/-- `rsquare` computes R^2 mod N, with R = 2^(64 nw). -/
theorem rsquare_spec (n : List Nat) (nw : Nat) (hn : WordsOk n) (hln : n.length = nw)
    (hnw : 1 ≤ nw) (hN : 2 ≤ wval n) :
    (rsquare n nw).length = nw ∧ WordsOk (rsquare n nw) ∧
    wval (rsquare n nw) = (W64 ^ nw * W64 ^ nw) % wval n := by
  obtain ⟨m, hm⟩ : ∃ m, nw = m + 1 := ⟨nw - 1, by omega⟩
  have h1 : (List.replicate nw 0).set 0 1 = 1 :: List.replicate m 0 := by
    subst hm; rfl
  have hok : WordsOk ((List.replicate nw 0).set 0 1) := by
    rw [h1]; exact WordsOk_cons.mpr ⟨by unfold W64; omega, WordsOk_replicate_zero _⟩
  have hv : wval ((List.replicate nw 0).set 0 1) = 2 ^ 0 % wval n := by
    rw [h1, wval_cons, wval_replicate_zero, mul_zero, add_zero, pow_zero,
      Nat.mod_eq_of_lt (by omega)]
  obtain ⟨r1, r2, r3⟩ := rsquare_loop_spec n nw hn hln hnw hN (nw * 8 * 8 * 2) 0 _ hok
    (by simp) hv
  unfold rsquare
  refine ⟨r1, r2, ?_⟩
  rw [r3, zero_add, W64_eq, ← pow_mul, ← pow_add]
  congr 2
  ring

end Mont

namespace Mont

/-! ## Byte strings -/

theorem be_val_foldl (l : List Nat) (acc : Nat) :
    l.foldl (fun acc b => acc * 256 + b) acc = acc * 256 ^ l.length + be_val l := by
  unfold be_val
  induction l generalizing acc with
  | nil => simp
  | cons b l ih =>
    simp only [List.foldl_cons, List.length_cons, zero_mul, zero_add]
    rw [ih (acc * 256 + b), ih b, pow_succ]
    ring

theorem be_val_cons (b : Nat) (l : List Nat) :
    be_val (b :: l) = b * 256 ^ l.length + be_val l := by
  have := be_val_foldl l b
  unfold be_val at *
  simpa using this

theorem be_val_append_singleton (l : List Nat) (b : Nat) :
    be_val (l ++ [b]) = be_val l * 256 + b := by
  unfold be_val
  rw [List.foldl_append]
  rfl

theorem be_val_lt (l : List Nat) (h : BytesOk l) : be_val l < 256 ^ l.length := by
  induction l with
  | nil => simp [be_val]
  | cons b l ih =>
    have hb : b < 256 := h b (List.mem_cons_self _ _)
    have hl := ih (fun x hx => h x (List.mem_cons_of_mem _ hx))
    rw [be_val_cons, List.length_cons, pow_succ]
    have h3 : (b + 1) * 256 ^ l.length ≤ 256 * 256 ^ l.length := Nat.mul_le_mul_right _ hb
    rw [Nat.succ_mul] at h3
    omega

theorem to_words_spec (nw v : Nat) :
    (to_words nw v).length = nw ∧ WordsOk (to_words nw v) ∧
    wval (to_words nw v) = v % W64 ^ nw := by
  induction nw generalizing v with
  | zero => simp [to_words, WordsOk_nil, wval, Nat.mod_one]
  | succ nw ih =>
    obtain ⟨i1, i2, i3⟩ := ih (v / W64)
    simp only [to_words, List.length_cons, WordsOk_cons, wval_cons]
    refine ⟨by rw [i1], ⟨Nat.mod_lt _ W64_pos, i2⟩, ?_⟩
    rw [i3, ← cons_mod _ _ _ (Nat.mod_lt _ W64_pos), Nat.mod_add_div]

theorem to_be_bytes_spec (len v : Nat) :
    (to_be_bytes len v).length = len ∧ BytesOk (to_be_bytes len v) ∧
    be_val (to_be_bytes len v) = v % 256 ^ len := by
  induction len generalizing v with
  | zero => simp [to_be_bytes, BytesOk, be_val, Nat.mod_one]
  | succ len ih =>
    obtain ⟨i1, i2, i3⟩ := ih (v / 256)
    simp only [to_be_bytes]
    refine ⟨by simp [i1], ?_, ?_⟩
    · intro x hx
      rcases List.mem_append.mp hx with h | h
      · exact i2 x h
      · rw [List.mem_singleton] at h; rw [h]; exact Nat.mod_lt _ (by omega)
    · rw [be_val_append_singleton, i3, pow_succ]
      have h1 := Nat.mod_mul (a := 256) (b := 256 ^ len) (x := v)
      rw [mul_comm (256 ^ len) 256, h1]
      ring

theorem bytes_words_bound (len : Nat) : 256 ^ len ≤ W64 ^ ((len + 7) / 8) := by
  have h : W64 = 256 ^ 8 := by unfold W64; norm_num
  rw [h, ← pow_mul]
  exact Nat.pow_le_pow_right (by omega) (by omega)

end Mont

namespace Mont

/-! ## The Montgomery context -/

theorem wval_one_words (words : Nat) (h : 1 ≤ words) :
    ((List.replicate words 0).set 0 1).length = words ∧
    WordsOk ((List.replicate words 0).set 0 1) ∧
    wval ((List.replicate words 0).set 0 1) = 1 := by
  obtain ⟨m, hm⟩ : ∃ m, words = m + 1 := ⟨words - 1, by omega⟩
  subst hm
  have h1 : (List.replicate (m + 1) 0).set 0 1 = 1 :: List.replicate m 0 := rfl
  rw [h1]
  refine ⟨by simp, WordsOk_cons.mpr ⟨by unfold W64; omega, WordsOk_replicate_zero _⟩, ?_⟩
  rw [wval_cons, wval_replicate_zero, mul_zero, add_zero]

theorem scratchpad_ok (words : Nat) :
    WordsOk (scratchpad words) ∧ (scratchpad words).length = 3 * words + 1 :=
  ⟨WordsOk_replicate_zero _, by simp [scratchpad]⟩

/-- Multiplication by a context, on operands of `words` words: the result is
congruent to a*b/R, and is below N as soon as a*b < N*R. -/
theorem mont_mult_spec (ctx : MontContext) (hc : MontCtxOk ctx) (aliased : Bool)
    (a b : List Nat) (ha : WordsOk a) (hb : WordsOk b) (hla : a.length = ctx.words)
    (hlb : b.length = ctx.words) :
    (mont_mult aliased a b ctx).length = ctx.words ∧
    WordsOk (mont_mult aliased a b ctx) ∧
    wval (mont_mult aliased a b ctx) * W64 ^ ctx.words
      ≡ wval a * wval (if aliased then a else b) [MOD wval ctx.modulus] ∧
    (wval a * wval (if aliased then a else b) < wval ctx.modulus * W64 ^ ctx.words →
      wval (mont_mult aliased a b ctx) < wval ctx.modulus) := by
  obtain ⟨s1, s2, s3, s4, _⟩ := mont_mult_internal_spec aliased a b ctx.modulus ctx.m0
    (scratchpad ctx.words) ctx.words hc.words_pos ha hb hc.n_ok (scratchpad_ok _).1 hla hlb
    hc.n_len (by rw [(scratchpad_ok _).2]; omega) hc.m0_eq
  exact ⟨s1, s2, s3, s4⟩

theorem modulus_lt_R (ctx : MontContext) (hc : MontCtxOk ctx) :
    wval ctx.modulus < W64 ^ ctx.words := by
  have := wval_lt hc.n_ok; rwa [hc.n_len] at this

/-- The context that `mont_context_init` builds from an odd modulus N >= 3
satisfies the invariants of the data model. -/
theorem mont_context_build_ok (modulus : List Nat) (hb : BytesOk modulus)
    (hN : 3 ≤ be_val modulus) (hodd : be_val modulus % 2 = 1) :
    MontCtxOk (mont_context_build modulus) ∧
    wval (mont_context_build modulus).modulus = be_val modulus ∧
    (mont_context_build modulus).words = (modulus.length + 7) / 8 := by
  have hlen : 1 ≤ modulus.length := by
    rcases Nat.eq_zero_or_pos modulus.length with h | h
    · rw [List.length_eq_zero] at h; subst h; simp [be_val] at hN
    · exact h
  generalize hw : (modulus.length + 7) / 8 = words
  have hwp : 1 ≤ words := by omega
  obtain ⟨n1, n2, n3⟩ := to_words_spec words (be_val modulus)
  have hbound : be_val modulus < W64 ^ words := by
    have := bytes_words_bound modulus.length
    rw [hw] at this
    exact lt_of_lt_of_le (be_val_lt modulus hb) this
  rw [Nat.mod_eq_of_lt hbound] at n3
  have hn0 : (to_words words (be_val modulus)).getD 0 0 % 2 = 1 := by
    rw [getD_eq_digit n2, pow_zero, Nat.div_one, n3]
    have : (2 : Nat) ∣ W64 := by unfold W64; decide
    rw [Nat.mod_mod_of_dvd _ this]; exact hodd
  have hn0lt : (to_words words (be_val modulus)).getD 0 0 < W64 := by
    rw [getD_eq_digit n2]; exact Nat.mod_lt _ W64_pos
  have hm := m0_spec _ hn0 hn0lt
  obtain ⟨q1, q2, q3⟩ := rsquare_spec (to_words words (be_val modulus)) words n2 n1 hwp
    (by rw [n3]; omega)
  obtain ⟨o1, o2, o3⟩ := wval_one_words words hwp
  obtain ⟨s1, s2, s3, s4, _⟩ := mont_mult_internal_spec false
    ((List.replicate words 0).set 0 1) (rsquare (to_words words (be_val modulus)) words)
    (to_words words (be_val modulus))
    (inverse64 (add64 (not64 ((to_words words (be_val modulus)).getD 0 0)) 1))
    (scratchpad words) words hwp o2 q2 n2 (scratchpad_ok _).1 o1 q1 n1
    (by rw [(scratchpad_ok _).2]; omega) hm
  simp only [Bool.false_eq_true, if_false] at s3 s4
  rw [o3, one_mul, q3, n3] at s3 s4
  have hNpos : 0 < be_val modulus := by omega
  have hlt := s4 (by
    calc W64 ^ words * W64 ^ words % be_val modulus < be_val modulus := Nat.mod_lt _ hNpos
      _ ≤ be_val modulus * W64 ^ words := Nat.le_mul_of_pos_right _ (pow_pos W64_pos _))
  have hrval : wval (mont_mult_internal false ((List.replicate words 0).set 0 1)
      (rsquare (to_words words (be_val modulus)) words) (to_words words (be_val modulus))
      (inverse64 (add64 (not64 ((to_words words (be_val modulus)).getD 0 0)) 1))
      (scratchpad words) words) = W64 ^ words % be_val modulus := by
    have h1 := s3.trans (Nat.mod_modEq _ _)
    have h2 := Nat.ModEq.cancel_right_of_coprime ((coprime_R _ words hodd).symm) h1
    unfold Nat.ModEq at h2
    rwa [Nat.mod_eq_of_lt hlt] at h2
  -- N - 1 and N - 2
  obtain ⟨a1, a2, a3, a4⟩ := sub_spec (to_words words (be_val modulus))
    ((List.replicate words 0).set 0 1) words (by omega) (by omega) n2 o2
  rw [List.take_of_length_le (by omega), List.take_of_length_le (by omega), n3, o3] at a4
  have hs1 : wval (sub (to_words words (be_val modulus))
      ((List.replicate words 0).set 0 1) words).1 = be_val modulus - 1 := by
    have hS := wval_lt a2
    rw [a1] at hS
    generalize (sub (to_words words (be_val modulus))
      ((List.replicate words 0).set 0 1) words).2 = bw at *
    generalize wval (sub (to_words words (be_val modulus))
      ((List.replicate words 0).set 0 1) words).1 = sv at *
    have : bw = 0 := by
      rcases Nat.eq_zero_or_pos bw with h0 | h0
      · exact h0
      · have : W64 ^ words * 1 ≤ W64 ^ words * bw := Nat.mul_le_mul_left _ h0
        omega
    subst this
    omega
  obtain ⟨c1, c2, c3, c4⟩ := sub_spec (sub (to_words words (be_val modulus))
    ((List.replicate words 0).set 0 1) words).1
    ((List.replicate words 0).set 0 1) words (by omega) (by omega) a2 o2
  rw [List.take_of_length_le (by omega), List.take_of_length_le (by omega), hs1, o3] at c4
  have hs2 : wval (sub (sub (to_words words (be_val modulus))
      ((List.replicate words 0).set 0 1) words).1
      ((List.replicate words 0).set 0 1) words).1 = be_val modulus - 2 := by
    have hS := wval_lt c2
    rw [c1] at hS
    generalize (sub (sub (to_words words (be_val modulus))
      ((List.replicate words 0).set 0 1) words).1
      ((List.replicate words 0).set 0 1) words).2 = bw at *
    generalize wval (sub (sub (to_words words (be_val modulus))
      ((List.replicate words 0).set 0 1) words).1
      ((List.replicate words 0).set 0 1) words).1 = sv at *
    have : bw = 0 := by
      rcases Nat.eq_zero_or_pos bw with h0 | h0
      · exact h0
      · have : W64 ^ words * 1 ≤ W64 ^ words * bw := Nat.mul_le_mul_left _ h0
        omega
    subst this
    omega
  unfold mont_context_build
  simp only [hw, bytes_to_words]
  refine ⟨?_, n3, trivial⟩
  exact {
    words_pos := hwp
    bytes_eq := rfl
    n_len := n1
    n_ok := n2
    n_ge := by rw [n3]; exact hN
    n_odd := by rw [n3]; exact hodd
    m0_eq := hm
    r2_len := q1
    r2_ok := q2
    r2_val := by rw [q3, n3]
    one_len := o1
    one_ok := o2
    one_val := o3
    r_len := s1
    r_ok := s2
    r_val := by rw [n3]; exact hrval
    min2_len := c1
    min2_ok := c2
    min2_val := by rw [n3]; exact hs2 }

/-- A successful `mont_context_init` returns the context built from the modulus,
and the modulus is odd. -/
theorem mont_context_init_ok (modulus : List Nat) (ctx : MontContext)
    (h : mont_context_init modulus = .ok ctx) :
    ctx = mont_context_build modulus ∧ 1 ≤ modulus.length ∧
    is_odd (modulus.getD (modulus.length - 1) 0) = true := by
  unfold mont_context_init at h
  simp only [] at h
  split_ifs at h with h1 h2 h3
  · injection h with h
    refine ⟨h.symm, by omega, ?_⟩
    unfold is_even at h2
    simpa using h2

end Mont

namespace Mont

/-! ## Encoding and decoding -/

theorem modEq_eq_of_lt {a b n : Nat} (h : a ≡ b [MOD n]) (ha : a < n) (hb : b < n) :
    a = b := by
  unfold Nat.ModEq at h
  rwa [Nat.mod_eq_of_lt ha, Nat.mod_eq_of_lt hb] at h

theorem to_be_bytes_be_val (l : List Nat) (h : BytesOk l) :
    to_be_bytes l.length (be_val l) = l := by
  induction l using List.reverseRecOn with
  | nil => rfl
  | append_singleton l b ih =>
    have hb : b < 256 := h b (by simp)
    have hl : BytesOk l := fun x hx => h x (List.mem_append_left _ hx)
    rw [List.length_append, List.length_singleton, be_val_append_singleton]
    simp only [to_be_bytes]
    have e1 : (be_val l * 256 + b) / 256 = be_val l := by omega
    have e2 : (be_val l * 256 + b) % 256 = b := by omega
    rw [e1, e2, ih hl]

/-- `mont_from_bytes` on a number below the modulus: the Montgomery form x*R mod N. -/
theorem mont_from_bytes_spec (ctx : MontContext) (hc : MontCtxOk ctx) (number : List Nat)
    (hl1 : 1 ≤ number.length) (hl2 : number.length ≤ ctx.bytes)
    (hx : be_val number < wval ctx.modulus) :
    ∃ enc, mont_from_bytes ctx number = .ok enc ∧ enc.length = ctx.words ∧ WordsOk enc ∧
      wval enc < wval ctx.modulus ∧
      wval enc ≡ be_val number * W64 ^ ctx.words [MOD wval ctx.modulus] := by
  have hN := modulus_lt_R ctx hc
  obtain ⟨w1, w2, w3⟩ := to_words_spec ctx.words (be_val number)
  rw [Nat.mod_eq_of_lt (by omega)] at w3
  have hge := ge_spec (bytes_to_words ctx.words number) ctx.modulus ctx.words
    (by unfold bytes_to_words; omega) (by rw [hc.n_len]) w2 hc.n_ok
  unfold bytes_to_words at hge
  have t1 : (to_words ctx.words (be_val number)).take ctx.words
      = to_words ctx.words (be_val number) := List.take_of_length_le (by omega)
  have t2 : ctx.modulus.take ctx.words = ctx.modulus :=
    List.take_of_length_le (by rw [hc.n_len])
  rw [t1, t2, w3, if_neg (by omega)] at hge
  obtain ⟨s1, s2, s3, s4, _⟩ := mont_mult_internal_spec false
    (to_words ctx.words (be_val number)) ctx.r2_mod_n ctx.modulus ctx.m0
    (scratchpad ctx.words) ctx.words hc.words_pos w2 hc.r2_ok hc.n_ok (scratchpad_ok _).1
    w1 hc.r2_len hc.n_len (by rw [(scratchpad_ok _).2]; omega) hc.m0_eq
  simp only [Bool.false_eq_true, if_false] at s3 s4
  rw [w3, hc.r2_val] at s3 s4
  have hNpos : 0 < wval ctx.modulus := by have := hc.n_ge; omega
  have hlt := s4 (by
    have h1 : W64 ^ ctx.words * W64 ^ ctx.words % wval ctx.modulus < W64 ^ ctx.words :=
      lt_trans (Nat.mod_lt _ hNpos) hN
    calc be_val number * (W64 ^ ctx.words * W64 ^ ctx.words % wval ctx.modulus)
        < wval ctx.modulus * W64 ^ ctx.words := Nat.mul_lt_mul'' hx h1)
  refine ⟨_, ?_, s1, s2, hlt, ?_⟩
  · unfold mont_from_bytes
    simp only [bytes_to_words]
    rw [if_neg (by omega), if_neg (by omega), if_neg (by rw [hge]; simp)]
  · have h1 : be_val number * (W64 ^ ctx.words * W64 ^ ctx.words % wval ctx.modulus)
        ≡ be_val number * W64 ^ ctx.words * W64 ^ ctx.words [MOD wval ctx.modulus] := by
      rw [mul_assoc]
      exact (Nat.mod_modEq _ _).mul_left _
    exact Nat.ModEq.cancel_right_of_coprime ((coprime_R _ ctx.words hc.n_odd).symm)
      (s3.trans h1)

/-- `mont_to_bytes` on a number a below the modulus: the encoding of the v
below N with v*R = a modulo N. -/
theorem mont_to_bytes_spec (ctx : MontContext) (hc : MontCtxOk ctx) (a : List Nat)
    (ha : WordsOk a) (hla : a.length = ctx.words) (v : Nat) (hv : v < wval ctx.modulus)
    (hva : wval a ≡ v * W64 ^ ctx.words [MOD wval ctx.modulus]) :
    mont_to_bytes ctx a = .ok (to_be_bytes ctx.bytes v) := by
  have hN := modulus_lt_R ctx hc
  obtain ⟨s1, s2, s3, s4, _⟩ := mont_mult_internal_spec false a ctx.one ctx.modulus ctx.m0
    (scratchpad ctx.words) ctx.words hc.words_pos ha hc.one_ok hc.n_ok (scratchpad_ok _).1
    hla hc.one_len hc.n_len (by rw [(scratchpad_ok _).2]; omega) hc.m0_eq
  simp only [Bool.false_eq_true, if_false] at s3 s4
  rw [hc.one_val, mul_one] at s3 s4
  have hA : wval a < W64 ^ ctx.words := by have := wval_lt ha; rwa [hla] at this
  have hlt := s4 (by
    have : 1 ≤ wval ctx.modulus := by have := hc.n_ge; omega
    calc wval a < W64 ^ ctx.words := hA
      _ ≤ wval ctx.modulus * W64 ^ ctx.words := Nat.le_mul_of_pos_left _ this)
  have h2 := Nat.ModEq.cancel_right_of_coprime ((coprime_R _ ctx.words hc.n_odd).symm)
    (s3.trans hva)
  have h3 := modEq_eq_of_lt h2 hlt hv
  unfold mont_to_bytes words_to_bytes
  simp only []
  rw [h3]

/-- C3. For a context built by `mont_context_init` from an odd modulus N >= 3
and a big-endian byte string of 1 to ctx.bytes bytes whose value x is below N,
`mont_from_bytes` succeeds and `mont_to_bytes` of its result writes the
big-endian encoding of x on ctx.bytes bytes, padded with zeroes on the left
(the byte string of that length whose value is x). -/
theorem C3_encoding_round_trip (modulus number : List Nat) (ctx : MontContext)
    (hinit : mont_context_init modulus = .ok ctx) (hmb : BytesOk modulus)
    (hN : 3 ≤ be_val modulus) (hodd : be_val modulus % 2 = 1)
    (hl1 : 1 ≤ number.length) (hl2 : number.length ≤ ctx.bytes)
    (hx : be_val number < be_val modulus) :
    ∃ enc, mont_from_bytes ctx number = .ok enc ∧
      mont_to_bytes ctx enc = .ok (to_be_bytes ctx.bytes (be_val number)) ∧
      (to_be_bytes ctx.bytes (be_val number)).length = ctx.bytes ∧
      BytesOk (to_be_bytes ctx.bytes (be_val number)) ∧
      be_val (to_be_bytes ctx.bytes (be_val number)) = be_val number := by
  obtain ⟨hctx, _, _⟩ := mont_context_init_ok modulus ctx hinit
  obtain ⟨hc, hval, _⟩ := mont_context_build_ok modulus hmb hN hodd
  rw [← hctx] at hc hval
  rw [← hval] at hx
  obtain ⟨enc, e1, e2, e3, e4, e5⟩ := mont_from_bytes_spec ctx hc number hl1 hl2 hx
  obtain ⟨b1, b2, b3⟩ := to_be_bytes_spec ctx.bytes (be_val number)
  refine ⟨enc, e1, mont_to_bytes_spec ctx hc enc e3 e2 _ hx e5, b1, b2, ?_⟩
  rw [b3]
  apply Nat.mod_eq_of_lt
  have h1 := modulus_lt_R ctx hc
  have h2 : W64 ^ ctx.words = 256 ^ ctx.bytes := by
    rw [hc.bytes_eq, mul_comm, pow_mul]
    congr 1
  omega

end Mont

namespace Mont

/-! ## The helpers used by ec_ws.c -/

theorem wval_eq_zero_iff (a : List Nat) : wval a = 0 ↔ ∀ x ∈ a, x = 0 := by
  induction a with
  | nil => simp [wval]
  | cons x a ih =>
    rw [wval_cons]
    constructor
    · intro h
      have h1 : x = 0 := by omega
      have h2 : W64 * wval a = 0 := by omega
      have h3 : wval a = 0 := by
        rcases Nat.mul_eq_zero.mp h2 with h | h
        · exact absurd h (Nat.pos_iff_ne_zero.mp W64_pos)
        · exact h
      intro y hy
      rcases List.mem_cons.mp hy with h | h
      · rw [h, h1]
      · exact ih.mp h3 y h
    · intro h
      have h1 : x = 0 := h x (List.mem_cons_self _ _)
      have h3 : wval a = 0 := ih.mpr (fun y hy => h y (List.mem_cons_of_mem _ hy))
      rw [h1, h3, mul_zero, add_zero]

theorem mont_is_zero_iff (a : List Nat) (ctx : MontContext) (hl : a.length = ctx.words) :
    mont_is_zero a ctx = true ↔ wval a = 0 := by
  unfold mont_is_zero
  rw [List.take_of_length_le (by omega), wval_eq_zero_iff, List.all_eq_true]
  constructor
  · intro h x hx; exact beq_iff_eq.mp (h x hx)
  · intro h x hx; exact beq_iff_eq.mpr (h x hx)

theorem mont_is_zero_take (a : List Nat) (ctx : MontContext) :
    mont_is_zero (a.take ctx.words) ctx = mont_is_zero a ctx := by
  unfold mont_is_zero
  rw [List.take_take, Nat.min_self]

theorem mont_is_zero_set_zero (ctx : MontContext) : mont_is_zero (mont_set 0 ctx) ctx = true := by
  unfold mont_is_zero mont_set
  rw [if_pos rfl, List.all_eq_true]
  intro x hx
  have := List.mem_of_mem_take hx
  rw [List.eq_of_mem_replicate this]
  rfl

theorem mont_is_equal_self (a : List Nat) (ctx : MontContext) : mont_is_equal a a ctx = true := by
  unfold mont_is_equal
  exact beq_self_eq_true _

theorem mont_is_equal_iff (a b : List Nat) (ctx : MontContext) (hla : a.length = ctx.words)
    (hlb : b.length = ctx.words) : mont_is_equal a b ctx = true ↔ a = b := by
  unfold mont_is_equal
  rw [List.take_of_length_le (by omega), List.take_of_length_le (by omega)]
  exact beq_iff_eq

theorem mont_copy_eq (a : List Nat) (ctx : MontContext) (hla : a.length = ctx.words) :
    mont_copy a ctx = a := by
  unfold mont_copy
  exact List.take_of_length_le (by omega)

theorem mont_set_one (ctx : MontContext) (hc : MontCtxOk ctx) :
    mont_set 1 ctx = ctx.r_mod_n := by
  unfold mont_set
  rw [if_neg (by omega), if_pos rfl]
  exact List.take_of_length_le (by rw [hc.r_len])

theorem mont_set_zero_spec (ctx : MontContext) :
    (mont_set 0 ctx).length = ctx.words ∧ WordsOk (mont_set 0 ctx) ∧
    wval (mont_set 0 ctx) = 0 := by
  unfold mont_set
  rw [if_pos rfl]
  exact ⟨by simp, WordsOk_replicate_zero _, wval_replicate_zero _⟩

/-- `mont_sub` computes the difference modulo R; it is exact when b <= a. -/
theorem mont_sub_spec (a b : List Nat) (ctx : MontContext) (ha : WordsOk a) (hb : WordsOk b)
    (hla : a.length = ctx.words) (hlb : b.length = ctx.words) :
    (mont_sub a b ctx).length = ctx.words ∧ WordsOk (mont_sub a b ctx) ∧
    (wval b ≤ wval a → wval (mont_sub a b ctx) = wval a - wval b) ∧
    (wval a < wval b → wval (mont_sub a b ctx) = wval a + W64 ^ ctx.words - wval b) := by
  obtain ⟨b1, b2, b3, b4⟩ := sub_spec a b ctx.words (by omega) (by omega) ha hb
  rw [List.take_of_length_le (by omega), List.take_of_length_le (by omega)] at b4
  have hS := wval_lt b2
  rw [b1] at hS
  have hA : wval a < W64 ^ ctx.words := by have := wval_lt ha; rwa [hla] at this
  have hB : wval b < W64 ^ ctx.words := by have := wval_lt hb; rwa [hlb] at this
  have e : mont_sub a b ctx = (sub a b ctx.words).1 := rfl
  rw [e]
  generalize (sub a b ctx.words).2 = bw at *
  generalize wval (sub a b ctx.words).1 = sv at *
  refine ⟨b1, b2, ?_, ?_⟩
  · intro h
    have : bw = 0 := by
      rcases Nat.eq_zero_or_pos bw with h0 | h0
      · exact h0
      · have : W64 ^ ctx.words * 1 ≤ W64 ^ ctx.words * bw := Nat.mul_le_mul_left _ h0
        omega
    subst this
    omega
  · intro h
    have : bw = 1 := by
      rcases Nat.eq_zero_or_pos bw with h0 | h0
      · subst h0; omega
      · omega
    subst this
    omega

theorem mont_add_step (a b carry : Nat) (ha : a < W64) (hb : b < W64) (hc : carry ≤ 1) :
    add64 (add64 a carry) b
        + W64 * (lt64 (add64 a carry) carry + lt64 (add64 (add64 a carry) b) b)
      = a + b + carry ∧
    lt64 (add64 a carry) carry + lt64 (add64 (add64 a carry) b) b ≤ 1 := by
  unfold add64 lt64 W64 at *
  split_ifs <;> omega

theorem mont_add_loop_spec (a b : List Nat) (carry : Nat) (hlen : a.length = b.length)
    (ha : WordsOk a) (hb : WordsOk b) (hc : carry ≤ 1) :
    (mont_add_loop false a b carry).length = a.length ∧
    WordsOk (mont_add_loop false a b carry) ∧
    wval (mont_add_loop false a b carry) = (wval a + wval b + carry) % W64 ^ a.length := by
  induction a generalizing b carry with
  | nil =>
    cases b with
    | nil => simp [mont_add_loop, WordsOk_nil, wval, Nat.mod_one]
    | cons y b => simp at hlen
  | cons x a ih =>
    cases b with
    | nil => simp at hlen
    | cons y b =>
      rw [WordsOk_cons] at ha hb
      obtain ⟨k1, k2⟩ := mont_add_step x y carry ha.1 hb.1 hc
      obtain ⟨i1, i2, i3⟩ := ih b _ (by simpa using hlen) ha.2 hb.2 k2
      simp only [mont_add_loop, Bool.false_eq_true, if_false, List.length_cons, WordsOk_cons,
        wval_cons]
      refine ⟨by rw [i1], ⟨add64_lt _ _, i2⟩, ?_⟩
      rw [i3, ← cons_mod _ _ _ (add64_lt _ _)]
      congr 1
      rw [mul_add, ← add_assoc, add_right_comm, k1]
      ring

/-- When `out` is not the array `b`, `mont_add` computes the sum modulo R, without
reduction modulo N. -/
theorem mont_add_spec (a b : List Nat) (ctx : MontContext) (ha : WordsOk a) (hb : WordsOk b)
    (hla : a.length = ctx.words) (hlb : b.length = ctx.words) :
    (mont_add false a b ctx).length = ctx.words ∧ WordsOk (mont_add false a b ctx) ∧
    wval (mont_add false a b ctx) = (wval a + wval b) % W64 ^ ctx.words := by
  unfold mont_add
  rw [List.take_of_length_le (by omega), List.take_of_length_le (by omega)]
  obtain ⟨i1, i2, i3⟩ := mont_add_loop_spec a b 0 (by omega) ha hb (by omega)
  rw [hla] at i1 i3
  exact ⟨i1, i2, by simpa using i3⟩

/-- Multiplication by the Montgomery form of 1 gives back a number below N. -/
theorem mont_mult_one_right (ctx : MontContext) (hc : MontCtxOk ctx) (aliased : Bool)
    (a : List Nat) (ha : WordsOk a) (hla : a.length = ctx.words)
    (haN : wval a < wval ctx.modulus) (hal : aliased = true → a = ctx.r_mod_n) :
    mont_mult aliased a ctx.r_mod_n ctx = a := by
  obtain ⟨s1, s2, s3, s4⟩ := mont_mult_spec ctx hc aliased a ctx.r_mod_n ha hc.r_ok hla hc.r_len
  have hN := modulus_lt_R ctx hc
  have hNpos : 0 < wval ctx.modulus := by have := hc.n_ge; omega
  have hB : (if aliased then a else ctx.r_mod_n) = ctx.r_mod_n := by
    cases aliased
    · rfl
    · exact hal rfl
  rw [hB, hc.r_val] at s3 s4
  have hlt := s4 (by
    have h1 : W64 ^ ctx.words % wval ctx.modulus < W64 ^ ctx.words :=
      lt_trans (Nat.mod_lt _ hNpos) hN
    exact Nat.mul_lt_mul'' haN h1)
  have h1 : wval a * (W64 ^ ctx.words % wval ctx.modulus)
      ≡ wval a * W64 ^ ctx.words [MOD wval ctx.modulus] := (Nat.mod_modEq _ _).mul_left _
  have h2 := Nat.ModEq.cancel_right_of_coprime ((coprime_R _ ctx.words hc.n_odd).symm)
    (s3.trans h1)
  exact wval_inj s2 ha (by rw [s1, hla]) (modEq_eq_of_lt h2 hlt haN)

theorem r_mod_n_lt (ctx : MontContext) (hc : MontCtxOk ctx) :
    wval ctx.r_mod_n < wval ctx.modulus ∧ 0 < wval ctx.r_mod_n := by
  have hNpos : 0 < wval ctx.modulus := by have := hc.n_ge; omega
  rw [hc.r_val]
  refine ⟨Nat.mod_lt _ hNpos, ?_⟩
  rcases Nat.eq_zero_or_pos (W64 ^ ctx.words % wval ctx.modulus) with h | h
  · have hd : wval ctx.modulus ∣ W64 ^ ctx.words := Nat.dvd_of_mod_eq_zero h
    have hcop := coprime_R (wval ctx.modulus) ctx.words hc.n_odd
    have := Nat.Coprime.eq_one_of_dvd hcop.symm hd
    have := hc.n_ge
    omega
  · exact h

end Mont

namespace EcWs

open Mont

/-! ## Doubling and adding a point to itself -/

theorem ec_full_add_self (ar : MontArith) (x y z : List Nat) (ctx : MontContext) :
    ec_full_add ar x y z x y z ctx =
      if mont_is_zero z ctx then (mont_copy x ctx, mont_copy y ctx, mont_copy z ctx)
      else ec_full_double ar x y z ctx := by
  unfold ec_full_add
  by_cases hz : mont_is_zero z ctx = true
  · rw [if_pos hz, if_pos hz]
  · rw [if_neg hz, if_neg hz]
    simp only [mont_is_equal_self, if_true]

theorem ec_ws_cmp_same (p q : EcPoint) (hc : p.ec_ctx = q.ec_ctx) (hx : p.x = q.x)
    (hy : p.y = q.y) (hz : p.z = q.z) : ec_ws_cmp p q = .ok 0 := by
  unfold ec_ws_cmp
  rw [if_neg (by simp [hc]), hx, hy, hz]
  simp only [mont_is_equal_self]
  by_cases h : (mont_is_zero q.z p.ec_ctx.mont_ctx && mont_is_zero q.z p.ec_ctx.mont_ctx) = true
  · rw [if_pos h]
  · rw [if_neg h]
    simp

theorem ec_ws_cmp_both_zero (p q : EcPoint) (hc : p.ec_ctx = q.ec_ctx)
    (hp : mont_is_zero p.z p.ec_ctx.mont_ctx = true)
    (hq : mont_is_zero q.z p.ec_ctx.mont_ctx = true) : ec_ws_cmp p q = .ok 0 := by
  unfold ec_ws_cmp
  rw [if_neg (by simp [hc])]
  simp only [hp, hq, Bool.and_self, if_true]

theorem ec_ws_add_ok (ar : MontArith) (a b : EcPoint) (h : a.ec_ctx = b.ec_ctx) :
    ec_ws_add ar a b = .ok { a with
      x := (ec_full_add ar a.x a.y a.z b.x b.y b.z a.ec_ctx.mont_ctx).1
      y := (ec_full_add ar a.x a.y a.z b.x b.y b.z a.ec_ctx.mont_ctx).2.1
      z := (ec_full_add ar a.x a.y a.z b.x b.y b.z a.ec_ctx.mont_ctx).2.2 } := by
  unfold ec_ws_add
  rw [if_neg (by simp [h])]

/-- C8. For every point P, the point obtained by `ec_ws_double` on a clone of P
and the point obtained by `ec_ws_add` on a clone of P and another clone of P
compare equal: `ec_ws_add` succeeds and `ec_ws_cmp` returns 0.  This holds
whatever `mont_add` and `mont_sub` compute. -/
theorem C8_double_eq_add_self (ar : MontArith) (p : EcPoint) :
    ∃ s, ec_ws_add ar (ec_ws_clone p) (ec_ws_clone p) = .ok s ∧
      ec_ws_cmp (ec_ws_double ar (ec_ws_clone p)) s = .ok 0 := by
  refine ⟨_, ec_ws_add_ok _ _ _ rfl, ?_⟩
  · simp only [ec_full_add_self]
    by_cases hz : mont_is_zero (ec_ws_clone p).z (ec_ws_clone p).ec_ctx.mont_ctx = true
    · apply ec_ws_cmp_both_zero
      · rfl
      · simp only [ec_ws_double, ec_full_double, if_pos hz]
        exact mont_is_zero_set_zero _
      · simp only [if_pos hz]
        have : mont_is_zero (mont_copy (ec_ws_clone p).z (ec_ws_clone p).ec_ctx.mont_ctx)
            (ec_ws_clone p).ec_ctx.mont_ctx = true := by
          unfold mont_copy
          rw [mont_is_zero_take]; exact hz
        exact this
    · apply ec_ws_cmp_same
      · rfl
      · simp only [ec_ws_double, if_neg hz]
      · simp only [ec_ws_double, if_neg hz]
      · simp only [ec_ws_double, if_neg hz]

end EcWs

namespace Mont

/-! ## Zero and non-zero products -/

theorem mont_mult_zero (ctx : MontContext) (hc : MontCtxOk ctx) (aliased : Bool)
    (a b : List Nat) (ha : WordsOk a) (hb : WordsOk b) (hla : a.length = ctx.words)
    (hlb : b.length = ctx.words) (h0 : wval a * wval (if aliased then a else b) = 0) :
    wval (mont_mult aliased a b ctx) = 0 := by
  obtain ⟨s1, s2, s3, s4⟩ := mont_mult_spec ctx hc aliased a b ha hb hla hlb
  rw [h0] at s3 s4
  have hNpos : 0 < wval ctx.modulus := by have := hc.n_ge; omega
  have hlt := s4 (Nat.mul_pos hNpos (pow_pos W64_pos _))
  have h1 : wval (mont_mult aliased a b ctx) * W64 ^ ctx.words
      ≡ 0 * W64 ^ ctx.words [MOD wval ctx.modulus] := by rw [zero_mul]; exact s3
  have h2 := Nat.ModEq.cancel_right_of_coprime ((coprime_R _ ctx.words hc.n_odd).symm) h1
  exact modEq_eq_of_lt h2 hlt hNpos

theorem mont_mult_not_dvd (ctx : MontContext) (hc : MontCtxOk ctx)
    (hp : Nat.Prime (wval ctx.modulus)) (aliased : Bool)
    (a b : List Nat) (ha : WordsOk a) (hb : WordsOk b) (hla : a.length = ctx.words)
    (hlb : b.length = ctx.words) (h1 : ¬ wval ctx.modulus ∣ wval a)
    (h2 : ¬ wval ctx.modulus ∣ wval (if aliased then a else b)) :
    ¬ wval ctx.modulus ∣ wval (mont_mult aliased a b ctx) := by
  obtain ⟨s1, s2, s3, s4⟩ := mont_mult_spec ctx hc aliased a b ha hb hla hlb
  intro hd
  have h3 : wval ctx.modulus ∣ wval (mont_mult aliased a b ctx) * W64 ^ ctx.words :=
    Dvd.dvd.mul_right hd _
  have h4 := (Nat.ModEq.dvd_iff s3 (dvd_refl _)).mp h3
  rcases (Nat.Prime.dvd_mul hp).mp h4 with h | h
  · exact h1 h
  · exact h2 h

theorem not_dvd_of_pos_lt {n v : Nat} (h0 : 0 < v) (hlt : v < n) : ¬ n ∣ v := by
  intro h
  have := Nat.le_of_dvd h0 h
  omega

end Mont

namespace EcWs

open Mont

/-! ## The identity is neutral -/

/-- `ec_full_add` with a second operand at infinity (z2 = 0) whose x2 is a
non-zero Montgomery number gives back the first operand. -/
theorem ec_full_add_identity_right (ar : MontArith) (ctx : MontContext) (hc : MontCtxOk ctx)
    (hp : Nat.Prime (wval ctx.modulus)) (x1 y1 z1 x2 y2 z2 : List Nat)
    (hx1 : x1.length = ctx.words ∧ WordsOk x1) (hy1 : y1.length = ctx.words ∧ WordsOk y1)
    (hz1 : z1.length = ctx.words ∧ WordsOk z1 ∧ wval z1 < wval ctx.modulus)
    (hx2 : x2.length = ctx.words ∧ WordsOk x2 ∧ wval x2 < wval ctx.modulus)
    (hy2 : y2.length = ctx.words ∧ WordsOk y2)
    (hz2 : z2.length = ctx.words ∧ WordsOk z2)
    (hnz : mont_is_zero z1 ctx = false) (hx2nz : 0 < wval x2) (hz : wval z2 = 0) :
    ec_full_add ar x1 y1 z1 x2 y2 z2 ctx = (x1, y1, z1) := by
  have hz1pos : 0 < wval z1 := by
    rcases Nat.eq_zero_or_pos (wval z1) with h | h
    · have := (mont_is_zero_iff z1 ctx hz1.1).mpr h
      rw [hnz] at this; cases this
    · exact h
  have hz2zero : mont_is_zero z2 ctx = true := (mont_is_zero_iff z2 ctx hz2.1).mpr hz
  -- a = z1^2 is not zero modulo N
  obtain ⟨a1, a2, _, _⟩ := mont_mult_spec ctx hc true z1 z1 hz1.2.1 hz1.2.1 hz1.1 hz1.1
  have ha := mont_mult_not_dvd ctx hc hp true z1 z1 hz1.2.1 hz1.2.1 hz1.1 hz1.1
    (not_dvd_of_pos_lt hz1pos hz1.2.2) (not_dvd_of_pos_lt hz1pos hz1.2.2)
  -- b = z2^2 = 0, c = x1 * b = 0
  obtain ⟨b1, b2, _, _⟩ := mont_mult_spec ctx hc true z2 z2 hz2.2 hz2.2 hz2.1 hz2.1
  have hb := mont_mult_zero ctx hc true z2 z2 hz2.2 hz2.2 hz2.1 hz2.1 (by simp [hz])
  have hcz := mont_mult_zero ctx hc false x1 (mont_mult true z2 z2 ctx) hx1.2 b2 hx1.1 b1
    (by simp [hb])
  -- d = x2 * a is not zero
  have hd := mont_mult_not_dvd ctx hc hp false x2 (mont_mult true z1 z1 ctx) hx2.2.1 a2
    hx2.1 a1 (not_dvd_of_pos_lt hx2nz hx2.2.2) ha
  have hne : mont_is_equal (mont_mult false x1 (mont_mult true z2 z2 ctx) ctx)
      (mont_mult false x2 (mont_mult true z1 z1 ctx) ctx) ctx = false := by
    cases h : mont_is_equal (mont_mult false x1 (mont_mult true z2 z2 ctx) ctx)
      (mont_mult false x2 (mont_mult true z1 z1 ctx) ctx) ctx
    · rfl
    · exfalso
      unfold mont_is_equal at h
      have h' := beq_iff_eq.mp h
      obtain ⟨c1, _, _, _⟩ := mont_mult_spec ctx hc false x1 (mont_mult true z2 z2 ctx)
        hx1.2 b2 hx1.1 b1
      obtain ⟨d1, _, _, _⟩ := mont_mult_spec ctx hc false x2 (mont_mult true z1 z1 ctx)
        hx2.2.1 a2 hx2.1 a1
      rw [List.take_of_length_le (by omega), List.take_of_length_le (by omega)] at h'
      apply hd
      rw [← h', hcz]
      exact dvd_zero _
  unfold ec_full_add
  rw [if_neg (by rw [hnz]; simp)]
  simp only [hne, hz2zero, mont_select, if_true, Bool.false_eq_true, if_false]
  rw [List.take_of_length_le (by omega), List.take_of_length_le (by omega),
    List.take_of_length_le (by omega)]

end EcWs

namespace Mont

/-- A product that is a multiple of N, below N * R, gives zero. -/
theorem mont_mult_dvd (ctx : MontContext) (hc : MontCtxOk ctx) (aliased : Bool)
    (a b : List Nat) (ha : WordsOk a) (hb : WordsOk b) (hla : a.length = ctx.words)
    (hlb : b.length = ctx.words)
    (hd : wval ctx.modulus ∣ wval a * wval (if aliased then a else b))
    (hlt : wval a * wval (if aliased then a else b) < wval ctx.modulus * W64 ^ ctx.words) :
    wval (mont_mult aliased a b ctx) = 0 := by
  obtain ⟨s1, s2, s3, s4⟩ := mont_mult_spec ctx hc aliased a b ha hb hla hlb
  have hNpos : 0 < wval ctx.modulus := by have := hc.n_ge; omega
  have h0 : wval a * wval (if aliased then a else b) ≡ 0 [MOD wval ctx.modulus] :=
    (Nat.modEq_zero_iff_dvd).mpr hd
  have h1 : wval (mont_mult aliased a b ctx) * W64 ^ ctx.words
      ≡ 0 * W64 ^ ctx.words [MOD wval ctx.modulus] := by rw [zero_mul]; exact s3.trans h0
  have h2 := Nat.ModEq.cancel_right_of_coprime ((coprime_R _ ctx.words hc.n_odd).symm) h1
  exact modEq_eq_of_lt h2 (s4 hlt) hNpos

end Mont

namespace EcWs

open Mont

/-! ## A point plus its negation -/

theorem coprime_of_not_dvd {n v : Nat} (hp : Nat.Prime n) (h : ¬ n ∣ v) : Nat.gcd n v = 1 :=
  (Nat.Prime.coprime_iff_not_dvd hp).mpr h

end EcWs

namespace Mont

/-! ## The inverse of one -/

theorem inv_bits_one (ctx : MontContext) (hc : MontCtxOk ctx) (e : Nat) :
    ∀ (fuel bit : Nat), inv_bits ctx.r_mod_n ctx e fuel bit ctx.r_mod_n = ctx.r_mod_n := by
  have h1 : mont_mult_internal true ctx.r_mod_n ctx.r_mod_n ctx.modulus ctx.m0
      (scratchpad ctx.words) ctx.words = ctx.r_mod_n :=
    mont_mult_one_right ctx hc true ctx.r_mod_n hc.r_ok hc.r_len (r_mod_n_lt ctx hc).1
      (fun _ => rfl)
  have h2 : mont_mult_internal false ctx.r_mod_n ctx.r_mod_n ctx.modulus ctx.m0
      (scratchpad ctx.words) ctx.words = ctx.r_mod_n :=
    mont_mult_one_right ctx hc false ctx.r_mod_n hc.r_ok hc.r_len (r_mod_n_lt ctx hc).1
      (fun h => by cases h)
  intro fuel
  induction fuel with
  | zero => intro bit; rfl
  | succ fuel ih =>
    intro bit
    simp only [inv_bits, h1, h2, ite_self]
    split
    · rfl
    · exact ih _

theorem inv_words_one (ctx : MontContext) (hc : MontCtxOk ctx) (exponent : List Nat) :
    ∀ (idx bit : Nat),
      inv_words ctx.r_mod_n ctx exponent idx bit ctx.r_mod_n = ctx.r_mod_n := by
  intro idx
  induction idx with
  | zero => intro bit; simp only [inv_words, inv_bits_one ctx hc]
  | succ idx ih => intro bit; simp only [inv_words, inv_bits_one ctx hc, ih]

/-- `mont_inv_prime` of the Montgomery form of 1 is the Montgomery form of 1,
whatever the exponent. -/
theorem mont_inv_prime_one (ctx : MontContext) (hc : MontCtxOk ctx) :
    mont_inv_prime ctx.r_mod_n ctx = ctx.r_mod_n := by
  unfold mont_inv_prime
  simp only []
  rw [List.take_of_length_le (by rw [hc.r_len])]
  exact inv_words_one ctx hc _ _ _

/-- A successful `mont_from_bytes` on a byte string: its value is below N. -/
theorem mont_from_bytes_ok_inv (ctx : MontContext) (hc : MontCtxOk ctx) (number enc : List Nat)
    (hb : BytesOk number) (h : mont_from_bytes ctx number = .ok enc) :
    1 ≤ number.length ∧ number.length ≤ ctx.bytes ∧ be_val number < wval ctx.modulus := by
  unfold mont_from_bytes at h
  simp only [] at h
  split_ifs at h with h1 h2 h3
  have hl : number.length ≤ ctx.bytes := by omega
  refine ⟨by omega, hl, ?_⟩
  obtain ⟨w1, w2, w3⟩ := to_words_spec ctx.words (be_val number)
  have hR : be_val number < W64 ^ ctx.words := by
    have h4 : W64 ^ ctx.words = 256 ^ ctx.bytes := by
      rw [hc.bytes_eq, mul_comm, pow_mul]
      congr 1
    rw [h4]
    exact lt_of_lt_of_le (be_val_lt number hb) (Nat.pow_le_pow_right (by omega) hl)
  rw [Nat.mod_eq_of_lt hR] at w3
  have hge := ge_spec (bytes_to_words ctx.words number) ctx.modulus ctx.words
    (by unfold bytes_to_words; omega) (by rw [hc.n_len]) w2 hc.n_ok
  unfold bytes_to_words at hge h3
  have t1 : (to_words ctx.words (be_val number)).take ctx.words
      = to_words ctx.words (be_val number) := List.take_of_length_le (by omega)
  have t2 : ctx.modulus.take ctx.words = ctx.modulus :=
    List.take_of_length_le (by rw [hc.n_len])
  rw [t1, t2, w3] at hge
  by_contra hcon
  rw [if_pos (by omega)] at hge
  apply h3
  rw [hge]
  exact one_ne_zero

end Mont

namespace EcWs

open Mont

/-! ## `ec_ws_new_point` followed by `ec_ws_get_xy` -/

/-- Normalisation of a point with z = 1 (in Montgomery form) and x, y below N. -/
theorem ec_ws_normalize_z_one (ctx : MontContext) (hc : MontCtxOk ctx) (x y : List Nat)
    (hx : x.length = ctx.words ∧ WordsOk x ∧ wval x < wval ctx.modulus)
    (hy : y.length = ctx.words ∧ WordsOk y ∧ wval y < wval ctx.modulus) :
    ec_ws_normalize x y ctx.r_mod_n ctx = (x, y) := by
  have hnz : mont_is_zero ctx.r_mod_n ctx = false := by
    cases h : mont_is_zero ctx.r_mod_n ctx
    · rfl
    · have := (mont_is_zero_iff _ ctx hc.r_len).mp h
      have := (r_mod_n_lt ctx hc).2
      omega
  have h1 : mont_mult true ctx.r_mod_n ctx.r_mod_n ctx = ctx.r_mod_n :=
    mont_mult_one_right ctx hc true ctx.r_mod_n hc.r_ok hc.r_len (r_mod_n_lt ctx hc).1
      (fun _ => rfl)
  have h2 : mont_mult false ctx.r_mod_n ctx.r_mod_n ctx = ctx.r_mod_n :=
    mont_mult_one_right ctx hc false ctx.r_mod_n hc.r_ok hc.r_len (r_mod_n_lt ctx hc).1
      (fun h => by cases h)
  unfold ec_ws_normalize
  rw [if_neg (by rw [hnz]; simp)]
  simp only [mont_inv_prime_one ctx hc, h1, h2]
  rw [mont_mult_one_right ctx hc false x hx.2.1 hx.1 hx.2.2 (fun h => by cases h),
    mont_mult_one_right ctx hc false y hy.2.1 hy.1 hy.2.2 (fun h => by cases h)]

/-- C6. For an EC context and a pair (x, y) of byte strings of `len` bytes on
which `ec_ws_new_point` returns 0, `ec_ws_get_xy` on the resulting point (with
the same `len`) returns 0 and writes back the same x and y; and for the pair
(0, 0) the point is stored as (1, 1, 0) in Montgomery form.  This holds
whatever `mont_add` and `mont_sub` compute. -/
theorem C6_new_point_get_xy (ar : MontArith) (ec_ctx : EcContext)
    (hc : MontCtxOk ec_ctx.mont_ctx)
    (x y : List Nat) (len : Nat) (p : EcPoint) (hx : BytesOk x) (hy : BytesOk y)
    (hlx : x.length = len) (hly : y.length = len)
    (hnew : ec_ws_new_point ar x y len ec_ctx = .ok p) :
    ec_ws_get_xy len p = .ok (x, y) ∧
    (be_val x = 0 ∧ be_val y = 0 →
      p = ⟨ec_ctx, mont_set 1 ec_ctx.mont_ctx, mont_set 1 ec_ctx.mont_ctx,
        mont_set 0 ec_ctx.mont_ctx⟩) := by
  have hN3 := hc.n_ge
  unfold ec_ws_new_point at hnew
  simp only [] at hnew
  by_cases hl : len = ec_ctx.mont_ctx.bytes
  swap
  · rw [if_pos (by simp [hl])] at hnew; cases hnew
  rw [if_neg (by simp [hl])] at hnew
  have tx : x.take len = x := List.take_of_length_le (by omega)
  have ty : y.take len = y := List.take_of_length_le (by omega)
  rw [tx, ty] at hnew
  cases hfx : mont_from_bytes ec_ctx.mont_ctx x with
  | error e => rw [hfx] at hnew; cases hnew
  | ok px =>
    cases hfy : mont_from_bytes ec_ctx.mont_ctx y with
    | error e => rw [hfx, hfy] at hnew; cases hnew
    | ok py =>
      rw [hfx, hfy] at hnew
      simp only [] at hnew
      obtain ⟨ix1, ix2, ix3⟩ := mont_from_bytes_ok_inv _ hc x px hx hfx
      obtain ⟨iy1, iy2, iy3⟩ := mont_from_bytes_ok_inv _ hc y py hy hfy
      obtain ⟨ex, ex0, ex1, ex2, ex3, ex4⟩ := mont_from_bytes_spec _ hc x ix1 ix2 ix3
      obtain ⟨ey, ey0, ey1, ey2, ey3, ey4⟩ := mont_from_bytes_spec _ hc y iy1 iy2 iy3
      rw [hfx] at ex0; injection ex0 with ex0; subst ex0
      rw [hfy] at ey0; injection ey0 with ey0; subst ey0
      have hxb : to_be_bytes ec_ctx.mont_ctx.bytes (be_val x) = x := by
        rw [← hl, ← hlx]; exact to_be_bytes_be_val x hx
      have hyb : to_be_bytes ec_ctx.mont_ctx.bytes (be_val y) = y := by
        rw [← hl, ← hly]; exact to_be_bytes_be_val y hy
      have hzx : wval px = 0 → be_val x = 0 := by
        intro h
        rw [h] at ex4
        have h1 : 0 * W64 ^ ec_ctx.mont_ctx.words
            ≡ be_val x * W64 ^ ec_ctx.mont_ctx.words [MOD wval ec_ctx.mont_ctx.modulus] := by
          rw [zero_mul]; exact ex4
        have h2 := Nat.ModEq.cancel_right_of_coprime
          ((coprime_R _ ec_ctx.mont_ctx.words hc.n_odd).symm) h1
        exact (modEq_eq_of_lt h2 (by omega) ix3).symm
      have hzy : wval py = 0 → be_val y = 0 := by
        intro h
        rw [h] at ey4
        have h1 : 0 * W64 ^ ec_ctx.mont_ctx.words
            ≡ be_val y * W64 ^ ec_ctx.mont_ctx.words [MOD wval ec_ctx.mont_ctx.modulus] := by
          rw [zero_mul]; exact ey4
        have h2 := Nat.ModEq.cancel_right_of_coprime
          ((coprime_R _ ec_ctx.mont_ctx.words hc.n_odd).symm) h1
        exact (modEq_eq_of_lt h2 (by omega) iy3).symm
      by_cases hzero : (mont_is_zero px ec_ctx.mont_ctx && mont_is_zero py ec_ctx.mont_ctx) = true
      · rw [if_pos hzero] at hnew
        injection hnew with hnew
        subst hnew
        rw [Bool.and_eq_true] at hzero
        have vx := hzx ((mont_is_zero_iff px _ ex1).mp hzero.1)
        have vy := hzy ((mont_is_zero_iff py _ ey1).mp hzero.2)
        refine ⟨?_, fun _ => rfl⟩
        obtain ⟨q1, q2, q3⟩ := mont_set_zero_spec ec_ctx.mont_ctx
        have hb0 := mont_to_bytes_spec ec_ctx.mont_ctx hc (mont_set 0 ec_ctx.mont_ctx) q2 q1 0
          (by omega) (by rw [q3, zero_mul])
        unfold ec_ws_get_xy
        simp only [mont_bytes]
        rw [if_neg (by simp [hl])]
        simp only [ec_ws_normalize, mont_is_zero_set_zero, if_true, hb0]
        rw [← vx] at hb0
        rw [← hxb, ← hyb, vx, vy]
      · rw [if_neg hzero] at hnew
        split_ifs at hnew with hcurve
        injection hnew with hnew
        subst hnew
        constructor
        · unfold ec_ws_get_xy
          simp only [mont_bytes]
          rw [if_neg (by simp [hl]), mont_set_one _ hc,
            ec_ws_normalize_z_one _ hc px py ⟨ex1, ex2, ex3⟩ ⟨ey1, ey2, ey3⟩]
          simp only []
          rw [mont_to_bytes_spec _ hc px ex2 ex1 (be_val x) ix3 ex4,
            mont_to_bytes_spec _ hc py ey2 ey1 (be_val y) iy3 ey4, hxb, hyb]
        · intro h0
          exfalso
          apply hzero
          rw [Bool.and_eq_true]
          constructor
          · apply (mont_is_zero_iff px _ ex1).mpr
            rw [h0.1, zero_mul] at ex4
            exact modEq_eq_of_lt ex4 ex3 (by omega)
          · apply (mont_is_zero_iff py _ ey1).mpr
            rw [h0.2, zero_mul] at ey4
            exact modEq_eq_of_lt ey4 ey3 (by omega)

end EcWs

namespace EcWs

open Mont

/-! ## The concrete contexts -/

theorem p256_p5_built :
    ec_ws_new_point mod_arith p256_x5 p256_y5 32 p256_ctx = .ok p256_p5 := by
  decide!

theorem p256_mont_ok : MontCtxOk p256_ctx.mont_ctx :=
  (mont_context_build_ok p256_modulus (by decide!) (by decide!) (by decide!)).1

theorem c31_ctx_built : ec_ws_new_context [31] [28] [39] 1 = .ok c31_ctx := by decide!

theorem c31_p_built :
    ec_ws_new_point mod_arith (to_be_bytes 8 24) (to_be_bytes 8 4) 8 c31_ctx = .ok c31_p := by
  decide!

theorem c31_mont_ok : MontCtxOk c31_ctx.mont_ctx :=
  (mont_context_build_ok [31] (by decide) (by decide) (by decide)).1

theorem c31_prime : Nat.Prime (wval c31_ctx.mont_ctx.modulus) := by
  have h : wval c31_ctx.mont_ctx.modulus = 31 := by decide!
  rw [h]
  norm_num

end EcWs

namespace EcWs

open Mont

/-! ## The claims at concrete inputs -/

/-- C3, for the two-word modulus 2^64 + 13 and the number 0x010203. -/
theorem C3_encoding_round_trip_witness :
    ∃ enc, mont_from_bytes (mont_context_build [1, 0, 0, 0, 0, 0, 0, 0, 13]) [1, 2, 3]
        = .ok enc ∧
      mont_to_bytes (mont_context_build [1, 0, 0, 0, 0, 0, 0, 0, 13]) enc
        = .ok (to_be_bytes (mont_context_build [1, 0, 0, 0, 0, 0, 0, 0, 13]).bytes
            (be_val [1, 2, 3])) ∧
      (to_be_bytes (mont_context_build [1, 0, 0, 0, 0, 0, 0, 0, 13]).bytes
        (be_val [1, 2, 3])).length = (mont_context_build [1, 0, 0, 0, 0, 0, 0, 0, 13]).bytes ∧
      BytesOk (to_be_bytes (mont_context_build [1, 0, 0, 0, 0, 0, 0, 0, 13]).bytes
        (be_val [1, 2, 3])) ∧
      be_val (to_be_bytes (mont_context_build [1, 0, 0, 0, 0, 0, 0, 0, 13]).bytes
        (be_val [1, 2, 3])) = be_val [1, 2, 3] :=
  C3_encoding_round_trip [1, 0, 0, 0, 0, 0, 0, 0, 13] [1, 2, 3]
    (mont_context_build [1, 0, 0, 0, 0, 0, 0, 0, 13]) (by decide!) (by decide) (by decide)
    (by decide) (by decide) (by decide!) (by decide)

/-- C4, at its failing input.  For the prime modulus 31 and a the Montgomery
form of 2, `mont_inv_prime` returns [2], and `mont_mult` of it and a is [4],
which is not `r_mod_n` = [16], the Montgomery form of 1. -/
theorem C4_mont_inv_prime_modulus_31 :
    (mont_context_init [31] >>= fun ctx =>
      mont_from_bytes ctx [2] >>= fun a =>
      pure (a, mont_inv_prime a ctx, mont_mult false (mont_inv_prime a ctx) a ctx,
        ctx.r_mod_n)) = .ok ([1], [2], [4], [16]) := by
  decide!

/-- C6, for the point with x = 5 of NIST P-256. -/
theorem C6_new_point_get_xy_witness :
    ec_ws_get_xy 32 p256_p5 = .ok (p256_x5, p256_y5) ∧
    (be_val p256_x5 = 0 ∧ be_val p256_y5 = 0 →
      p256_p5 = ⟨p256_ctx, mont_set 1 p256_ctx.mont_ctx, mont_set 1 p256_ctx.mont_ctx,
        mont_set 0 p256_ctx.mont_ctx⟩) :=
  C6_new_point_get_xy mod_arith p256_ctx p256_mont_ok p256_x5 p256_y5 32 p256_p5 (by decide!)
    (by decide!) (by decide!) (by decide!) p256_p5_built

/-- C7, at its failing input.  Over the field of 31 elements, the point with
the canonical coordinates X = [8], Y = [23], Z = [4] (the Montgomery forms of
16, 15 and 8) has z != 0; `ec_ws_get_xy` writes x = 2 and y = 27, and 2 * 8^2 is
not 16 modulo 31.  The same happens on a point that the library computes: with
`mont_add` and `mont_sub` the addition and subtraction modulo N,
`ec_ws_scalar_multiply` leaves for P = (24, 4) and the scalar 3 the coordinates
X = [25], Y = [3], Z = [29], the Montgomery forms of 19, 6 and 27; `ec_ws_get_xy`
writes x = 28 and y = 7, and 28 * 27^2 is not 19 modulo 31. -/
theorem C7_get_xy_modulus_31 :
    PointOk c31_p3 ∧ Nat.Prime (wval c31_p3.ec_ctx.mont_ctx.modulus) ∧
    (ec_ws_get_xy 8 c31_p3 >>= fun xy =>
      mont_to_bytes c31_ctx.mont_ctx c31_p3.x >>= fun xp =>
      mont_to_bytes c31_ctx.mont_ctx c31_p3.z >>= fun zp =>
      pure [be_val xp, be_val zp, be_val xy.1, be_val xy.2]) = .ok [16, 8, 2, 27] ∧
    (2 * 8 ^ 2) % 31 ≠ 16 % 31 ∧
    (ec_ws_scalar_multiply mod_arith (fun _ _ => []) c31_p [3] 1 0 >>= fun q =>
      ec_ws_get_xy 8 q >>= fun xy =>
      mont_to_bytes q.ec_ctx.mont_ctx q.x >>= fun xp =>
      mont_to_bytes q.ec_ctx.mont_ctx q.z >>= fun zp =>
      pure [q.x, q.y, q.z, [be_val xp, be_val zp, be_val xy.1, be_val xy.2]])
      = .ok [[25], [3], [29], [19, 27, 28, 7]] ∧
    (28 * 27 ^ 2) % 31 ≠ 19 % 31 := by
  refine ⟨by decide!, c31_prime, by decide!, by decide, by decide!, by decide⟩

end EcWs

namespace EcWs

open Mont

/-! ## `ec_ws_cmp` -/

theorem mont_is_equal_comm (a b : List Nat) (ctx : MontContext) :
    mont_is_equal a b ctx = mont_is_equal b a ctx := by
  unfold mont_is_equal
  cases h : (List.take ctx.words a == List.take ctx.words b)
  · cases h2 : (List.take ctx.words b == List.take ctx.words a)
    · rfl
    · rw [beq_iff_eq] at h2
      rw [h2] at h
      simp at h
  · rw [beq_iff_eq] at h
    rw [h]
    simp

/-- C16. `ec_ws_cmp` is symmetric in its result 0: for all points a and b,
whatever their coordinates, `ec_ws_cmp(a, b)` returns 0 if and only if
`ec_ws_cmp(b, a)` returns 0 (points of different contexts get the curve error
both ways). -/
theorem C16_cmp_symmetry (a b : EcPoint) :
    ec_ws_cmp a b = .ok 0 ↔ ec_ws_cmp b a = .ok 0 := by
  obtain ⟨ca, ax, ay, az⟩ := a
  obtain ⟨cb, bx, b_y, bz⟩ := b
  by_cases hctx : ca = cb
  · subst hctx
    simp only [ec_ws_cmp, ne_eq, not_true_eq_false, if_false]
    rw [Bool.and_comm (mont_is_zero bz ca.mont_ctx),
      mont_is_equal_comm bz az, mont_is_equal_comm bx ax, mont_is_equal_comm b_y ay,
      mont_is_equal_comm
        (mont_mult false bx (mont_mult true az az ca.mont_ctx) ca.mont_ctx)
        (mont_mult false ax (mont_mult true bz bz ca.mont_ctx) ca.mont_ctx),
      mont_is_equal_comm
        (mont_mult false b_y (mont_mult false az (mont_mult true az az ca.mont_ctx)
          ca.mont_ctx) ca.mont_ctx)
        (mont_mult false ay (mont_mult false bz (mont_mult true bz bz ca.mont_ctx)
          ca.mont_ctx) ca.mont_ctx)]
  · have h2 : ¬ cb = ca := fun h => hctx h.symm
    simp only [ec_ws_cmp, ne_eq, hctx, h2, not_false_eq_true, if_true]

end EcWs

namespace Mont

/-! ## The checks of `mont_context_init` and `mont_from_bytes` -/

/-- C17. For a Montgomery context with the invariants of the data model and a
byte string of length 1..ctx->bytes with the value x, `mont_from_bytes` returns
the value error exactly when x >= N; when x < N it returns 0 with an array of
`words` words whose value is x*R mod N. -/
theorem C17_mont_from_bytes_range (ctx : MontContext) (hc : MontCtxOk ctx)
    (number : List Nat) (hb : BytesOk number) (hl1 : 0 < number.length)
    (hl2 : number.length ≤ ctx.bytes) :
    (mont_from_bytes ctx number = .error Err.ERR_VALUE ↔ wval ctx.modulus ≤ be_val number) ∧
    (be_val number < wval ctx.modulus →
      ∃ enc, mont_from_bytes ctx number = .ok enc ∧ enc.length = ctx.words ∧ WordsOk enc ∧
        wval enc = (be_val number * W64 ^ ctx.words) % wval ctx.modulus) := by
  have hNpos : 0 < wval ctx.modulus := by have := hc.n_ge; omega
  have hpos : ∀ h : be_val number < wval ctx.modulus,
      ∃ enc, mont_from_bytes ctx number = .ok enc ∧ enc.length = ctx.words ∧ WordsOk enc ∧
        wval enc = (be_val number * W64 ^ ctx.words) % wval ctx.modulus := by
    intro h
    obtain ⟨enc, e1, e2, e3, e4, e5⟩ := mont_from_bytes_spec ctx hc number hl1 hl2 h
    refine ⟨enc, e1, e2, e3, ?_⟩
    have := e5
    unfold Nat.ModEq at this
    rw [← this, Nat.mod_eq_of_lt e4]
  refine ⟨⟨?_, ?_⟩, hpos⟩
  · intro herr
    by_contra hlt
    obtain ⟨enc, e1, _⟩ := hpos (by omega)
    rw [e1] at herr
    cases herr
  · intro hge
    have hbound : be_val number < W64 ^ ctx.words := by
      have h1 := be_val_lt number hb
      have h2 : 256 ^ number.length ≤ 256 ^ ctx.bytes :=
        Nat.pow_le_pow_right (by omega) hl2
      have h3 : (256 : Nat) ^ ctx.bytes = W64 ^ ctx.words := by
        have h : W64 = 256 ^ 8 := by unfold W64; norm_num
        rw [hc.bytes_eq, h, ← pow_mul, mul_comm]
      omega
    obtain ⟨w1, w2, w3⟩ := to_words_spec ctx.words (be_val number)
    rw [Nat.mod_eq_of_lt hbound] at w3
    have hge2 := ge_spec (bytes_to_words ctx.words number) ctx.modulus ctx.words
      (by unfold bytes_to_words; omega) (by rw [hc.n_len]) w2 hc.n_ok
    unfold bytes_to_words at hge2
    have t1 : (to_words ctx.words (be_val number)).take ctx.words
        = to_words ctx.words (be_val number) := List.take_of_length_le (by omega)
    have t2 : ctx.modulus.take ctx.words = ctx.modulus :=
      List.take_of_length_le (by rw [hc.n_len])
    rw [t1, t2, w3, if_pos hge] at hge2
    unfold mont_from_bytes
    simp only [bytes_to_words]
    rw [if_neg (by omega), if_neg (by omega), if_pos (by rw [hge2]; simp)]

/-- C17, for the two-word modulus 2^64 + 13 and the number 0x010203. -/
theorem C17_mont_from_bytes_range_witness :
    (mont_from_bytes (mont_context_build [1, 0, 0, 0, 0, 0, 0, 0, 13]) [1, 2, 3]
        = .error Err.ERR_VALUE ↔
      wval (mont_context_build [1, 0, 0, 0, 0, 0, 0, 0, 13]).modulus ≤ be_val [1, 2, 3]) ∧
    (be_val [1, 2, 3] < wval (mont_context_build [1, 0, 0, 0, 0, 0, 0, 0, 13]).modulus →
      ∃ enc, mont_from_bytes (mont_context_build [1, 0, 0, 0, 0, 0, 0, 0, 13]) [1, 2, 3]
          = .ok enc ∧
        enc.length = (mont_context_build [1, 0, 0, 0, 0, 0, 0, 0, 13]).words ∧ WordsOk enc ∧
        wval enc = (be_val [1, 2, 3]
          * W64 ^ (mont_context_build [1, 0, 0, 0, 0, 0, 0, 0, 13]).words)
          % wval (mont_context_build [1, 0, 0, 0, 0, 0, 0, 0, 13]).modulus) :=
  C17_mont_from_bytes_range (mont_context_build [1, 0, 0, 0, 0, 0, 0, 0, 13])
    (mont_context_build_ok [1, 0, 0, 0, 0, 0, 0, 0, 13] (by decide) (by decide!)
      (by decide!)).1
    [1, 2, 3] (by decide) (by decide) (by decide!)

/-- C18, at its failing input.  For the three bytes 0x00 0x00 0x01, whose value
is 1, `mont_context_init` does not return the value error: it returns 0 and
builds a context with the modulus 1. -/
theorem C18_context_init_accepts_modulus_one :
    (mont_context_init [0, 0, 1] >>= fun ctx =>
      pure (ctx.words, ctx.bytes, ctx.modulus)) = .ok (1, 8, [1]) ∧
    be_val [0, 0, 1] = 1 := by
  decide!

/-- C19, at its failing input.  For the two bytes 0x01 0x01, whose value 257 is
odd and at least 3, `mont_context_init` returns the value error. -/
theorem C19_context_init_rejects_257 :
    mont_context_init [1, 1] = .error Err.ERR_VALUE ∧
    be_val [1, 1] = 257 ∧ 257 % 2 = 1 ∧ 3 ≤ 257 := by
  decide!

end Mont

namespace Mont

/-! ## Products of canonical numbers -/

/-- `mont_mult` with a canonical first operand gives a canonical number. -/
theorem mont_mult_canon (ctx : MontContext) (hc : MontCtxOk ctx) (aliased : Bool)
    (a b : List Nat) (ha : Canon a ctx) (hb : b.length = ctx.words ∧ WordsOk b) :
    Canon (mont_mult aliased a b ctx) ctx ∧
    wval (mont_mult aliased a b ctx) * W64 ^ ctx.words
      ≡ wval a * wval (if aliased then a else b) [MOD wval ctx.modulus] := by
  obtain ⟨s1, s2, s3, s4⟩ := mont_mult_spec ctx hc aliased a b ha.2.1 hb.2 ha.1 hb.1
  have hN := modulus_lt_R ctx hc
  have hB : wval (if aliased then a else b) < W64 ^ ctx.words := by
    cases aliased
    · simp only [Bool.false_eq_true, if_false]
      have := wval_lt hb.2; rwa [hb.1] at this
    · simp only [if_true]
      exact lt_trans ha.2.2 hN
  exact ⟨⟨s1, s2, s4 (Nat.mul_lt_mul'' ha.2.2 hB)⟩, s3⟩

/-- Two canonical numbers are the same array exactly when they are congruent
modulo N. -/
theorem canon_eq_iff (ctx : MontContext) (u v : List Nat)
    (hu : Canon u ctx) (hv : Canon v ctx) :
    u = v ↔ wval u ≡ wval v [MOD wval ctx.modulus] := by
  constructor
  · intro h; rw [h]
  · intro h
    exact wval_inj hu.2.1 hv.2.1 (by rw [hu.1, hv.1]) (modEq_eq_of_lt h hu.2.2 hv.2.2)

theorem scale_R_iff (ctx : MontContext) (hc : MontCtxOk ctx) (u v : Nat) :
    u * W64 ^ ctx.words ≡ v * W64 ^ ctx.words [MOD wval ctx.modulus]
      ↔ u ≡ v [MOD wval ctx.modulus] := by
  constructor
  · intro h
    exact Nat.ModEq.cancel_right_of_coprime ((coprime_R _ ctx.words hc.n_odd).symm) h
  · intro h
    exact h.mul_right _

end Mont

namespace EcWs

open Mont

/-! ## The cross-multiplication of `ec_ws_cmp` -/

/-- The product X * Z^2 of `ec_ws_cmp`, scaled by R^2. -/
theorem cmp_xzz_spec (ctx : MontContext) (hc : MontCtxOk ctx) (x z : List Nat)
    (hx : Canon x ctx) (hz : Canon z ctx) :
    Canon (mont_mult false x (mont_mult true z z ctx) ctx) ctx ∧
    wval (mont_mult false x (mont_mult true z z ctx) ctx) * W64 ^ ctx.words * W64 ^ ctx.words
      ≡ wval x * (wval z * wval z) [MOD wval ctx.modulus] := by
  obtain ⟨a1, a2⟩ := mont_mult_canon ctx hc true z z hz ⟨hz.1, hz.2.1⟩
  obtain ⟨b1, b2⟩ := mont_mult_canon ctx hc false x (mont_mult true z z ctx) hx ⟨a1.1, a1.2.1⟩
  simp only [Bool.false_eq_true, if_false, if_true] at a2 b2
  refine ⟨b1, ?_⟩
  have h1 := b2.mul_right (W64 ^ ctx.words)
  have h2 := a2.mul_left (wval x)
  have e : wval x * wval (mont_mult true z z ctx) * W64 ^ ctx.words
      = wval x * (wval (mont_mult true z z ctx) * W64 ^ ctx.words) := by ring
  rw [e] at h1
  exact h1.trans h2

/-- The product Y * Z^3 of `ec_ws_cmp`, scaled by R^3. -/
theorem cmp_yzzz_spec (ctx : MontContext) (hc : MontCtxOk ctx) (y z : List Nat)
    (hy : Canon y ctx) (hz : Canon z ctx) :
    Canon (mont_mult false y (mont_mult false z (mont_mult true z z ctx) ctx) ctx) ctx ∧
    wval (mont_mult false y (mont_mult false z (mont_mult true z z ctx) ctx) ctx)
        * W64 ^ ctx.words * W64 ^ ctx.words * W64 ^ ctx.words
      ≡ wval y * (wval z * (wval z * wval z)) [MOD wval ctx.modulus] := by
  obtain ⟨a1, a2⟩ := mont_mult_canon ctx hc true z z hz ⟨hz.1, hz.2.1⟩
  obtain ⟨b1, b2⟩ := mont_mult_canon ctx hc false z (mont_mult true z z ctx) hz ⟨a1.1, a1.2.1⟩
  obtain ⟨c1, c2⟩ := mont_mult_canon ctx hc false y
    (mont_mult false z (mont_mult true z z ctx) ctx) hy ⟨b1.1, b1.2.1⟩
  simp only [Bool.false_eq_true, if_false, if_true] at a2 b2 c2
  refine ⟨c1, ?_⟩
  have h1 := (c2.mul_right (W64 ^ ctx.words)).mul_right (W64 ^ ctx.words)
  have h2 := (b2.mul_right (W64 ^ ctx.words))
  have h3 := a2.mul_left (wval z)
  have e2 : wval z * wval (mont_mult true z z ctx) * W64 ^ ctx.words
      = wval z * (wval (mont_mult true z z ctx) * W64 ^ ctx.words) := by ring
  rw [e2] at h2
  have h4 := (h2.trans h3).mul_left (wval y)
  have e1 : wval y * wval (mont_mult false z (mont_mult true z z ctx) ctx) * W64 ^ ctx.words
        * W64 ^ ctx.words
      = wval y * (wval (mont_mult false z (mont_mult true z z ctx) ctx) * W64 ^ ctx.words
        * W64 ^ ctx.words) := by ring
  rw [e1] at h1
  exact h1.trans h4

/-- A canonical number that is not zero is invertible modulo the prime N. -/
theorem canon_coprime (ctx : MontContext) (hp : Nat.Prime (wval ctx.modulus)) (z : List Nat)
    (hz : Canon z ctx) (hnz : wval z ≠ 0) : Nat.gcd (wval ctx.modulus) (wval z) = 1 :=
  coprime_of_not_dvd hp (not_dvd_of_pos_lt (Nat.pos_of_ne_zero hnz) hz.2.2)

/-- A canonical number whose product with an invertible one is 0 modulo N is 0. -/
theorem canon_zero_of_mul (ctx : MontContext) (hp : Nat.Prime (wval ctx.modulus))
    (x : List Nat) (k : Nat) (hx : Canon x ctx) (hk : Nat.gcd (wval ctx.modulus) k = 1)
    (h : wval x * k ≡ 0 [MOD wval ctx.modulus]) : wval x = 0 := by
  have h1 : wval x * k ≡ 0 * k [MOD wval ctx.modulus] := by rw [zero_mul]; exact h
  have h2 := Nat.ModEq.cancel_right_of_coprime hk h1
  exact modEq_eq_of_lt h2 hx.2.2 (Nat.Prime.pos hp)

end EcWs

namespace EcWs

open Mont

/-- What `ec_ws_cmp` decides, on the stored coordinates: both points have z = 0,
or both have z != 0 and X1*Z2^2 = X2*Z1^2 and Y1*Z2^3 = Y2*Z1^3 modulo N.  The
two congruences are homogeneous, so they hold for the stored Montgomery numbers
exactly when they hold for the numbers they stand for. -/
theorem ec_ws_cmp_zero_iff (p q : EcPoint) (hctx : p.ec_ctx = q.ec_ctx)
    (hc : MontCtxOk p.ec_ctx.mont_ctx) (hp : Nat.Prime (wval p.ec_ctx.mont_ctx.modulus))
    (hvp : PointOk p) (hvq : PointOk q)
    (hp0 : ¬ (wval p.x = 0 ∧ wval p.y = 0 ∧ wval p.z = 0))
    (hq0 : ¬ (wval q.x = 0 ∧ wval q.y = 0 ∧ wval q.z = 0)) :
    ec_ws_cmp p q = .ok 0 ↔
      (wval p.z = 0 ∧ wval q.z = 0) ∨
      (wval p.z ≠ 0 ∧ wval q.z ≠ 0 ∧
        wval p.x * wval q.z ^ 2 ≡ wval q.x * wval p.z ^ 2 [MOD wval p.ec_ctx.mont_ctx.modulus] ∧
        wval p.y * wval q.z ^ 3 ≡ wval q.y * wval p.z ^ 3
          [MOD wval p.ec_ctx.mont_ctx.modulus]) := by
  obtain ⟨px, py, pz⟩ := hvp
  obtain ⟨qx, qy, qz⟩ := hvq
  rw [← hctx] at qx qy qz
  generalize hg : p.ec_ctx.mont_ctx = ctx at *
  have hpx : Canon p.x ctx := px
  have hpy : Canon p.y ctx := py
  have hpz : Canon p.z ctx := pz
  have hqx : Canon q.x ctx := qx
  have hqy : Canon q.y ctx := qy
  have hqz : Canon q.z ctx := qz
  have hzp := mont_is_zero_iff p.z ctx pz.1
  have hzq := mont_is_zero_iff q.z ctx qz.1
  obtain ⟨b1, b2⟩ := cmp_xzz_spec ctx hc p.x q.z hpx hqz
  obtain ⟨d1, d2⟩ := cmp_xzz_spec ctx hc q.x p.z hqx hpz
  obtain ⟨e1, e2⟩ := cmp_yzzz_spec ctx hc p.y q.z hpy hqz
  obtain ⟨f1, f2⟩ := cmp_yzzz_spec ctx hc q.y p.z hqy hpz
  -- the two tests of the cross-multiplication, as congruences
  have hX : mont_mult false p.x (mont_mult true q.z q.z ctx) ctx
        = mont_mult false q.x (mont_mult true p.z p.z ctx) ctx ↔
      wval p.x * wval q.z ^ 2 ≡ wval q.x * wval p.z ^ 2 [MOD wval ctx.modulus] := by
    rw [canon_eq_iff ctx _ _ b1 d1, ← scale_R_iff ctx hc, ← scale_R_iff ctx hc, pow_two, pow_two]
    constructor
    · intro h; exact (b2.symm.trans h).trans d2
    · intro h; exact (b2.trans h).trans d2.symm
  have hY : mont_mult false p.y (mont_mult false q.z (mont_mult true q.z q.z ctx) ctx) ctx
        = mont_mult false q.y (mont_mult false p.z (mont_mult true p.z p.z ctx) ctx) ctx ↔
      wval p.y * wval q.z ^ 3 ≡ wval q.y * wval p.z ^ 3 [MOD wval ctx.modulus] := by
    have e3 : ∀ v : Nat, v ^ 3 = v * (v * v) := fun v => by ring
    rw [canon_eq_iff ctx _ _ e1 f1, ← scale_R_iff ctx hc, ← scale_R_iff ctx hc,
      ← scale_R_iff ctx hc, e3, e3]
    constructor
    · intro h; exact (e2.symm.trans h).trans f2
    · intro h; exact (e2.trans h).trans f2.symm
  unfold ec_ws_cmp
  rw [if_neg (by simp [hctx])]
  simp only [hg]
  by_cases hz1 : wval p.z = 0
  · by_cases hz2 : wval q.z = 0
    · -- both at infinity
      rw [if_pos (by rw [hzp.mpr hz1, hzq.mpr hz2]; rfl)]
      simp [hz1, hz2]
    · -- only the first at infinity
      have hne : mont_is_equal p.z q.z ctx = false := by
        cases h : mont_is_equal p.z q.z ctx
        · rfl
        · exfalso
          have := (mont_is_equal_iff _ _ ctx pz.1 qz.1).mp h
          rw [← this] at hz2
          exact hz2 hz1
      have hzq' : mont_is_zero q.z ctx = false := by
        cases h : mont_is_zero q.z ctx
        · rfl
        · exact absurd (hzq.mp h) hz2
      rw [if_neg (by rw [hzq']; simp), if_neg (by rw [hne]; simp)]
      have hk := canon_coprime ctx hp q.z hqz hz2
      have hfalse : ¬ (wval p.x * wval q.z ^ 2 ≡ wval q.x * wval p.z ^ 2 [MOD wval ctx.modulus] ∧
          wval p.y * wval q.z ^ 3 ≡ wval q.y * wval p.z ^ 3 [MOD wval ctx.modulus]) := by
        rintro ⟨c1, c2⟩
        rw [hz1] at c1 c2
        simp only [ne_eq, OfNat.ofNat_ne_zero, not_false_eq_true, zero_pow, mul_zero] at c1 c2
        have hx0 := canon_zero_of_mul ctx hp p.x _ hpx
          (Nat.Coprime.pow_right 2 hk) c1
        have hy0 := canon_zero_of_mul ctx hp p.y _ hpy
          (Nat.Coprime.pow_right 3 hk) c2
        exact hp0 ⟨hx0, hy0, hz1⟩
      constructor
      · intro h
        exfalso
        apply hfalse
        by_cases hbd : mont_is_equal
            (mont_mult false p.x (mont_mult true q.z q.z ctx) ctx)
            (mont_mult false q.x (mont_mult true p.z p.z ctx) ctx) ctx = true
        · rw [if_neg (by rw [hbd]; simp)] at h
          by_cases hef : mont_is_equal
              (mont_mult false p.y (mont_mult false q.z (mont_mult true q.z q.z ctx) ctx) ctx)
              (mont_mult false q.y (mont_mult false p.z (mont_mult true p.z p.z ctx) ctx) ctx)
              ctx = true
          · exact ⟨hX.mp ((mont_is_equal_iff _ _ ctx b1.1 d1.1).mp hbd),
              hY.mp ((mont_is_equal_iff _ _ ctx e1.1 f1.1).mp hef)⟩
          · rw [if_pos (by simpa using hef)] at h
            cases h
        · rw [if_pos (by simpa using hbd)] at h
          cases h
      · rintro (⟨_, h⟩ | ⟨h, _⟩)
        · exact absurd h hz2
        · exact absurd hz1 h
  · have hzp' : mont_is_zero p.z ctx = false := by
      cases h : mont_is_zero p.z ctx
      · rfl
      · exact absurd (hzp.mp h) hz1
    rw [if_neg (by rw [hzp']; simp)]
    by_cases heq : mont_is_equal p.z q.z ctx = true
    · -- the same z
      rw [if_pos heq]
      have hzz := (mont_is_equal_iff _ _ ctx pz.1 qz.1).mp heq
      have hz2 : wval q.z ≠ 0 := by rw [← hzz]; exact hz1
      have hk := canon_coprime ctx hp p.z hpz hz1
      have hxi : mont_is_equal p.x q.x ctx = true ↔
          wval p.x * wval q.z ^ 2 ≡ wval q.x * wval p.z ^ 2 [MOD wval ctx.modulus] := by
        rw [mont_is_equal_iff _ _ ctx px.1 qx.1, canon_eq_iff ctx _ _ hpx hqx, ← hzz]
        constructor
        · intro h; exact h.mul_right _
        · intro h
          exact Nat.ModEq.cancel_right_of_coprime (Nat.Coprime.pow_right 2 hk) h
      have hyi : mont_is_equal p.y q.y ctx = true ↔
          wval p.y * wval q.z ^ 3 ≡ wval q.y * wval p.z ^ 3 [MOD wval ctx.modulus] := by
        rw [mont_is_equal_iff _ _ ctx py.1 qy.1, canon_eq_iff ctx _ _ hpy hqy, ← hzz]
        constructor
        · intro h; exact h.mul_right _
        · intro h
          exact Nat.ModEq.cancel_right_of_coprime (Nat.Coprime.pow_right 3 hk) h
      constructor
      · intro h
        right
        refine ⟨hz1, hz2, ?_, ?_⟩
        · apply hxi.mp
          cases hx : mont_is_equal p.x q.x ctx
          · rw [hx] at h; simp at h
          · rfl
        · apply hyi.mp
          cases hy : mont_is_equal p.y q.y ctx
          · rw [hy] at h; simp at h
          · rfl
      · rintro (⟨h, _⟩ | ⟨_, _, c1, c2⟩)
        · exact absurd h hz1
        · rw [hxi.mpr c1, hyi.mpr c2]
          rfl
    · -- different z: the cross-multiplication
      rw [if_neg heq]
      by_cases hz2 : wval q.z = 0
      · -- only the second at infinity
        have hk := canon_coprime ctx hp p.z hpz hz1
        have hfalse : ¬ (wval p.x * wval q.z ^ 2 ≡ wval q.x * wval p.z ^ 2
              [MOD wval ctx.modulus] ∧
            wval p.y * wval q.z ^ 3 ≡ wval q.y * wval p.z ^ 3 [MOD wval ctx.modulus]) := by
          rintro ⟨c1, c2⟩
          rw [hz2] at c1 c2
          simp only [ne_eq, OfNat.ofNat_ne_zero, not_false_eq_true, zero_pow, mul_zero] at c1 c2
          have hx0 := canon_zero_of_mul ctx hp q.x _ hqx
            (Nat.Coprime.pow_right 2 hk) c1.symm
          have hy0 := canon_zero_of_mul ctx hp q.y _ hqy
            (Nat.Coprime.pow_right 3 hk) c2.symm
          exact hq0 ⟨hx0, hy0, hz2⟩
        constructor
        · intro h
          exfalso
          apply hfalse
          by_cases hbd : mont_is_equal
              (mont_mult false p.x (mont_mult true q.z q.z ctx) ctx)
              (mont_mult false q.x (mont_mult true p.z p.z ctx) ctx) ctx = true
          · rw [if_neg (by rw [hbd]; simp)] at h
            by_cases hef : mont_is_equal
                (mont_mult false p.y (mont_mult false q.z (mont_mult true q.z q.z ctx) ctx) ctx)
                (mont_mult false q.y (mont_mult false p.z (mont_mult true p.z p.z ctx) ctx) ctx)
                ctx = true
            · exact ⟨hX.mp ((mont_is_equal_iff _ _ ctx b1.1 d1.1).mp hbd),
                hY.mp ((mont_is_equal_iff _ _ ctx e1.1 f1.1).mp hef)⟩
            · rw [if_pos (by simpa using hef)] at h
              cases h
          · rw [if_pos (by simpa using hbd)] at h
            cases h
        · rintro (⟨h, _⟩ | ⟨_, h, _⟩)
          · exact absurd h hz1
          · exact absurd hz2 h
      · constructor
        · intro h
          right
          by_cases hbd : mont_is_equal
              (mont_mult false p.x (mont_mult true q.z q.z ctx) ctx)
              (mont_mult false q.x (mont_mult true p.z p.z ctx) ctx) ctx = true
          · rw [if_neg (by rw [hbd]; simp)] at h
            by_cases hef : mont_is_equal
                (mont_mult false p.y (mont_mult false q.z (mont_mult true q.z q.z ctx) ctx) ctx)
                (mont_mult false q.y (mont_mult false p.z (mont_mult true p.z p.z ctx) ctx) ctx)
                ctx = true
            · exact ⟨hz1, hz2, hX.mp ((mont_is_equal_iff _ _ ctx b1.1 d1.1).mp hbd),
                hY.mp ((mont_is_equal_iff _ _ ctx e1.1 f1.1).mp hef)⟩
            · rw [if_pos (by simpa using hef)] at h
              cases h
          · rw [if_pos (by simpa using hbd)] at h
            cases h
        · rintro (⟨h, _⟩ | ⟨_, _, c1, c2⟩)
          · exact absurd h hz1
          · have hbd := (mont_is_equal_iff _ _ ctx b1.1 d1.1).mpr (hX.mpr c1)
            have hef := (mont_is_equal_iff _ _ ctx e1.1 f1.1).mpr (hY.mpr c2)
            rw [if_neg (by rw [hbd]; simp), if_neg (by rw [hef]; simp)]

end EcWs

namespace EcWs

open Mont

/-- The values that `ec_ws_cmp` returns for two points of the same context:
0 when both z are zero; with the same z array, 1 if the x or the y arrays differ
and 0 if not; with different z arrays, 0, -1 or -2. -/
theorem ec_ws_cmp_values (p q : EcPoint) (hctx : p.ec_ctx = q.ec_ctx) :
    ((mont_is_zero p.z p.ec_ctx.mont_ctx && mont_is_zero q.z p.ec_ctx.mont_ctx) = true →
      ec_ws_cmp p q = .ok 0) ∧
    ((mont_is_zero p.z p.ec_ctx.mont_ctx && mont_is_zero q.z p.ec_ctx.mont_ctx) = false →
      mont_is_equal p.z q.z p.ec_ctx.mont_ctx = true →
      ec_ws_cmp p q = .ok (if mont_is_equal p.x q.x p.ec_ctx.mont_ctx = true ∧
        mont_is_equal p.y q.y p.ec_ctx.mont_ctx = true then 0 else 1)) ∧
    ((mont_is_zero p.z p.ec_ctx.mont_ctx && mont_is_zero q.z p.ec_ctx.mont_ctx) = false →
      mont_is_equal p.z q.z p.ec_ctx.mont_ctx = false →
      ec_ws_cmp p q = .ok 0 ∨ ec_ws_cmp p q = .ok (-1) ∨ ec_ws_cmp p q = .ok (-2)) := by
  unfold ec_ws_cmp
  rw [if_neg (by simp [hctx])]
  refine ⟨?_, ?_, ?_⟩
  · intro h
    simp only [h, if_true]
  · intro h1 h2
    simp only [h1, h2, Bool.false_eq_true, if_false, if_true]
    cases mont_is_equal p.x q.x p.ec_ctx.mont_ctx <;>
      cases mont_is_equal p.y q.y p.ec_ctx.mont_ctx <;> rfl
  · intro h1 h2
    simp only [h1, h2, Bool.false_eq_true, if_false]
    split_ifs
    all_goals first
      | exact Or.inl rfl
      | exact Or.inr (Or.inl rfl)
      | exact Or.inr (Or.inr rfl)

/-- C14, as amended.  For two points with canonical coordinates of the same
prime-modulus context, neither of which is the triple (0, 0, 0), `ec_ws_cmp`
returns an integer, which is 0 if and only if either both points have z = 0, or
both have z != 0 and X1*Z2^2 = X2*Z1^2 and Y1*Z2^3 = Y2*Z1^3 modulo N; in every
other case (identity versus a non-identity point among them) it is not 0. -/
theorem C14_cmp_cross_multiplication (p q : EcPoint) (hctx : p.ec_ctx = q.ec_ctx)
    (hc : MontCtxOk p.ec_ctx.mont_ctx) (hp : Nat.Prime (wval p.ec_ctx.mont_ctx.modulus))
    (hvp : PointOk p) (hvq : PointOk q)
    (hp0 : ¬ (wval p.x = 0 ∧ wval p.y = 0 ∧ wval p.z = 0))
    (hq0 : ¬ (wval q.x = 0 ∧ wval q.y = 0 ∧ wval q.z = 0)) :
    ∃ r : Int, ec_ws_cmp p q = .ok r ∧
      (r = 0 ↔
        (wval p.z = 0 ∧ wval q.z = 0) ∨
        (wval p.z ≠ 0 ∧ wval q.z ≠ 0 ∧
          wval p.x * wval q.z ^ 2 ≡ wval q.x * wval p.z ^ 2
            [MOD wval p.ec_ctx.mont_ctx.modulus] ∧
          wval p.y * wval q.z ^ 3 ≡ wval q.y * wval p.z ^ 3
            [MOD wval p.ec_ctx.mont_ctx.modulus])) := by
  have hiff := ec_ws_cmp_zero_iff p q hctx hc hp hvp hvq hp0 hq0
  obtain ⟨v1, v2, v3⟩ := ec_ws_cmp_values p q hctx
  have hex : ∃ r : Int, ec_ws_cmp p q = .ok r := by
    cases hb : (mont_is_zero p.z p.ec_ctx.mont_ctx && mont_is_zero q.z p.ec_ctx.mont_ctx)
    · cases he : mont_is_equal p.z q.z p.ec_ctx.mont_ctx
      · rcases v3 hb he with h | h | h
        · exact ⟨_, h⟩
        · exact ⟨_, h⟩
        · exact ⟨_, h⟩
      · exact ⟨_, v2 hb he⟩
    · exact ⟨_, v1 hb⟩
  obtain ⟨r, hr⟩ := hex
  refine ⟨r, hr, ?_⟩
  rw [← hiff, hr]
  constructor
  · intro h; rw [h]
  · intro h; injection h

/-- C15, as amended.  For two points with canonical coordinates of the same
prime-modulus context, neither of which is the triple (0, 0, 0), `ec_ws_cmp`
returns 0 when the points are equal and a non-zero value when they are not: the
positive value 1 when the two z arrays are the same, and one of the negative
values -1 and -2 when the two z arrays differ. -/
theorem C15_cmp_return_values (p q : EcPoint) (hctx : p.ec_ctx = q.ec_ctx)
    (hc : MontCtxOk p.ec_ctx.mont_ctx) (hp : Nat.Prime (wval p.ec_ctx.mont_ctx.modulus))
    (hvp : PointOk p) (hvq : PointOk q)
    (hp0 : ¬ (wval p.x = 0 ∧ wval p.y = 0 ∧ wval p.z = 0))
    (hq0 : ¬ (wval q.x = 0 ∧ wval q.y = 0 ∧ wval q.z = 0)) :
    ((wval p.z = 0 ∧ wval q.z = 0) ∨
      (wval p.z ≠ 0 ∧ wval q.z ≠ 0 ∧
        wval p.x * wval q.z ^ 2 ≡ wval q.x * wval p.z ^ 2
          [MOD wval p.ec_ctx.mont_ctx.modulus] ∧
        wval p.y * wval q.z ^ 3 ≡ wval q.y * wval p.z ^ 3
          [MOD wval p.ec_ctx.mont_ctx.modulus]) →
      ec_ws_cmp p q = .ok 0) ∧
    (¬ ((wval p.z = 0 ∧ wval q.z = 0) ∨
      (wval p.z ≠ 0 ∧ wval q.z ≠ 0 ∧
        wval p.x * wval q.z ^ 2 ≡ wval q.x * wval p.z ^ 2
          [MOD wval p.ec_ctx.mont_ctx.modulus] ∧
        wval p.y * wval q.z ^ 3 ≡ wval q.y * wval p.z ^ 3
          [MOD wval p.ec_ctx.mont_ctx.modulus])) →
      (p.z = q.z → ec_ws_cmp p q = .ok 1) ∧
      (p.z ≠ q.z → ec_ws_cmp p q = .ok (-1) ∨ ec_ws_cmp p q = .ok (-2))) := by
  have hiff := ec_ws_cmp_zero_iff p q hctx hc hp hvp hvq hp0 hq0
  obtain ⟨v1, v2, v3⟩ := ec_ws_cmp_values p q hctx
  have hzp := mont_is_zero_iff p.z p.ec_ctx.mont_ctx hvp.2.2.1
  have hzq := mont_is_zero_iff q.z p.ec_ctx.mont_ctx (by rw [hctx]; exact hvq.2.2.1)
  have hze := mont_is_equal_iff p.z q.z p.ec_ctx.mont_ctx hvp.2.2.1
    (by rw [hctx]; exact hvq.2.2.1)
  refine ⟨hiff.mpr, ?_⟩
  intro hne
  have hn0 : ec_ws_cmp p q ≠ .ok 0 := fun h => hne (hiff.mp h)
  have hb : (mont_is_zero p.z p.ec_ctx.mont_ctx && mont_is_zero q.z p.ec_ctx.mont_ctx)
      = false := by
    cases hb : (mont_is_zero p.z p.ec_ctx.mont_ctx && mont_is_zero q.z p.ec_ctx.mont_ctx)
    · rfl
    · exact absurd (v1 hb) hn0
  constructor
  · intro hz
    have h := v2 hb (hze.mpr hz)
    by_cases hxy : mont_is_equal p.x q.x p.ec_ctx.mont_ctx = true ∧
        mont_is_equal p.y q.y p.ec_ctx.mont_ctx = true
    · rw [if_pos hxy] at h
      exact absurd h hn0
    · rw [if_neg hxy] at h
      exact h
  · intro hz
    have he : mont_is_equal p.z q.z p.ec_ctx.mont_ctx = false := by
      cases he : mont_is_equal p.z q.z p.ec_ctx.mont_ctx
      · rfl
      · exact absurd (hze.mp he) hz
    rcases v3 hb he with h | h | h
    · exact absurd h hn0
    · exact Or.inl h
    · exact Or.inr h

end EcWs

namespace EcWs

open Mont

/-! ## Concrete contexts and points: the field of 7 elements, NIST P-256 -/

theorem c7b_ctx_built : ec_ws_new_context [7] [6] [11] 1 = .ok c7b_ctx := by decide!

theorem c7b_p_built :
    ec_ws_new_point mod_arith (to_be_bytes 8 1) (to_be_bytes 8 2) 8 c7b_ctx = .ok c7b_p := by
  decide!

/-- The point 2G of NIST P-256, by the affine tangent formula with the slope
lam: lam * 2 * Gy = 3 * Gx^2 - 3, x = lam^2 - 2 * Gx and y = lam * (Gx - x) - Gy
modulo p.  Its coordinates start with 0x7CF27B18 and 0x07775510; they end with
0x47669978 and 0x227873D1. -/
theorem p256_two_G :
    (0xA249BCB3191802D3CB56FC75A8731F848E7B2CAF080F3477A4E4D904A671AF9D
        * (2 * be_val p256_Gy)) % be_val p256_modulus
      = (3 * be_val p256_Gx ^ 2 + (be_val p256_modulus - 3)) % be_val p256_modulus ∧
    0x7CF27B188D034F7E8A52380304B51AC3C08969E277F21B35A60B48FC47669978
      = (0xA249BCB3191802D3CB56FC75A8731F848E7B2CAF080F3477A4E4D904A671AF9D ^ 2
          + 2 * (be_val p256_modulus - be_val p256_Gx)) % be_val p256_modulus ∧
    0x07775510DB8ED040293D9AC69F7430DBBA7DADE63CE982299E04B79D227873D1
      = (0xA249BCB3191802D3CB56FC75A8731F848E7B2CAF080F3477A4E4D904A671AF9D
          * (be_val p256_Gx + (be_val p256_modulus
            - 0x7CF27B188D034F7E8A52380304B51AC3C08969E277F21B35A60B48FC47669978))
          + (be_val p256_modulus - be_val p256_Gy)) % be_val p256_modulus := by
  decide!

/-! ## `ec_ws_cmp` at concrete inputs -/

/-- C14 as stated fails for the triple (0, 0, 0): over the field of 31 elements
`ec_ws_cmp` returns 0 for (0, 0, 0), which has z = 0, and the point (24, 4),
which has z != 0. -/
theorem C14_cmp_zero_triple_counterexample :
    ec_ws_cmp c31_zero c31_p = .ok 0 ∧ PointOk c31_zero ∧ PointOk c31_p ∧
    ¬ ((wval c31_zero.z = 0 ∧ wval c31_p.z = 0) ∨
      (wval c31_zero.z ≠ 0 ∧ wval c31_p.z ≠ 0 ∧
        wval c31_zero.x * wval c31_p.z ^ 2 ≡ wval c31_p.x * wval c31_zero.z ^ 2
          [MOD wval c31_zero.ec_ctx.mont_ctx.modulus] ∧
        wval c31_zero.y * wval c31_p.z ^ 3 ≡ wval c31_p.y * wval c31_zero.z ^ 3
          [MOD wval c31_zero.ec_ctx.mont_ctx.modulus])) := by
  decide!

/-- C14 as amended, for two Jacobian representations of the point (24, 4) over
the field of 31 elements. -/
theorem C14_cmp_cross_multiplication_witness :
    ∃ r : Int, ec_ws_cmp c31_p c31_p2 = .ok r ∧
      (r = 0 ↔
        (wval c31_p.z = 0 ∧ wval c31_p2.z = 0) ∨
        (wval c31_p.z ≠ 0 ∧ wval c31_p2.z ≠ 0 ∧
          wval c31_p.x * wval c31_p2.z ^ 2 ≡ wval c31_p2.x * wval c31_p.z ^ 2
            [MOD wval c31_p.ec_ctx.mont_ctx.modulus] ∧
          wval c31_p.y * wval c31_p2.z ^ 3 ≡ wval c31_p2.y * wval c31_p.z ^ 3
            [MOD wval c31_p.ec_ctx.mont_ctx.modulus])) :=
  C14_cmp_cross_multiplication c31_p c31_p2 rfl c31_mont_ok c31_prime (by decide!)
    (by decide!) (by decide!) (by decide!)

/-- C15 as stated fails: over the field of 31 elements, `ec_ws_cmp` returns the
positive value 1 for the two different points (24, 4) and (24, 27), stored as
([12], [2], [16]) and ([12], [29], [16]); `ec_ws_new_point` builds them so when
`mont_add` and `mont_sub` are the addition and subtraction modulo N. -/
theorem C15_cmp_positive_counterexample :
    ec_ws_cmp c31_p { c31_p with y := [29] } = .ok 1 ∧ (0 : Int) < 1 ∧
    PointOk c31_p ∧ PointOk { c31_p with y := [29] } ∧
    (ec_ws_new_context [31] [28] [39] 1 >>= fun ctx =>
      ec_ws_new_point mod_arith (to_be_bytes 8 24) (to_be_bytes 8 4) 8 ctx >>= fun p =>
      ec_ws_new_point mod_arith (to_be_bytes 8 24) (to_be_bytes 8 27) 8 ctx >>= fun q =>
      pure (p == c31_p && q == { c31_p with y := [29] }, ec_ws_cmp p q))
      = .ok (true, .ok 1) := by
  decide!

/-- C15 as amended, for the point (24, 4) and another point with z != 1 over the
field of 31 elements. -/
theorem C15_cmp_return_values_witness :
    ((wval c31_p.z = 0 ∧ wval c31_p3.z = 0) ∨
      (wval c31_p.z ≠ 0 ∧ wval c31_p3.z ≠ 0 ∧
        wval c31_p.x * wval c31_p3.z ^ 2 ≡ wval c31_p3.x * wval c31_p.z ^ 2
          [MOD wval c31_p.ec_ctx.mont_ctx.modulus] ∧
        wval c31_p.y * wval c31_p3.z ^ 3 ≡ wval c31_p3.y * wval c31_p.z ^ 3
          [MOD wval c31_p.ec_ctx.mont_ctx.modulus]) →
      ec_ws_cmp c31_p c31_p3 = .ok 0) ∧
    (¬ ((wval c31_p.z = 0 ∧ wval c31_p3.z = 0) ∨
      (wval c31_p.z ≠ 0 ∧ wval c31_p3.z ≠ 0 ∧
        wval c31_p.x * wval c31_p3.z ^ 2 ≡ wval c31_p3.x * wval c31_p.z ^ 2
          [MOD wval c31_p.ec_ctx.mont_ctx.modulus] ∧
        wval c31_p.y * wval c31_p3.z ^ 3 ≡ wval c31_p3.y * wval c31_p.z ^ 3
          [MOD wval c31_p.ec_ctx.mont_ctx.modulus])) →
      (c31_p.z = c31_p3.z → ec_ws_cmp c31_p c31_p3 = .ok 1) ∧
      (c31_p.z ≠ c31_p3.z →
        ec_ws_cmp c31_p c31_p3 = .ok (-1) ∨ ec_ws_cmp c31_p c31_p3 = .ok (-2))) :=
  C15_cmp_return_values c31_p c31_p3 rfl c31_mont_ok c31_prime (by decide!) (by decide!)
    (by decide!) (by decide!)

end EcWs

namespace Mont

/-! ## Non-canonical operands, non-reducing addition and subtraction -/

/-- An odd N has an inverse of R = 2^(64 nw) modulo N. -/
theorem exists_R_inverse (N nw : Nat) (hodd : N % 2 = 1) :
    ∃ rinv, rinv * W64 ^ nw ≡ 1 [MOD N] := by
  rcases Nat.lt_or_ge 1 N with h | h
  · obtain ⟨m, hm⟩ := Nat.exists_mul_emod_eq_one_of_coprime (coprime_R N nw hodd) h
    refine ⟨m, ?_⟩
    unfold Nat.ModEq
    rw [Nat.mul_comm, hm, Nat.mod_eq_of_lt h]
  · have h1 : N = 1 := by omega
    subst h1
    exact ⟨0, Nat.modEq_one⟩

/-- C27. Montgomery reduction tolerates non-canonical operands: for nw >= 1, an
odd modulus N of nw words, m0 with m0 * N[0] = -1 modulo 2^64 and any operands
a, b of nw words (values below R = 2^(64 nw), not necessarily below N), the
scratchpad after the reduction loop of `mont_mult_internal` has T[2 nw] equal to
0 or 1, and the output is congruent to a * b * R^-1 modulo N: out * R = a * b
modulo N, and out = a * b * rinv modulo N for every inverse rinv of R modulo N
(one exists). -/
theorem C27_reduction_tolerates_noncanonical (aliased : Bool) (a b n : List Nat) (m0 : Nat)
    (t : List Nat) (nw : Nat) (hnw : 1 ≤ nw) (ha : WordsOk a) (hb : WordsOk b)
    (hn : WordsOk n) (ht : WordsOk t) (hla : a.length = nw) (hlb : b.length = nw)
    (hln : n.length = nw) (hlt : t.length = 3 * nw + 1) (hodd : wval n % 2 = 1)
    (hm : (m0 * n.getD 0 0) % W64 = W64 - 1) (hal : aliased = true → b = a) :
    ((mont_mult_reduce aliased a b n m0 t nw).getD (2 * nw) 0 = 0 ∨
      (mont_mult_reduce aliased a b n m0 t nw).getD (2 * nw) 0 = 1) ∧
    (mont_mult_internal aliased a b n m0 t nw).length = nw ∧
    WordsOk (mont_mult_internal aliased a b n m0 t nw) ∧
    wval (mont_mult_internal aliased a b n m0 t nw) * W64 ^ nw
      ≡ wval a * wval b [MOD wval n] ∧
    (∃ rinv, rinv * W64 ^ nw ≡ 1 [MOD wval n]) ∧
    ∀ rinv, rinv * W64 ^ nw ≡ 1 [MOD wval n] →
      wval (mont_mult_internal aliased a b n m0 t nw) ≡ wval a * wval b * rinv [MOD wval n] := by
  obtain ⟨s1, s2, s3, _, s5⟩ := mont_mult_internal_spec aliased a b n m0 t nw hnw ha hb hn ht
    hla hlb hln (by omega) hm
  have hB : (if aliased then a else b) = b := by
    cases aliased
    · rfl
    · exact (hal rfl).symm
  rw [hB] at s3
  refine ⟨by omega, s1, s2, s3, exists_R_inverse _ nw hodd, ?_⟩
  intro rinv hr
  have h1 := s3.mul_right rinv
  have h2 : wval (mont_mult_internal aliased a b n m0 t nw) * W64 ^ nw * rinv
      = wval (mont_mult_internal aliased a b n m0 t nw) * (rinv * W64 ^ nw) := by ring
  rw [h2] at h1
  have h3 := (hr.mul_left (wval (mont_mult_internal aliased a b n m0 t nw))).symm
  rw [Nat.mul_one] at h3
  exact h3.trans h1

/-- C27, at the two-word modulus 7 + 3 * 2^64 with the operands
a = 2^128 - 1 and b = 2^128 - 2, both far above the modulus. -/
theorem C27_reduction_tolerates_noncanonical_witness :
    ((mont_mult_reduce false [18446744073709551615, 18446744073709551615]
        [18446744073709551614, 18446744073709551615] [7, 3] 10540996613548315209
        (List.replicate 7 0) 2).getD (2 * 2) 0 = 0 ∨
      (mont_mult_reduce false [18446744073709551615, 18446744073709551615]
        [18446744073709551614, 18446744073709551615] [7, 3] 10540996613548315209
        (List.replicate 7 0) 2).getD (2 * 2) 0 = 1) ∧
    (mont_mult_internal false [18446744073709551615, 18446744073709551615]
        [18446744073709551614, 18446744073709551615] [7, 3] 10540996613548315209
        (List.replicate 7 0) 2).length = 2 ∧
    WordsOk (mont_mult_internal false [18446744073709551615, 18446744073709551615]
        [18446744073709551614, 18446744073709551615] [7, 3] 10540996613548315209
        (List.replicate 7 0) 2) ∧
    wval (mont_mult_internal false [18446744073709551615, 18446744073709551615]
        [18446744073709551614, 18446744073709551615] [7, 3] 10540996613548315209
        (List.replicate 7 0) 2) * W64 ^ 2
      ≡ wval [18446744073709551615, 18446744073709551615]
        * wval [18446744073709551614, 18446744073709551615] [MOD wval [7, 3]] ∧
    (∃ rinv, rinv * W64 ^ 2 ≡ 1 [MOD wval [7, 3]]) ∧
    ∀ rinv, rinv * W64 ^ 2 ≡ 1 [MOD wval [7, 3]] →
      wval (mont_mult_internal false [18446744073709551615, 18446744073709551615]
        [18446744073709551614, 18446744073709551615] [7, 3] 10540996613548315209
        (List.replicate 7 0) 2)
      ≡ wval [18446744073709551615, 18446744073709551615]
        * wval [18446744073709551614, 18446744073709551615] * rinv [MOD wval [7, 3]] :=
  C27_reduction_tolerates_noncanonical false [18446744073709551615, 18446744073709551615]
    [18446744073709551614, 18446744073709551615] [7, 3] 10540996613548315209
    (List.replicate 7 0) 2 (by decide) (by decide) (by decide) (by decide) (by decide)
    (by decide) (by decide) (by decide) (by decide) (by decide) (by decide)
    (by intro h; cases h)

/-- The value of `mont_add` on separate arrays: the sum modulo R = 2^(64 words),
which is the sum when it is below R and the sum minus R otherwise. -/
theorem mont_add_value_cases (a b : List Nat) (ctx : MontContext) (ha : WordsOk a)
    (hb : WordsOk b) (hla : a.length = ctx.words) (hlb : b.length = ctx.words) :
    (wval a + wval b < W64 ^ ctx.words →
      wval (mont_add false a b ctx) = wval a + wval b) ∧
    (W64 ^ ctx.words ≤ wval a + wval b →
      wval (mont_add false a b ctx) = wval a + wval b - W64 ^ ctx.words) := by
  obtain ⟨_, _, i3⟩ := mont_add_spec a b ctx ha hb hla hlb
  have hA : wval a < W64 ^ ctx.words := by have := wval_lt ha; rwa [hla] at this
  have hB : wval b < W64 ^ ctx.words := by have := wval_lt hb; rwa [hlb] at this
  constructor
  · intro h
    rw [i3, Nat.mod_eq_of_lt h]
  · intro h
    rw [i3, Nat.mod_eq_sub_mod h, Nat.mod_eq_of_lt (by omega)]

/-- A multiple R * c of R = 2^(64 words) is 0 modulo N only for c = 0, when
c < N. -/
theorem R_mul_modEq_zero (ctx : MontContext) (hc : MontCtxOk ctx) (c : Nat)
    (hcN : c < wval ctx.modulus) (h : W64 ^ ctx.words * c ≡ 0 [MOD wval ctx.modulus]) :
    c = 0 := by
  have h1 : wval ctx.modulus ∣ W64 ^ ctx.words * c := (Nat.modEq_zero_iff_dvd).mp h
  have h2 : wval ctx.modulus ∣ c :=
    Nat.Coprime.dvd_of_dvd_mul_left ((coprime_R _ ctx.words hc.n_odd).symm) h1
  exact Nat.eq_zero_of_dvd_of_lt h2 hcN

/-- C25 (as first stated) fails: on the context of the P-256 prime N, `mont_add`
of a = b = N - 1 into a separate array does not write a + b = 2N - 2 (the sum
is above 2^256; the array holds 2N - 2 - 2^256); and when `out` is the array
`b`, `mont_add` of 1 and 2 on one word writes 2. -/
theorem C25_mont_add_wrap_counterexample :
    Canon [18446744073709551614, 4294967295, 0, 18446744069414584321]
      EcWs.p256_ctx.mont_ctx ∧
    wval (mont_add false [18446744073709551614, 4294967295, 0, 18446744069414584321]
        [18446744073709551614, 4294967295, 0, 18446744069414584321] EcWs.p256_ctx.mont_ctx)
      ≠ wval [18446744073709551614, 4294967295, 0, 18446744069414584321]
        + wval [18446744073709551614, 4294967295, 0, 18446744069414584321] ∧
    mont_add false [18446744073709551614, 4294967295, 0, 18446744069414584321]
        [18446744073709551614, 4294967295, 0, 18446744069414584321] EcWs.p256_ctx.mont_ctx
      = [18446744073709551612, 8589934591, 0, 18446744065119617026] ∧
    Canon [1] EcWs.c31_ctx.mont_ctx ∧ Canon [2] EcWs.c31_ctx.mont_ctx ∧
    mont_add true [1] [2] EcWs.c31_ctx.mont_ctx = [2] := by
  unfold Canon
  decide!

/-- C25, amended. For all word arrays a, b of the context with values below N,
`mont_add` into an array that is not `b` writes the sum modulo
R = 2^(64 words): exactly a + b, a value in [0, 2N), when a + b < R, and
a + b - R when a + b >= R. -/
theorem C25_mont_add_value (ctx : MontContext) (a b : List Nat) (ha : Canon a ctx)
    (hb : Canon b ctx) :
    (mont_add false a b ctx).length = ctx.words ∧ WordsOk (mont_add false a b ctx) ∧
    wval (mont_add false a b ctx) = (wval a + wval b) % W64 ^ ctx.words ∧
    (wval a + wval b < W64 ^ ctx.words →
      wval (mont_add false a b ctx) = wval a + wval b ∧
      wval (mont_add false a b ctx) < 2 * wval ctx.modulus) ∧
    (W64 ^ ctx.words ≤ wval a + wval b →
      wval (mont_add false a b ctx) = wval a + wval b - W64 ^ ctx.words) := by
  obtain ⟨i1, i2, i3⟩ := mont_add_spec a b ctx ha.2.1 hb.2.1 ha.1 hb.1
  obtain ⟨j1, j2⟩ := mont_add_value_cases a b ctx ha.2.1 hb.2.1 ha.1 hb.1
  refine ⟨i1, i2, i3, ?_, j2⟩
  intro h
  have h1 := j1 h
  have h2 := ha.2.2
  have h3 := hb.2.2
  exact ⟨h1, by omega⟩

/-- C25 (amended), on the context of the modulus 31 with a = 30 and b = 29. -/
theorem C25_mont_add_value_witness :
    (mont_add false [30] [29] EcWs.c31_ctx.mont_ctx).length = EcWs.c31_ctx.mont_ctx.words ∧
    WordsOk (mont_add false [30] [29] EcWs.c31_ctx.mont_ctx) ∧
    wval (mont_add false [30] [29] EcWs.c31_ctx.mont_ctx)
      = (wval [30] + wval [29]) % W64 ^ EcWs.c31_ctx.mont_ctx.words ∧
    (wval [30] + wval [29] < W64 ^ EcWs.c31_ctx.mont_ctx.words →
      wval (mont_add false [30] [29] EcWs.c31_ctx.mont_ctx) = wval [30] + wval [29] ∧
      wval (mont_add false [30] [29] EcWs.c31_ctx.mont_ctx)
        < 2 * wval EcWs.c31_ctx.mont_ctx.modulus) ∧
    (W64 ^ EcWs.c31_ctx.mont_ctx.words ≤ wval [30] + wval [29] →
      wval (mont_add false [30] [29] EcWs.c31_ctx.mont_ctx)
        = wval [30] + wval [29] - W64 ^ EcWs.c31_ctx.mont_ctx.words) :=
  C25_mont_add_value EcWs.c31_ctx.mont_ctx [30] [29] (by unfold Canon; decide!)
    (by unfold Canon; decide!)

/-- C24 (as first stated) fails: on the context of the P-256 prime N, with
a = b = N - 1 (so a + b >= 2^256) and c = 1, the product of `mont_add a b` and
c is not congruent to (a + b) * c * R^-1; on the context of the modulus 31,
with a = 1 < b = 2 and c = 3, the product of `mont_sub a b` and c is not
congruent to (a - b) * c * R^-1 (each congruence multiplied by R, the second
with b * c moved to the left). -/
theorem C24_absorb_counterexample :
    ¬ (wval (mont_mult false
          (mont_add false [18446744073709551614, 4294967295, 0, 18446744069414584321]
            [18446744073709551614, 4294967295, 0, 18446744069414584321]
            EcWs.p256_ctx.mont_ctx)
          [1, 0, 0, 0] EcWs.p256_ctx.mont_ctx) * W64 ^ 4
        ≡ (wval [18446744073709551614, 4294967295, 0, 18446744069414584321]
            + wval [18446744073709551614, 4294967295, 0, 18446744069414584321])
          * wval [1, 0, 0, 0] [MOD wval EcWs.p256_ctx.mont_ctx.modulus]) ∧
    ¬ (wval (mont_mult false (mont_sub [1] [2] EcWs.c31_ctx.mont_ctx) [3]
          EcWs.c31_ctx.mont_ctx) * W64 ^ 1 + wval [2] * wval [3]
        ≡ wval [1] * wval [3] [MOD wval EcWs.c31_ctx.mont_ctx.modulus]) := by
  unfold Nat.ModEq
  decide!

/-- C24, amended. For every Montgomery context and all Montgomery numbers
a, b, c < N (separate arrays), with R = 2^(64 words): the product by
`mont_mult` of the output of `mont_add a b` and c is congruent modulo N to
(a + b) * c * R^-1 when a + b < R; when a + b >= R it is congruent to
(a + b - R) * c * R^-1, and to (a + b) * c * R^-1 only for c = 0.  The product
of the output of `mont_sub a b` and c is congruent to (a - b) * c * R^-1 when
b <= a; when a < b it is congruent to (a + R - b) * c * R^-1, and to
(a - b) * c * R^-1 only for c = 0.  (Congruences are stated multiplied by R.) -/
theorem C24_add_sub_absorbed (ctx : MontContext) (hc : MontCtxOk ctx) (a b c : List Nat)
    (ha : Canon a ctx) (hb : Canon b ctx) (hcn : Canon c ctx) :
    (wval a + wval b < W64 ^ ctx.words →
      wval (mont_mult false (mont_add false a b ctx) c ctx) * W64 ^ ctx.words
        ≡ (wval a + wval b) * wval c [MOD wval ctx.modulus]) ∧
    (W64 ^ ctx.words ≤ wval a + wval b →
      wval (mont_mult false (mont_add false a b ctx) c ctx) * W64 ^ ctx.words
        ≡ (wval a + wval b - W64 ^ ctx.words) * wval c [MOD wval ctx.modulus] ∧
      (wval (mont_mult false (mont_add false a b ctx) c ctx) * W64 ^ ctx.words
        ≡ (wval a + wval b) * wval c [MOD wval ctx.modulus] ↔ wval c = 0)) ∧
    (wval b ≤ wval a →
      wval (mont_mult false (mont_sub a b ctx) c ctx) * W64 ^ ctx.words
        ≡ (wval a - wval b) * wval c [MOD wval ctx.modulus]) ∧
    (wval a < wval b →
      wval (mont_mult false (mont_sub a b ctx) c ctx) * W64 ^ ctx.words
        ≡ (wval a + W64 ^ ctx.words - wval b) * wval c [MOD wval ctx.modulus] ∧
      (wval (mont_mult false (mont_sub a b ctx) c ctx) * W64 ^ ctx.words
          + wval b * wval c ≡ wval a * wval c [MOD wval ctx.modulus] ↔ wval c = 0)) := by
  obtain ⟨i1, i2, _⟩ := mont_add_spec a b ctx ha.2.1 hb.2.1 ha.1 hb.1
  obtain ⟨j1, j2⟩ := mont_add_value_cases a b ctx ha.2.1 hb.2.1 ha.1 hb.1
  obtain ⟨k1, k2, k3, k4⟩ := mont_sub_spec a b ctx ha.2.1 hb.2.1 ha.1 hb.1
  obtain ⟨_, _, s3, _⟩ := mont_mult_spec ctx hc false (mont_add false a b ctx) c i2 hcn.2.1
    i1 hcn.1
  obtain ⟨_, _, t3, _⟩ := mont_mult_spec ctx hc false (mont_sub a b ctx) c k2 hcn.2.1
    k1 hcn.1
  simp only [Bool.false_eq_true, if_false] at s3 t3
  refine ⟨?_, ?_, ?_, ?_⟩
  · intro h
    rw [j1 h] at s3
    exact s3
  · intro h
    rw [j2 h] at s3
    refine ⟨s3, ?_⟩
    have e : (wval a + wval b) * wval c
        = (wval a + wval b - W64 ^ ctx.words) * wval c + W64 ^ ctx.words * wval c := by
      rw [← Nat.add_mul, Nat.sub_add_cancel h]
    constructor
    · intro h2
      have h3 := s3.symm.trans h2
      rw [e] at h3
      have h4 : (wval a + wval b - W64 ^ ctx.words) * wval c + 0
          ≡ (wval a + wval b - W64 ^ ctx.words) * wval c + W64 ^ ctx.words * wval c
          [MOD wval ctx.modulus] := by rw [Nat.add_zero]; exact h3
      exact R_mul_modEq_zero ctx hc _ hcn.2.2 (Nat.ModEq.add_left_cancel' _ h4).symm
    · intro h0
      rw [h0, Nat.mul_zero] at s3 ⊢
      exact s3
  · intro h
    rw [k3 h] at t3
    exact t3
  · intro h
    rw [k4 h] at t3
    refine ⟨t3, ?_⟩
    have hB : wval b < W64 ^ ctx.words := by have := wval_lt hb.2.1; rw [hb.1] at this; exact this
    have e : (wval a + W64 ^ ctx.words - wval b) * wval c + wval b * wval c
        = wval a * wval c + W64 ^ ctx.words * wval c := by
      rw [← Nat.add_mul, ← Nat.add_mul, Nat.sub_add_cancel (by omega)]
    constructor
    · intro h2
      have h3 := (t3.add_right (wval b * wval c)).symm.trans h2
      rw [e] at h3
      have h4 : wval a * wval c + W64 ^ ctx.words * wval c ≡ wval a * wval c + 0
          [MOD wval ctx.modulus] := by rw [Nat.add_zero]; exact h3
      exact R_mul_modEq_zero ctx hc _ hcn.2.2 (Nat.ModEq.add_left_cancel' _ h4)
    · intro h0
      rw [h0, Nat.mul_zero] at t3
      rw [h0, Nat.mul_zero, Nat.mul_zero, Nat.add_zero]
      exact t3

/-- C24 (amended), on the context of the modulus 31 with a = 1, b = 2, c = 3. -/
theorem C24_add_sub_absorbed_witness :
    (wval [1] + wval [2] < W64 ^ EcWs.c31_ctx.mont_ctx.words →
      wval (mont_mult false (mont_add false [1] [2] EcWs.c31_ctx.mont_ctx) [3]
          EcWs.c31_ctx.mont_ctx) * W64 ^ EcWs.c31_ctx.mont_ctx.words
        ≡ (wval [1] + wval [2]) * wval [3] [MOD wval EcWs.c31_ctx.mont_ctx.modulus]) ∧
    (W64 ^ EcWs.c31_ctx.mont_ctx.words ≤ wval [1] + wval [2] →
      wval (mont_mult false (mont_add false [1] [2] EcWs.c31_ctx.mont_ctx) [3]
          EcWs.c31_ctx.mont_ctx) * W64 ^ EcWs.c31_ctx.mont_ctx.words
        ≡ (wval [1] + wval [2] - W64 ^ EcWs.c31_ctx.mont_ctx.words) * wval [3]
          [MOD wval EcWs.c31_ctx.mont_ctx.modulus] ∧
      (wval (mont_mult false (mont_add false [1] [2] EcWs.c31_ctx.mont_ctx) [3]
          EcWs.c31_ctx.mont_ctx) * W64 ^ EcWs.c31_ctx.mont_ctx.words
        ≡ (wval [1] + wval [2]) * wval [3] [MOD wval EcWs.c31_ctx.mont_ctx.modulus]
        ↔ wval [3] = 0)) ∧
    (wval [2] ≤ wval [1] →
      wval (mont_mult false (mont_sub [1] [2] EcWs.c31_ctx.mont_ctx) [3]
          EcWs.c31_ctx.mont_ctx) * W64 ^ EcWs.c31_ctx.mont_ctx.words
        ≡ (wval [1] - wval [2]) * wval [3] [MOD wval EcWs.c31_ctx.mont_ctx.modulus]) ∧
    (wval [1] < wval [2] →
      wval (mont_mult false (mont_sub [1] [2] EcWs.c31_ctx.mont_ctx) [3]
          EcWs.c31_ctx.mont_ctx) * W64 ^ EcWs.c31_ctx.mont_ctx.words
        ≡ (wval [1] + W64 ^ EcWs.c31_ctx.mont_ctx.words - wval [2]) * wval [3]
          [MOD wval EcWs.c31_ctx.mont_ctx.modulus] ∧
      (wval (mont_mult false (mont_sub [1] [2] EcWs.c31_ctx.mont_ctx) [3]
          EcWs.c31_ctx.mont_ctx) * W64 ^ EcWs.c31_ctx.mont_ctx.words
          + wval [2] * wval [3] ≡ wval [1] * wval [3]
          [MOD wval EcWs.c31_ctx.mont_ctx.modulus] ↔ wval [3] = 0)) :=
  C24_add_sub_absorbed EcWs.c31_ctx.mont_ctx EcWs.c31_mont_ok [1] [2] [3]
    (by unfold Canon; decide!) (by unfold Canon; decide!) (by unfold Canon; decide!)

/-- C26. `mont_mult_scalar` does not propagate the full 64-bit carry: the local
`carry` is an `unsigned`, so `carry = prod_hi` keeps the low 32 bits.  On a
two-word context (modulus 2^64 + 13), a = 2^64 - 1 and k = 2^64 - 1, the array
written is [1, 2^32 - 2], whereas the low two words of a * k are
[1, 2^64 - 2]. -/
theorem C26_mont_mult_scalar_carry_truncated :
    (mont_context_build [1, 0, 0, 0, 0, 0, 0, 0, 13]).words = 2 ∧
    mont_mult_scalar [18446744073709551615, 0] 18446744073709551615
        (mont_context_build [1, 0, 0, 0, 0, 0, 0, 0, 13]) = [1, 4294967294] ∧
    (wval [18446744073709551615, 0] * 18446744073709551615)
        % W64 ^ (mont_context_build [1, 0, 0, 0, 0, 0, 0, 0, 13]).words
      = wval [1, 18446744073709551614] ∧
    wval (mont_mult_scalar [18446744073709551615, 0] 18446744073709551615
        (mont_context_build [1, 0, 0, 0, 0, 0, 0, 0, 13]))
      ≠ (wval [18446744073709551615, 0] * 18446744073709551615)
        % W64 ^ (mont_context_build [1, 0, 0, 0, 0, 0, 0, 0, 13]).words := by
  decide!

end Mont

namespace EcWs

open Mont

/-! ## Blinding of the scalar and of the base point -/

theorem pow256_eq_W64 (n : Nat) : 256 ^ (n * 8) = W64 ^ n := by
  have h : W64 = 256 ^ 8 := by unfold W64; norm_num
  rw [h, ← pow_mul, Nat.mul_comm]

/-- The value and the length of the output of `blind_scalar_factor`. -/
theorem blind_scalar_factor_spec (scalar : List Nat) (scalar_len R_seed : Nat)
    (order : List Nat) (order_words : Nat) (hs : BytesOk scalar)
    (hlen : scalar.length = scalar_len) (hR : R_seed < 4294967296) (ho : WordsOk order)
    (hol : order.length = order_words) :
    (blind_scalar_factor scalar scalar_len R_seed order order_words).length
      = 8 * (max order_words ((scalar_len + 7) / 8) + 2) ∧
    BytesOk (blind_scalar_factor scalar scalar_len R_seed order order_words) ∧
    be_val (blind_scalar_factor scalar scalar_len R_seed order order_words)
      = be_val scalar + R_seed * wval order := by
  unfold blind_scalar_factor bytes_to_words words_to_bytes
  simp only []
  generalize hbw : max (order_words + 2) ((scalar_len + 7) / 8 + 2) = bw
  have hbw2 : bw = max order_words ((scalar_len + 7) / 8) + 2 := by omega
  have htake : scalar.take scalar_len = scalar := List.take_of_length_le (by omega)
  have htakeo : order.take order_words = order := List.take_of_length_le (by omega)
  rw [htake]
  obtain ⟨t1, t2, t3⟩ := to_words_spec bw (be_val scalar)
  have hsv : be_val scalar < W64 ^ ((scalar_len + 7) / 8) := by
    have h1 := be_val_lt scalar hs
    have h2 := bytes_words_bound scalar_len
    rw [hlen] at h1
    omega
  have hov : wval order < W64 ^ order_words := by
    have := wval_lt ho; rwa [hol] at this
  generalize hm : max order_words ((scalar_len + 7) / 8) = m at hbw2
  have hs_m : be_val scalar < W64 ^ m :=
    lt_of_lt_of_le hsv (Nat.pow_le_pow_right W64_pos (by omega))
  have ho_m : wval order < W64 ^ m :=
    lt_of_lt_of_le hov (Nat.pow_le_pow_right W64_pos (by omega))
  have hsum : be_val scalar + R_seed * wval order < W64 ^ bw := by
    rw [hbw2, pow_succ, pow_succ]
    have hW : W64 = 18446744073709551616 := rfl
    have h1 : R_seed * wval order ≤ 4294967295 * W64 ^ m :=
      Nat.mul_le_mul (by omega) (le_of_lt ho_m)
    generalize R_seed * wval order = q at h1
    generalize W64 ^ m = P at hs_m h1
    rw [hW]
    omega
  have hs_bw : be_val scalar < W64 ^ bw := by
    have : 0 ≤ R_seed * wval order := Nat.zero_le _
    omega
  rw [Nat.mod_eq_of_lt hs_bw] at t3
  obtain ⟨a1, a2, a3⟩ := addmul128_spec (to_words bw (be_val scalar)) order R_seed 0
    order_words t2 ho (by unfold W64; omega) W64_pos (by rw [t1]; omega)
  rw [htakeo, t1, t3, Nat.mul_zero, Nat.add_zero, Nat.mul_comm (wval order),
    Nat.mod_eq_of_lt hsum] at a3
  obtain ⟨b1, b2, b3⟩ := to_be_bytes_spec (bw * 8)
    (wval (addmul128 (to_words bw (be_val scalar)) order R_seed 0 order_words))
  rw [a3, pow256_eq_W64, Nat.mod_eq_of_lt hsum] at b3
  rw [a3] at b1 b2
  rw [a3]
  exact ⟨by rw [b1, hbw2]; omega, b2, b3⟩

/-- C29. For every scalar s of scalar_len >= 1 bytes, every 32-bit factor
R_seed and every group order given as order_words words, `blind_scalar_factor`
returns a big-endian buffer of exactly
8 * (max(order_words, ceil(scalar_len / 8)) + 2) bytes whose integer value is
exactly s + R_seed * order. -/
theorem C29_blind_scalar_factor_exact (scalar : List Nat) (scalar_len R_seed : Nat)
    (order : List Nat) (order_words : Nat) (hs : BytesOk scalar)
    (hlen : scalar.length = scalar_len) (hpos : 1 ≤ scalar_len) (hR : R_seed < 4294967296)
    (ho : WordsOk order) (hol : order.length = order_words) :
    (blind_scalar_factor scalar scalar_len R_seed order order_words).length
      = 8 * (max order_words ((scalar_len + 7) / 8) + 2) ∧
    BytesOk (blind_scalar_factor scalar scalar_len R_seed order order_words) ∧
    be_val (blind_scalar_factor scalar scalar_len R_seed order order_words)
      = be_val scalar + R_seed * wval order := by
  have _ := hpos
  exact blind_scalar_factor_spec scalar scalar_len R_seed order order_words hs hlen hR ho hol

/-- C29, for the one-byte scalar 200, the factor 2^32 - 1 and the one-word
order 2^64 - 1. -/
theorem C29_blind_scalar_factor_exact_witness :
    (blind_scalar_factor [200] 1 4294967295 [18446744073709551615] 1).length
      = 8 * (max 1 ((1 + 7) / 8) + 2) ∧
    BytesOk (blind_scalar_factor [200] 1 4294967295 [18446744073709551615] 1) ∧
    be_val (blind_scalar_factor [200] 1 4294967295 [18446744073709551615] 1)
      = be_val [200] + 4294967295 * wval [18446744073709551615] :=
  C29_blind_scalar_factor_exact [200] 1 4294967295 [18446744073709551615] 1 (by decide) rfl
    (by decide) (by decide) (by decide) rfl

/-- With a non-zero seed, `ec_ws_scalar_multiply` runs `ec_exp` on the blinded
base point with the blinded scalar; `factor` is the array that the seed
expansion writes. -/
theorem ec_ws_scalar_multiply_blinded (ar : MontArith) (expand_seed : Nat → Nat → List Nat)
    (ecp : EcPoint) (k : List Nat) (len seed : Nat) (factor : List Nat) (hlen : len ≠ 0)
    (hseed : seed ≠ 0)
    (hfac : expand_seed seed ecp.ec_ctx.mont_ctx.words = factor) :
    ec_ws_scalar_multiply ar expand_seed ecp k len seed
      = .ok { ecp with
          x := (ec_exp ar (blind_base_point factor ecp).x (blind_base_point factor ecp).y
            (blind_base_point factor ecp).z (blind_scalar ecp k len seed)
            ecp.ec_ctx.mont_ctx).1,
          y := (ec_exp ar (blind_base_point factor ecp).x (blind_base_point factor ecp).y
            (blind_base_point factor ecp).z (blind_scalar ecp k len seed)
            ecp.ec_ctx.mont_ctx).2.1,
          z := (ec_exp ar (blind_base_point factor ecp).x (blind_base_point factor ecp).y
            (blind_base_point factor ecp).z (blind_scalar ecp k len seed)
            ecp.ec_ctx.mont_ctx).2.2 } := by
  subst hfac
  unfold ec_ws_scalar_multiply blind_base_point blind_scalar
  simp only [if_neg hlen, ne_eq, hseed, not_false_eq_true, if_true]

/-- The coordinates of the blinded base point: canonical numbers with
z' * R = z * f, x' * R^2 = x * f^2 and y' * R^3 = y * f^3 modulo N, where f is
the value of `factor` and R = 2^(64 words). -/
theorem blind_base_point_spec (p : EcPoint) (factor : List Nat)
    (hc : MontCtxOk p.ec_ctx.mont_ctx) (hv : PointOk p)
    (hf : factor.length = p.ec_ctx.mont_ctx.words ∧ WordsOk factor) :
    PointOk (blind_base_point factor p) ∧
    wval (blind_base_point factor p).z * W64 ^ p.ec_ctx.mont_ctx.words
      ≡ wval p.z * wval factor [MOD wval p.ec_ctx.mont_ctx.modulus] ∧
    wval (blind_base_point factor p).x * (W64 ^ p.ec_ctx.mont_ctx.words) ^ 2
      ≡ wval p.x * wval factor ^ 2 [MOD wval p.ec_ctx.mont_ctx.modulus] ∧
    wval (blind_base_point factor p).y * (W64 ^ p.ec_ctx.mont_ctx.words) ^ 3
      ≡ wval p.y * wval factor ^ 3 [MOD wval p.ec_ctx.mont_ctx.modulus] := by
  obtain ⟨px, py, pz⟩ := hv
  have e0 : (blind_base_point factor p).ec_ctx = p.ec_ctx := rfl
  show (_ ∧ _ ∧ _) ∧ _
  rw [e0]
  generalize hg : p.ec_ctx.mont_ctx = ctx at *
  have ez : (blind_base_point factor p).z = mont_mult false p.z factor ctx := by
    rw [← hg]; rfl
  have ex : (blind_base_point factor p).x
      = mont_mult false p.x (mont_mult true factor factor ctx) ctx := by rw [← hg]; rfl
  have ey : (blind_base_point factor p).y
      = mont_mult false p.y (mont_mult false (mont_mult true factor factor ctx) factor ctx)
          ctx := by rw [← hg]; rfl
  rw [ez, ex, ey]
  obtain ⟨z1, z2⟩ := mont_mult_canon ctx hc false p.z factor pz hf
  obtain ⟨a1, a2, a3, _⟩ := mont_mult_spec ctx hc true factor factor hf.2 hf.2 hf.1 hf.1
  obtain ⟨x1, x2⟩ := mont_mult_canon ctx hc false p.x (mont_mult true factor factor ctx) px
    ⟨a1, a2⟩
  obtain ⟨b1, b2, b3, _⟩ := mont_mult_spec ctx hc false (mont_mult true factor factor ctx)
    factor a2 hf.2 a1 hf.1
  obtain ⟨y1, y2⟩ := mont_mult_canon ctx hc false p.y
    (mont_mult false (mont_mult true factor factor ctx) factor ctx) py ⟨b1, b2⟩
  simp only [Bool.false_eq_true, if_false, if_true] at z2 a3 x2 b3 y2
  refine ⟨⟨x1, y1, z1⟩, z2, ?_, ?_⟩
  · generalize wval (mont_mult false p.x (mont_mult true factor factor ctx) ctx) = X at *
    generalize wval (mont_mult true factor factor ctx) = F2 at *
    generalize W64 ^ ctx.words = R at *
    have h1 : X * R ^ 2 = X * R * R := by ring
    have h2 : wval p.x * F2 * R = wval p.x * (F2 * R) := by ring
    have h3 : wval p.x * wval factor ^ 2 = wval p.x * (wval factor * wval factor) := by ring
    rw [h1, h3]
    exact ((x2.mul_right R).trans (by rw [h2])).trans (a3.mul_left _)
  · generalize wval (mont_mult false p.y
      (mont_mult false (mont_mult true factor factor ctx) factor ctx) ctx) = Y at *
    generalize wval (mont_mult false (mont_mult true factor factor ctx) factor ctx) = F3 at *
    generalize wval (mont_mult true factor factor ctx) = F2 at *
    generalize W64 ^ ctx.words = R at *
    have h1 : Y * R ^ 3 = Y * R * R * R := by ring
    have h2 : wval p.y * F3 * R * R = wval p.y * (F3 * R) * R := by ring
    have h3 : wval p.y * (F2 * wval factor) * R = wval p.y * wval factor * (F2 * R) := by ring
    have h4 : wval p.y * wval factor * (wval factor * wval factor)
        = wval p.y * wval factor ^ 3 := by ring
    rw [h1]
    have s1 := (y2.mul_right R).mul_right R
    rw [h2] at s1
    have s2 := (b3.mul_left (wval p.y)).mul_right R
    rw [h3] at s2
    have s3 := a3.mul_left (wval p.y * wval factor)
    rw [h4] at s3
    exact (s1.trans s2).trans s3

/-- C28. Coordinate blinding preserves the point: for a prime modulus N, a
point (X, Y, Z) with canonical coordinates and a blinding factor f (any array
of `words` words) that is not 0 modulo N, the blinded triple computed in
`ec_ws_scalar_multiply` has canonical coordinates with Z' = Z * f,
X' = X * f^2, Y' = Y * f^3 in the Montgomery domain (each product divided by
R); Z' is 0 exactly when Z is 0; X' * Z^2 = X * Z'^2 and Y' * Z^3 = Y * Z'^3
modulo N, that is the same affine point; and `ec_ws_cmp` of the blinded and the
original point returns 0. -/
theorem C28_coordinate_blinding_preserves_point (p : EcPoint) (factor : List Nat)
    (hc : MontCtxOk p.ec_ctx.mont_ctx) (hp : Nat.Prime (wval p.ec_ctx.mont_ctx.modulus))
    (hv : PointOk p) (hf : factor.length = p.ec_ctx.mont_ctx.words ∧ WordsOk factor)
    (hnz : ¬ wval p.ec_ctx.mont_ctx.modulus ∣ wval factor) :
    PointOk (blind_base_point factor p) ∧
    (wval (blind_base_point factor p).z * W64 ^ p.ec_ctx.mont_ctx.words
      ≡ wval p.z * wval factor [MOD wval p.ec_ctx.mont_ctx.modulus] ∧
    wval (blind_base_point factor p).x * (W64 ^ p.ec_ctx.mont_ctx.words) ^ 2
      ≡ wval p.x * wval factor ^ 2 [MOD wval p.ec_ctx.mont_ctx.modulus] ∧
    wval (blind_base_point factor p).y * (W64 ^ p.ec_ctx.mont_ctx.words) ^ 3
      ≡ wval p.y * wval factor ^ 3 [MOD wval p.ec_ctx.mont_ctx.modulus]) ∧
    (wval (blind_base_point factor p).z = 0 ↔ wval p.z = 0) ∧
    wval (blind_base_point factor p).x * wval p.z ^ 2
      ≡ wval p.x * wval (blind_base_point factor p).z ^ 2
        [MOD wval p.ec_ctx.mont_ctx.modulus] ∧
    wval (blind_base_point factor p).y * wval p.z ^ 3
      ≡ wval p.y * wval (blind_base_point factor p).z ^ 3
        [MOD wval p.ec_ctx.mont_ctx.modulus] ∧
    ec_ws_cmp (blind_base_point factor p) p = .ok 0 := by
  obtain ⟨hq, cz, cx, cy⟩ := blind_base_point_spec p factor hc hv hf
  have e0 : (blind_base_point factor p).ec_ctx = p.ec_ctx := rfl
  have hcop : Nat.Coprime (wval p.ec_ctx.mont_ctx.modulus) (W64 ^ p.ec_ctx.mont_ctx.words) :=
    (coprime_R _ _ hc.n_odd).symm
  have hNpos : 0 < wval p.ec_ctx.mont_ctx.modulus := Nat.Prime.pos hp
  have hqz : wval (blind_base_point factor p).z < wval p.ec_ctx.mont_ctx.modulus := hq.2.2.2.2
  have hpz : wval p.z < wval p.ec_ctx.mont_ctx.modulus := hv.2.2.2.2
  -- z' = 0 exactly when z = 0
  have hziff : wval (blind_base_point factor p).z = 0 ↔ wval p.z = 0 := by
    constructor
    · intro h
      rw [h, Nat.zero_mul] at cz
      have hd : wval p.ec_ctx.mont_ctx.modulus ∣ wval p.z * wval factor :=
        (Nat.modEq_zero_iff_dvd).mp cz.symm
      rcases (Nat.Prime.dvd_mul hp).mp hd with h1 | h1
      · exact Nat.eq_zero_of_dvd_of_lt h1 hpz
      · exact absurd h1 hnz
    · intro h
      rw [h, Nat.zero_mul] at cz
      have hd : wval p.ec_ctx.mont_ctx.modulus
          ∣ wval (blind_base_point factor p).z * W64 ^ p.ec_ctx.mont_ctx.words :=
        (Nat.modEq_zero_iff_dvd).mp cz
      exact Nat.eq_zero_of_dvd_of_lt (Nat.Coprime.dvd_of_dvd_mul_right hcop hd) hqz
  -- the cross-multiplied congruences
  have hX : wval (blind_base_point factor p).x * wval p.z ^ 2
      ≡ wval p.x * wval (blind_base_point factor p).z ^ 2
        [MOD wval p.ec_ctx.mont_ctx.modulus] := by
    apply Nat.ModEq.cancel_right_of_coprime (Nat.Coprime.pow_right 2 hcop)
    have s1 := cx.mul_right (wval p.z ^ 2)
    have s2 := (cz.pow 2).mul_left (wval p.x)
    have h1 : wval (blind_base_point factor p).x * (W64 ^ p.ec_ctx.mont_ctx.words) ^ 2
          * wval p.z ^ 2
        = wval (blind_base_point factor p).x * wval p.z ^ 2
          * (W64 ^ p.ec_ctx.mont_ctx.words) ^ 2 := by ring
    have h2 : wval p.x * (wval (blind_base_point factor p).z * W64 ^ p.ec_ctx.mont_ctx.words) ^ 2
        = wval p.x * wval (blind_base_point factor p).z ^ 2
          * (W64 ^ p.ec_ctx.mont_ctx.words) ^ 2 := by ring
    have h3 : wval p.x * (wval p.z * wval factor) ^ 2
        = wval p.x * wval factor ^ 2 * wval p.z ^ 2 := by ring
    rw [h1] at s1
    rw [h2, h3] at s2
    exact s1.trans s2.symm
  have hY : wval (blind_base_point factor p).y * wval p.z ^ 3
      ≡ wval p.y * wval (blind_base_point factor p).z ^ 3
        [MOD wval p.ec_ctx.mont_ctx.modulus] := by
    apply Nat.ModEq.cancel_right_of_coprime (Nat.Coprime.pow_right 3 hcop)
    have s1 := cy.mul_right (wval p.z ^ 3)
    have s2 := (cz.pow 3).mul_left (wval p.y)
    have h1 : wval (blind_base_point factor p).y * (W64 ^ p.ec_ctx.mont_ctx.words) ^ 3
          * wval p.z ^ 3
        = wval (blind_base_point factor p).y * wval p.z ^ 3
          * (W64 ^ p.ec_ctx.mont_ctx.words) ^ 3 := by ring
    have h2 : wval p.y * (wval (blind_base_point factor p).z * W64 ^ p.ec_ctx.mont_ctx.words) ^ 3
        = wval p.y * wval (blind_base_point factor p).z ^ 3
          * (W64 ^ p.ec_ctx.mont_ctx.words) ^ 3 := by ring
    have h3 : wval p.y * (wval p.z * wval factor) ^ 3
        = wval p.y * wval factor ^ 3 * wval p.z ^ 3 := by ring
    rw [h1] at s1
    rw [h2, h3] at s2
    exact s1.trans s2.symm
  refine ⟨hq, ⟨cz, cx, cy⟩, hziff, hX, hY, ?_⟩
  by_cases hz : wval p.z = 0
  · have hz2 := hziff.mpr hz
    unfold ec_ws_cmp
    rw [if_neg (by simp [e0])]
    simp only [e0]
    have m1 : mont_is_zero (blind_base_point factor p).z p.ec_ctx.mont_ctx = true :=
      (mont_is_zero_iff _ _ hq.2.2.1).mpr hz2
    have m2 : mont_is_zero p.z p.ec_ctx.mont_ctx = true :=
      (mont_is_zero_iff _ _ hv.2.2.1).mpr hz
    rw [if_pos (by rw [m1, m2]; rfl)]
  · have hz2 : wval (blind_base_point factor p).z ≠ 0 := fun h => hz (hziff.mp h)
    exact (ec_ws_cmp_zero_iff (blind_base_point factor p) p e0 hc hp hq hv
      (fun h => hz2 h.2.2) (fun h => hz h.2.2)).mpr (Or.inr ⟨hz2, hz, hX, hY⟩)

/-- C28, for the point (24, 4) of the curve over the field of 31 elements and
the factor 2^64 - 3, which is above the modulus. -/
theorem C28_coordinate_blinding_preserves_point_witness :
    PointOk (blind_base_point [18446744073709551613] c31_p) ∧
    (wval (blind_base_point [18446744073709551613] c31_p).z
        * W64 ^ c31_p.ec_ctx.mont_ctx.words
      ≡ wval c31_p.z * wval [18446744073709551613]
        [MOD wval c31_p.ec_ctx.mont_ctx.modulus] ∧
    wval (blind_base_point [18446744073709551613] c31_p).x
        * (W64 ^ c31_p.ec_ctx.mont_ctx.words) ^ 2
      ≡ wval c31_p.x * wval [18446744073709551613] ^ 2
        [MOD wval c31_p.ec_ctx.mont_ctx.modulus] ∧
    wval (blind_base_point [18446744073709551613] c31_p).y
        * (W64 ^ c31_p.ec_ctx.mont_ctx.words) ^ 3
      ≡ wval c31_p.y * wval [18446744073709551613] ^ 3
        [MOD wval c31_p.ec_ctx.mont_ctx.modulus]) ∧
    (wval (blind_base_point [18446744073709551613] c31_p).z = 0 ↔ wval c31_p.z = 0) ∧
    wval (blind_base_point [18446744073709551613] c31_p).x * wval c31_p.z ^ 2
      ≡ wval c31_p.x * wval (blind_base_point [18446744073709551613] c31_p).z ^ 2
        [MOD wval c31_p.ec_ctx.mont_ctx.modulus] ∧
    wval (blind_base_point [18446744073709551613] c31_p).y * wval c31_p.z ^ 3
      ≡ wval c31_p.y * wval (blind_base_point [18446744073709551613] c31_p).z ^ 3
        [MOD wval c31_p.ec_ctx.mont_ctx.modulus] ∧
    ec_ws_cmp (blind_base_point [18446744073709551613] c31_p) c31_p = .ok 0 :=
  C28_coordinate_blinding_preserves_point c31_p [18446744073709551613] c31_mont_ok c31_prime
    (by decide!) (by decide!) (by decide!)

/-- The value of the scalar that `ec_ws_scalar_multiply` passes to `ec_exp`
for a non-zero seed: the caller's scalar plus (seed mod 2^32) times the
order. -/
theorem blind_scalar_value (ecp : EcPoint) (k : List Nat) (len seed : Nat) (hk : BytesOk k)
    (hlen : k.length = len) (ho : WordsOk ecp.ec_ctx.order)
    (hol : ecp.ec_ctx.order.length = ecp.ec_ctx.mont_ctx.words) :
    be_val (blind_scalar ecp k len seed)
      = be_val k + seed % 4294967296 * wval ecp.ec_ctx.order :=
  (blind_scalar_factor_spec k len (seed % 4294967296) ecp.ec_ctx.order
    ecp.ec_ctx.mont_ctx.words hk hlen (Nat.mod_lt _ (by omega)) ho hol).2.2

/-- C30 (as first stated) fails: 2^32 is a non-zero 64-bit seed whose low 32
bits are zero.  On the curve of 11 points over the field of 7 elements, with
the scalar 1, `ec_ws_scalar_multiply` blinds (the seed is not zero) and the
scalar it passes to `ec_exp` has the value 1 of the caller's scalar: the
multiplier is 0. -/
theorem C30_zero_multiplier_counterexample :
    (4294967296 : Nat) ≠ 0 ∧ 4294967296 < W64 ∧
    (∀ (ar : MontArith) (expand_seed : Nat → Nat → List Nat),
      ec_ws_scalar_multiply ar expand_seed c7b_p [1] 1 4294967296
        = .ok { c7b_p with
            x := (ec_exp ar (blind_base_point (expand_seed 4294967296 1) c7b_p).x
              (blind_base_point (expand_seed 4294967296 1) c7b_p).y
              (blind_base_point (expand_seed 4294967296 1) c7b_p).z
              (blind_scalar c7b_p [1] 1 4294967296) c7b_p.ec_ctx.mont_ctx).1,
            y := (ec_exp ar (blind_base_point (expand_seed 4294967296 1) c7b_p).x
              (blind_base_point (expand_seed 4294967296 1) c7b_p).y
              (blind_base_point (expand_seed 4294967296 1) c7b_p).z
              (blind_scalar c7b_p [1] 1 4294967296) c7b_p.ec_ctx.mont_ctx).2.1,
            z := (ec_exp ar (blind_base_point (expand_seed 4294967296 1) c7b_p).x
              (blind_base_point (expand_seed 4294967296 1) c7b_p).y
              (blind_base_point (expand_seed 4294967296 1) c7b_p).z
              (blind_scalar c7b_p [1] 1 4294967296) c7b_p.ec_ctx.mont_ctx).2.2 }) ∧
    blind_scalar c7b_p [1] 1 4294967296
      = [0, 0, 0, 0, 0, 0, 0, 0, 0, 0, 0, 0, 0, 0, 0, 0, 0, 0, 0, 0, 0, 0, 0, 1] ∧
    be_val (blind_scalar c7b_p [1] 1 4294967296) = be_val [1] :=
  ⟨by decide, by decide,
    fun ar expand_seed =>
      ec_ws_scalar_multiply_blinded ar expand_seed c7b_p [1] 1 4294967296
        (expand_seed 4294967296 1) (by decide) (by decide) rfl,
    by decide!, by decide!⟩

/-- C30, amended. For every non-zero seed, `ec_ws_scalar_multiply` passes to
the ladder (`ec_exp`) a scalar whose value is the caller's scalar plus
R * order, with R = seed mod 2^32 the low 32 bits of the seed (`factor` is the
array that the seed expansion writes).  When the low 32 bits of the seed are
not all zero, R is non-zero and the scalar driven into the ladder differs from
the caller's scalar by the non-zero multiple R * order of the group order (the
order being positive); the two values differ exactly in that case. -/
theorem C30_scalar_blinding_multiplier (ar : MontArith) (expand_seed : Nat → Nat → List Nat)
    (ecp : EcPoint) (k : List Nat) (len seed : Nat) (factor : List Nat) (hk : BytesOk k)
    (hlen : k.length = len) (hpos : len ≠ 0) (hseed : seed ≠ 0)
    (hfac : expand_seed seed ecp.ec_ctx.mont_ctx.words = factor)
    (ho : WordsOk ecp.ec_ctx.order)
    (hol : ecp.ec_ctx.order.length = ecp.ec_ctx.mont_ctx.words)
    (hopos : 0 < wval ecp.ec_ctx.order) :
    ec_ws_scalar_multiply ar expand_seed ecp k len seed
      = .ok { ecp with
          x := (ec_exp ar (blind_base_point factor ecp).x (blind_base_point factor ecp).y
            (blind_base_point factor ecp).z (blind_scalar ecp k len seed)
            ecp.ec_ctx.mont_ctx).1,
          y := (ec_exp ar (blind_base_point factor ecp).x (blind_base_point factor ecp).y
            (blind_base_point factor ecp).z (blind_scalar ecp k len seed)
            ecp.ec_ctx.mont_ctx).2.1,
          z := (ec_exp ar (blind_base_point factor ecp).x (blind_base_point factor ecp).y
            (blind_base_point factor ecp).z (blind_scalar ecp k len seed)
            ecp.ec_ctx.mont_ctx).2.2 } ∧
    be_val (blind_scalar ecp k len seed)
      = be_val k + seed % 4294967296 * wval ecp.ec_ctx.order ∧
    (seed % 4294967296 ≠ 0 →
      0 < seed % 4294967296 * wval ecp.ec_ctx.order ∧
      be_val (blind_scalar ecp k len seed) ≠ be_val k) ∧
    (be_val (blind_scalar ecp k len seed) ≠ be_val k ↔ seed % 4294967296 ≠ 0) := by
  have hv := blind_scalar_value ecp k len seed hk hlen ho hol
  have hmul : seed % 4294967296 ≠ 0 → 0 < seed % 4294967296 * wval ecp.ec_ctx.order :=
    fun h => Nat.mul_pos (Nat.pos_of_ne_zero h) hopos
  refine ⟨ec_ws_scalar_multiply_blinded ar expand_seed ecp k len seed factor hpos hseed hfac,
    hv, ?_, ?_⟩
  · intro h
    have := hmul h
    exact ⟨this, by omega⟩
  · constructor
    · intro h h0
      rw [h0, Nat.zero_mul, Nat.add_zero] at hv
      exact h hv
    · intro h
      have := hmul h
      omega

/-- C30 (amended), on the curve of 11 points over the field of 7 elements,
with the scalar 1, the seed 2^32 + 1 and a seed expansion that writes the
word 3. -/
theorem C30_scalar_blinding_multiplier_witness :
    ec_ws_scalar_multiply mod_arith (fun _ _ => [3]) c7b_p [1] 1 4294967297
      = .ok { c7b_p with
          x := (ec_exp mod_arith (blind_base_point [3] c7b_p).x
            (blind_base_point [3] c7b_p).y (blind_base_point [3] c7b_p).z
            (blind_scalar c7b_p [1] 1 4294967297) c7b_p.ec_ctx.mont_ctx).1,
          y := (ec_exp mod_arith (blind_base_point [3] c7b_p).x
            (blind_base_point [3] c7b_p).y (blind_base_point [3] c7b_p).z
            (blind_scalar c7b_p [1] 1 4294967297) c7b_p.ec_ctx.mont_ctx).2.1,
          z := (ec_exp mod_arith (blind_base_point [3] c7b_p).x
            (blind_base_point [3] c7b_p).y (blind_base_point [3] c7b_p).z
            (blind_scalar c7b_p [1] 1 4294967297) c7b_p.ec_ctx.mont_ctx).2.2 } ∧
    be_val (blind_scalar c7b_p [1] 1 4294967297)
      = be_val [1] + 4294967297 % 4294967296 * wval c7b_p.ec_ctx.order ∧
    (4294967297 % 4294967296 ≠ 0 →
      0 < 4294967297 % 4294967296 * wval c7b_p.ec_ctx.order ∧
      be_val (blind_scalar c7b_p [1] 1 4294967297) ≠ be_val [1]) ∧
    (be_val (blind_scalar c7b_p [1] 1 4294967297) ≠ be_val [1]
      ↔ 4294967297 % 4294967296 ≠ 0) :=
  C30_scalar_blinding_multiplier mod_arith (fun _ _ => [3]) c7b_p [1] 1 4294967297 [3]
    (by decide) rfl
    (by decide) (by decide) rfl (by decide!) (by decide!) (by decide!)

end EcWs

namespace EcWs

open Mont

/-! ## Residues modulo N of Montgomery numbers -/

theorem R_mul_rinv (ctx : MontContext) (hc : MontCtxOk ctx) :
    ((W64 ^ ctx.words : Nat) : ZMod (wval ctx.modulus)) * rinv ctx = 1 :=
  ZMod.coe_mul_inv_eq_one _ (coprime_R _ ctx.words hc.n_odd)

/-- Two canonical numbers are the same array exactly when their residues are
equal. -/
theorem res_eq_iff (ctx : MontContext) (u v : List Nat) (hu : Canon u ctx)
    (hv : Canon v ctx) : u = v ↔ res ctx u = res ctx v := by
  rw [canon_eq_iff ctx u v hu hv]
  unfold res
  exact (ZMod.eq_iff_modEq_nat _).symm

/-- The instance `mod_arith` writes the plain difference when there is no
borrow. -/
theorem mod_arith_sub_no_borrow (ctx : MontContext) : SubNoBorrow mod_arith ctx := by
  intro a b hla ha hlb hb hle
  obtain ⟨w1, w2, w3⟩ := to_words_spec ctx.words (wval a - wval b)
  have hA : wval a < W64 ^ ctx.words := by have := wval_lt ha; rwa [hla] at this
  rw [Nat.mod_eq_of_lt (by omega)] at w3
  show (to_words ctx.words
      (if wval b ≤ wval a then wval a - wval b else wval a + wval ctx.modulus - wval b)).length
        = ctx.words ∧
    WordsOk (to_words ctx.words
      (if wval b ≤ wval a then wval a - wval b else wval a + wval ctx.modulus - wval b)) ∧
    wval (to_words ctx.words
      (if wval b ≤ wval a then wval a - wval b else wval a + wval ctx.modulus - wval b))
      = wval a - wval b
  rw [if_pos hle]
  exact ⟨w1, w2, w3⟩

/-- The functions `mont_add` and `mont_sub` of mont.c, which have four
arguments, also write the plain difference when there is no borrow. -/
theorem mont_c_sub_no_borrow (ctx : MontContext) :
    SubNoBorrow { mont_add := Mont.mont_add false, mont_sub := Mont.mont_sub } ctx := by
  intro a b hla ha hlb hb hle
  obtain ⟨s1, s2, s3, _⟩ := mont_sub_spec a b ctx ha hb hla hlb
  exact ⟨s1, s2, s3 hle⟩

/-- Two pairs of functions that satisfy the contract agree on canonical
numbers. -/
theorem mont_arith_agree (ar ar2 : MontArith) (ctx : MontContext) (h : MontArithOk ar ctx)
    (h2 : MontArithOk ar2 ctx) (a b : List Nat) (ha : Canon a ctx) (hb : Canon b ctx) :
    ar.mont_add a b ctx = ar2.mont_add a b ctx ∧ ar.mont_sub a b ctx = ar2.mont_sub a b ctx := by
  obtain ⟨p1, p2⟩ := h.add_canon a b ha hb
  obtain ⟨q1, q2⟩ := h2.add_canon a b ha hb
  obtain ⟨r1, r2⟩ := h.sub_canon a b ha hb
  obtain ⟨s1, s2⟩ := h2.sub_canon a b ha hb
  exact ⟨wval_inj p1.2.1 q1.2.1 (by rw [p1.1, q1.1]) (by rw [p2, q2]),
    wval_inj r1.2.1 s1.2.1 (by rw [r1.1, s1.1]) (by rw [r2, s2])⟩

end EcWs

namespace EcWs

open Mont

/-! ## The doubling formulas -/

end EcWs

namespace EcWs

open Mont

/-! ## Mixed addition and full addition -/

end EcWs

namespace EcWs

open Mont

/-! ## The on-curve test of `ec_ws_new_point` -/

end EcWs

namespace EcWs

open Mont

/-! ## Negation, and a point plus its negation -/

/-- What `ec_ws_neg` stores when `mont_sub` writes the plain difference in the
absence of a borrow: x, z and the context are unchanged and the new y has the
value N - y.  For 0 < y < N it is a canonical number with y + y' = N; for
y = 0 its value is N. -/
theorem ec_ws_neg_value (ar : MontArith) (p : EcPoint) (hc : MontCtxOk p.ec_ctx.mont_ctx)
    (hs : SubNoBorrow ar p.ec_ctx.mont_ctx) (hy : Canon p.y p.ec_ctx.mont_ctx) :
    (ec_ws_neg ar p).ec_ctx = p.ec_ctx ∧ (ec_ws_neg ar p).x = p.x ∧
    (ec_ws_neg ar p).z = p.z ∧
    (ec_ws_neg ar p).y.length = p.ec_ctx.mont_ctx.words ∧ WordsOk (ec_ws_neg ar p).y ∧
    wval (ec_ws_neg ar p).y = wval p.ec_ctx.mont_ctx.modulus - wval p.y ∧
    (0 < wval p.y →
      wval (ec_ws_neg ar p).y < wval p.ec_ctx.mont_ctx.modulus ∧
      wval p.y + wval (ec_ws_neg ar p).y = wval p.ec_ctx.mont_ctx.modulus) ∧
    (wval p.y = 0 → wval (ec_ws_neg ar p).y = wval p.ec_ctx.mont_ctx.modulus) := by
  obtain ⟨s1, s2, hv⟩ := hs p.ec_ctx.mont_ctx.modulus p.y hc.n_len hc.n_ok hy.1 hy.2.1
    (le_of_lt hy.2.2)
  have e : (ec_ws_neg ar p).y
      = ar.mont_sub p.ec_ctx.mont_ctx.modulus p.y p.ec_ctx.mont_ctx := rfl
  have hlt := hy.2.2
  refine ⟨rfl, rfl, rfl, by rw [e]; exact s1, by rw [e]; exact s2, by rw [e]; exact hv, ?_, ?_⟩
  · intro hpos
    rw [e, hv]
    exact ⟨by omega, by omega⟩
  · intro h0
    rw [e, hv, h0, Nat.sub_zero]

/-- C37, at its failing input.  On the curve y^2 = x^3 - 3x + 4 over the field
of 7 elements, the point (4, 0) is stored as ([1], [0], [2]): y = 0 is
canonical.  For every `mont_sub` that writes the plain difference when there is
no borrow, `ec_ws_neg` leaves x and z and stores y = [7], the modulus itself:
not a number below N, and `ec_ws_cmp` reports the negated point different (1)
from the point, which is its own negation. -/
theorem C37_neg_zero_y_modulus_7 (ar : MontArith) (hs : SubNoBorrow ar c7_ctx.mont_ctx) :
    PointOk c7_p ∧ wval c7_p.y = 0 ∧ wval c7_ctx.mont_ctx.modulus = 7 ∧
    ec_ws_neg ar c7_p = { c7_p with y := [7] } ∧
    ¬ (wval (ec_ws_neg ar c7_p).y < wval c7_ctx.mont_ctx.modulus) ∧
    ¬ PointOk (ec_ws_neg ar c7_p) ∧
    ec_ws_cmp (ec_ws_neg ar c7_p) c7_p = .ok 1 := by
  obtain ⟨s1, s2, s3⟩ := hs c7_ctx.mont_ctx.modulus c7_p.y (by decide!) (by decide!)
    (by decide!) (by decide!) (by decide!)
  have hN : wval c7_ctx.mont_ctx.modulus = 7 := by decide!
  have hy : wval c7_p.y = 0 := by decide!
  have hw : c7_ctx.mont_ctx.words = 1 := by decide!
  rw [hN, hy] at s3
  have e : ar.mont_sub c7_ctx.mont_ctx.modulus c7_p.y c7_ctx.mont_ctx = [7] :=
    wval_inj s2 (by decide) (by rw [s1, hw]; rfl) (by rw [s3]; rfl)
  have hneg : ec_ws_neg ar c7_p = { c7_p with y := [7] } := by
    show ({ c7_p with y := ar.mont_sub c7_ctx.mont_ctx.modulus c7_p.y c7_ctx.mont_ctx }
      : EcPoint) = _
    rw [e]
  rw [hneg]
  decide!

/-- C37 at its failing input, for the subtraction that adds N back after a
borrow; the point is the one that `ec_ws_new_point` stores for (4, 0). -/
theorem C37_neg_zero_y_modulus_7_witness :
    (PointOk c7_p ∧ wval c7_p.y = 0 ∧ wval c7_ctx.mont_ctx.modulus = 7 ∧
    ec_ws_neg mod_arith c7_p = { c7_p with y := [7] } ∧
    ¬ (wval (ec_ws_neg mod_arith c7_p).y < wval c7_ctx.mont_ctx.modulus) ∧
    ¬ PointOk (ec_ws_neg mod_arith c7_p) ∧
    ec_ws_cmp (ec_ws_neg mod_arith c7_p) c7_p = .ok 1) ∧
    ec_ws_new_point mod_arith (to_be_bytes 8 4) (to_be_bytes 8 0) 8 c7_ctx = .ok c7_p :=
  ⟨C37_neg_zero_y_modulus_7 mod_arith (mod_arith_sub_no_borrow _), by decide!⟩

end EcWs

namespace EcWs

open Mont

/-! ## Full addition with an identity operand -/

/-- C21 (as first stated) fails: on the curve over the field of 31 elements,
with the first point ([12], [2], [16]) (z1 != 0) and a second point with z2 = 0
and x2 = 0, `ec_full_add` does not write the first point, whatever `mont_add`
and `mont_sub` compute.  With (0, 1, 0) the test U1 = U2, S1 != S2 succeeds and
(1, 1, 0) in Montgomery form, ([16], [16], [0]), is written; with (0, 0, 0) the
test U1 = U2, S1 = S2 succeeds and the double of the first point is written,
which is ([28], [12], [4]) for the addition and subtraction modulo N. -/
theorem C21_full_add_zero_x_counterexample :
    mont_is_zero [16] c31_ctx.mont_ctx = false ∧ mont_is_zero [0] c31_ctx.mont_ctx = true ∧
    (∀ ar : MontArith,
      ec_full_add ar [12] [2] [16] [0] [1] [0] c31_ctx.mont_ctx = ([16], [16], [0])) ∧
    (([16], [16], [0]) : Coords) ≠ ([12], [2], [16]) ∧
    (∀ ar : MontArith,
      ec_full_add ar [12] [2] [16] [0] [0] [0] c31_ctx.mont_ctx
        = ec_full_double ar [12] [2] [16] c31_ctx.mont_ctx) ∧
    ec_full_double mod_arith [12] [2] [16] c31_ctx.mont_ctx = ([28], [12], [4]) ∧
    (([28], [12], [4]) : Coords) ≠ ([12], [2], [16]) := by
  have h1 : mont_is_zero [16] c31_ctx.mont_ctx = false := by decide!
  have ha : mont_mult true [16] [16] c31_ctx.mont_ctx = [16] := by decide!
  have hb : mont_mult true [0] [0] c31_ctx.mont_ctx = [0] := by decide!
  have hc : mont_mult false [12] [0] c31_ctx.mont_ctx = [0] := by decide!
  have hd : mont_mult false [0] [16] c31_ctx.mont_ctx = [0] := by decide!
  have he1 : mont_mult false [2] [0] c31_ctx.mont_ctx = [0] := by decide!
  have he2 : mont_mult false [0] [0] c31_ctx.mont_ctx = [0] := by decide!
  have hf1 : mont_mult false [1] [16] c31_ctx.mont_ctx = [1] := by decide!
  have q1 : mont_is_equal [0] [0] c31_ctx.mont_ctx = true := by decide!
  have q2 : mont_is_equal [0] [1] c31_ctx.mont_ctx = false := by decide!
  have s1 : mont_set 1 c31_ctx.mont_ctx = [16] := by decide!
  have s0 : mont_set 0 c31_ctx.mont_ctx = [0] := by decide!
  refine ⟨h1, by decide!, ?_, by decide, ?_, by decide!, by decide⟩
  · intro ar
    unfold ec_full_add
    simp only [h1, ha, hb, hc, hd, he1, he2, hf1, q1, q2, s1, s0, Bool.false_eq_true,
      if_false, if_true]
  · intro ar
    unfold ec_full_add
    simp only [h1, ha, hb, hc, hd, he1, he2, q1, Bool.false_eq_true, if_false, if_true]

/-- C21, amended. Full add with an identity second operand: on a prime-modulus
context, for every first point (X1, Y1, Z1) with canonical coordinates and
Z1 != 0 and every second point (X2, Y2, Z2) with canonical coordinates, Z2 = 0
and X2 != 0 (such as the canonical identity (1, 1, 0)), `ec_full_add` writes
exactly (X1, Y1, Z1), whatever `mont_add` and `mont_sub` compute. -/
theorem C21_full_add_identity_second (ar : MontArith) (ctx : MontContext)
    (hc : MontCtxOk ctx) (hp : Nat.Prime (wval ctx.modulus)) (x1 y1 z1 x2 y2 z2 : List Nat)
    (hx1 : Canon x1 ctx) (hy1 : Canon y1 ctx) (hz1 : Canon z1 ctx) (hx2 : Canon x2 ctx)
    (hy2 : Canon y2 ctx) (hz2 : Canon z2 ctx) (hz1nz : wval z1 ≠ 0) (hx2nz : wval x2 ≠ 0)
    (hz2z : wval z2 = 0) :
    ec_full_add ar x1 y1 z1 x2 y2 z2 ctx = (x1, y1, z1) := by
  have hnz : mont_is_zero z1 ctx = false := by
    cases h : mont_is_zero z1 ctx
    · rfl
    · exact absurd ((mont_is_zero_iff z1 ctx hz1.1).mp h) hz1nz
  exact ec_full_add_identity_right ar ctx hc hp x1 y1 z1 x2 y2 z2 ⟨hx1.1, hx1.2.1⟩
    ⟨hy1.1, hy1.2.1⟩ hz1 hx2 ⟨hy2.1, hy2.2.1⟩ ⟨hz2.1, hz2.2.1⟩ hnz
    (Nat.pos_of_ne_zero hx2nz) hz2z

/-- C21 (amended), on the curve over the field of 31 elements, with the first
point ([12], [2], [16]) and the canonical identity ([16], [16], [0]). -/
theorem C21_full_add_identity_second_witness :
    ec_full_add mod_arith [12] [2] [16] [16] [16] [0] c31_ctx.mont_ctx = ([12], [2], [16]) :=
  C21_full_add_identity_second mod_arith c31_ctx.mont_ctx c31_mont_ok c31_prime [12] [2] [16]
    [16] [16] [0] (by unfold Canon; decide!) (by unfold Canon; decide!)
    (by unfold Canon; decide!) (by unfold Canon; decide!) (by unfold Canon; decide!)
    (by unfold Canon; decide!) (by decide) (by decide) (by decide)

end EcWs

namespace Mont

/-! ## The word utilities: inverse64, rsquare, ge, sub -/

/-- The constant m0 computed from the low word of an odd number n of any
length: m0 * n = -1 modulo 2^64. -/
theorem m0_times_modulus (n : List Nat) (hn : WordsOk n) (hodd : wval n % 2 = 1) :
    (inverse64 (add64 (not64 (n.getD 0 0)) 1) * wval n) % W64 = W64 - 1 := by
  have h0 : n.getD 0 0 = wval n % W64 := by
    have := getD_eq_digit hn 0
    rwa [pow_zero, Nat.div_one] at this
  have hlt : n.getD 0 0 < W64 := by rw [h0]; exact Nat.mod_lt _ W64_pos
  have ho : n.getD 0 0 % 2 = 1 := by
    rw [h0]
    have hd : (2 : Nat) ∣ W64 := by unfold W64; decide
    rw [Nat.mod_mod_of_dvd _ hd]; exact hodd
  have h := m0_spec (n.getD 0 0) ho hlt
  rw [← Nat.mul_mod_mod, ← h0]
  exact h

/-- C31. For every odd 64-bit integer a, `inverse64` returns a 64-bit x with
a * x = 1 modulo 2^64 (the value the final assertion tests); and for every odd
modulus N, given as a word array or as the byte string from which
`mont_context_init` builds the context, m0 = inverse64(-N[0] mod 2^64)
satisfies m0 * N = -1 modulo 2^64. -/
theorem C31_inverse64_correct (a : Nat) (n modulus : List Nat) (ha : a < W64)
    (hodd : a % 2 = 1) (hn : WordsOk n) (hnodd : wval n % 2 = 1) (hb : BytesOk modulus)
    (hmodd : be_val modulus % 2 = 1) :
    inverse64 a < W64 ∧ (a * inverse64 a) % W64 = 1 ∧
    (inverse64 a * a) % W64 = 1 ∧
    (inverse64 (add64 (not64 (n.getD 0 0)) 1) * wval n) % W64 = W64 - 1 ∧
    (mont_context_build modulus).m0
      = inverse64 (add64 (not64 ((mont_context_build modulus).modulus.getD 0 0)) 1) ∧
    wval (mont_context_build modulus).modulus = be_val modulus ∧
    ((mont_context_build modulus).m0 * be_val modulus) % W64 = W64 - 1 := by
  have _ := ha
  have h1 := inverse64_spec a hodd
  have hlt : inverse64 a < W64 := by
    unfold inverse64 add64
    exact Nat.mod_lt _ W64_pos
  obtain ⟨t1, t2, t3⟩ := to_words_spec ((modulus.length + 7) / 8) (be_val modulus)
  have hbound : be_val modulus < W64 ^ ((modulus.length + 7) / 8) :=
    lt_of_lt_of_le (be_val_lt modulus hb) (bytes_words_bound modulus.length)
  rw [Nat.mod_eq_of_lt hbound] at t3
  have e : (mont_context_build modulus).modulus
      = to_words ((modulus.length + 7) / 8) (be_val modulus) := rfl
  refine ⟨hlt, h1, by rw [Nat.mul_comm]; exact h1, m0_times_modulus n hn hnodd, rfl,
    by rw [e, t3], ?_⟩
  have h2 := m0_times_modulus (to_words ((modulus.length + 7) / 8) (be_val modulus)) t2
    (by rw [t3]; exact hmodd)
  rw [t3] at h2
  exact h2

/-- C31, for a = 2^64 - 1, the three-word array [7, 3, 1] and the byte string
of the modulus 31. -/
theorem C31_inverse64_correct_witness :
    inverse64 18446744073709551615 < W64 ∧
    (18446744073709551615 * inverse64 18446744073709551615) % W64 = 1 ∧
    (inverse64 18446744073709551615 * 18446744073709551615) % W64 = 1 ∧
    (inverse64 (add64 (not64 (([7, 3, 1] : List Nat).getD 0 0)) 1) * wval [7, 3, 1]) % W64
      = W64 - 1 ∧
    (mont_context_build [31]).m0
      = inverse64 (add64 (not64 ((mont_context_build [31]).modulus.getD 0 0)) 1) ∧
    wval (mont_context_build [31]).modulus = be_val [31] ∧
    ((mont_context_build [31]).m0 * be_val [31]) % W64 = W64 - 1 :=
  C31_inverse64_correct 18446744073709551615 [7, 3, 1] [31] (by decide) (by decide)
    (by decide) (by decide) (by decide) (by decide)

/-- When the loop condition of the inner loop of `rsquare` holds, for a value
below 2N, one subtraction brings the value below N. -/
theorem rsquare_sub_lt (n r : List Nat) (nw o : Nat) (hn : WordsOk n) (hr : WordsOk r)
    (hln : n.length = nw) (hlr : r.length = nw) (ho : o ≤ 1)
    (hX : wval r + W64 ^ nw * o < 2 * wval n) (hc : o ≠ 0 ∨ ge r n nw ≠ 0) :
    wval (sub r n nw).1 < wval n ∧ ge (sub r n nw).1 n nw = 0 := by
  have hN : wval n < W64 ^ nw := by have := wval_lt hn; rwa [hln] at this
  have hR : wval r < W64 ^ nw := by have := wval_lt hr; rwa [hlr] at this
  have hnt : n.take nw = n := List.take_of_length_le (by omega)
  have hrt : r.take nw = r := List.take_of_length_le (by omega)
  have hge := ge_spec r n nw (by omega) (by omega) hr hn
  rw [hnt, hrt] at hge
  obtain ⟨b1, b2, b3, b4⟩ := sub_spec r n nw (by omega) (by omega) hr hn
  rw [hnt, hrt] at b4
  have hS : wval (sub r n nw).1 < W64 ^ nw := by have := wval_lt b2; rwa [b1] at this
  have hst : (sub r n nw).1.take nw = (sub r n nw).1 := List.take_of_length_le (by omega)
  have hge2 := ge_spec (sub r n nw).1 n nw (by omega) (by omega) b2 hn
  rw [hnt, hst] at hge2
  have hlt : wval (sub r n nw).1 < wval n := by
    generalize (sub r n nw).2 = bw at *
    generalize wval (sub r n nw).1 = sv at *
    rcases hc with h | h
    · have h1 : o = 1 := by omega
      subst h1
      have h2 : bw = 1 := by
        rcases Nat.eq_zero_or_pos bw with h0 | h0
        · subst h0; omega
        · omega
      subst h2
      omega
    · have hle : wval n ≤ wval r := by
        by_contra h'
        rw [hge, if_neg h'] at h; exact h rfl
      have h2 : bw = 0 := by
        rcases Nat.eq_zero_or_pos bw with h0 | h0
        · exact h0
        · have : W64 ^ nw * 1 ≤ W64 ^ nw * bw := Nat.mul_le_mul_left _ h0
          omega
      subst h2
      rcases Nat.eq_zero_or_pos o with h0 | h0
      · subst h0; omega
      · have : W64 ^ nw * 1 ≤ W64 ^ nw * o := Nat.mul_le_mul_left _ h0
        omega
  exact ⟨hlt, by rw [hge2, if_neg (by omega)]⟩

/-- The inner loop of `rsquare` does not depend on the bound on its iterations:
with any bound of at least two it performs no subtraction or exactly one, and
stops with the loop condition false. -/
theorem rsquare_reduce_fuel (n r : List Nat) (nw o : Nat) (hn : WordsOk n) (hr : WordsOk r)
    (hln : n.length = nw) (hlr : r.length = nw) (ho : o ≤ 1)
    (hX : wval r + W64 ^ nw * o < 2 * wval n) (fuel : Nat) (hf : 2 ≤ fuel) :
    rsquare_reduce n nw fuel o r = rsquare_reduce n nw 2 o r ∧
    ((¬ (o ≠ 0 ∨ ge r n nw ≠ 0) ∧ rsquare_reduce n nw 2 o r = r) ∨
      ((o ≠ 0 ∨ ge r n nw ≠ 0) ∧ rsquare_reduce n nw 2 o r = (sub r n nw).1)) := by
  obtain ⟨f, rfl⟩ : ∃ f, fuel = f + 2 := ⟨fuel - 2, by omega⟩
  by_cases hc : o ≠ 0 ∨ ge r n nw ≠ 0
  · obtain ⟨_, hg0⟩ := rsquare_sub_lt n r nw o hn hr hln hlr ho hX hc
    have e1 : rsquare_reduce n nw (f + 2) o r = (sub r n nw).1 := by
      simp only [rsquare_reduce, if_pos hc]
      rw [if_neg (by simp [hg0])]
    have e2 : rsquare_reduce n nw 2 o r = (sub r n nw).1 := by
      simp only [rsquare_reduce, if_pos hc]
      rw [if_neg (by simp [hg0])]
    exact ⟨by rw [e1, e2], Or.inr ⟨hc, e2⟩⟩
  · have e1 : rsquare_reduce n nw (f + 2) o r = r := by
      simp only [rsquare_reduce, if_neg hc]
    have e2 : rsquare_reduce n nw 2 o r = r := by
      simp only [rsquare_reduce, if_neg hc]
    exact ⟨by rw [e1, e2], Or.inl ⟨hc, e2⟩⟩

/-- C32. For every nw >= 1 and every modulus n of nw words with n >= 3,
`rsquare` leaves in `r2_mod_n` the value 2^(2 * 64 * nw) mod n, that is
R^2 mod N.  The running value stays below n after every iteration of the outer
loop; and from every value r below n, the inner `while` loop that follows the
doubling stops, whatever the bound of at least two put on its iterations (it
terminates), after no subtraction or exactly one, with a value below n for
which the loop condition is false. -/
theorem C32_rsquare_correct (n : List Nat) (nw : Nat) (hn : WordsOk n) (hln : n.length = nw)
    (hnw : 1 ≤ nw) (hN : 3 ≤ wval n) :
    (rsquare n nw).length = nw ∧ WordsOk (rsquare n nw) ∧
    wval (rsquare n nw) = 2 ^ (2 * 64 * nw) % wval n ∧
    (∀ cnt, wval (rsquare_loop n nw cnt ((List.replicate nw 0).set 0 1)) < wval n) ∧
    (∀ r, WordsOk r → r.length = nw → wval r < wval n → ∀ fuel, 2 ≤ fuel →
      rsquare_reduce n nw fuel (r.getD (nw - 1) 0 >>> 63) (shl1 r 0)
        = rsquare_reduce n nw 2 (r.getD (nw - 1) 0 >>> 63) (shl1 r 0) ∧
      (rsquare_reduce n nw 2 (r.getD (nw - 1) 0 >>> 63) (shl1 r 0) = shl1 r 0 ∨
        rsquare_reduce n nw 2 (r.getD (nw - 1) 0 >>> 63) (shl1 r 0)
          = (sub (shl1 r 0) n nw).1) ∧
      wval (rsquare_reduce n nw 2 (r.getD (nw - 1) 0 >>> 63) (shl1 r 0)) = 2 * wval r % wval n ∧
      wval (rsquare_reduce n nw 2 (r.getD (nw - 1) 0 >>> 63) (shl1 r 0)) < wval n ∧
      ge (rsquare_reduce n nw 2 (r.getD (nw - 1) 0 >>> 63) (shl1 r 0)) n nw = 0) := by
  obtain ⟨r1, r2, r3⟩ := rsquare_spec n nw hn hln hnw (by omega)
  have hpow : W64 ^ nw * W64 ^ nw = 2 ^ (2 * 64 * nw) := by
    rw [W64_eq, ← pow_mul, ← pow_add]
    congr 1
    ring
  rw [hpow] at r3
  have hNpos : 0 < wval n := by omega
  obtain ⟨m, hm⟩ : ∃ m, nw = m + 1 := ⟨nw - 1, by omega⟩
  have h1 : (List.replicate nw 0).set 0 1 = 1 :: List.replicate m 0 := by
    subst hm; rfl
  have hok : WordsOk ((List.replicate nw 0).set 0 1) := by
    rw [h1]; exact WordsOk_cons.mpr ⟨by unfold W64; omega, WordsOk_replicate_zero _⟩
  have hv : wval ((List.replicate nw 0).set 0 1) = 2 ^ 0 % wval n := by
    rw [h1, wval_cons, wval_replicate_zero, mul_zero, add_zero, pow_zero,
      Nat.mod_eq_of_lt (by omega)]
  refine ⟨r1, r2, r3, ?_, ?_⟩
  · intro cnt
    obtain ⟨_, _, q3⟩ := rsquare_loop_spec n nw hn hln hnw (by omega) cnt 0 _ hok
      (by simp) hv
    rw [q3]
    exact Nat.mod_lt _ hNpos
  · intro r hr hl hlt fuel hf
    obtain ⟨s1, s2, s3⟩ := shl1_spec r 0 hr (by omega)
    rw [hl, add_zero] at s3
    have hto := top_bit_spec r nw hr hl hnw
    have hX : wval (shl1 r 0) + W64 ^ nw * (r.getD (nw - 1) 0 >>> 63) = 2 * wval r := by
      rw [s3, hto]; exact Nat.mod_add_div _ _
    have ho : r.getD (nw - 1) 0 >>> 63 ≤ 1 := by
      rw [hto]
      have hR : wval r < W64 ^ nw := by have := wval_lt hr; rwa [hl] at this
      have : 2 * wval r < W64 ^ nw * 2 := by omega
      have := Nat.div_lt_of_lt_mul this
      omega
    obtain ⟨q1, q2, q3, q4⟩ := rsquare_reduce_spec n (shl1 r 0) nw _ hn s2 hln
      (by rw [s1, hl]) ho (by rw [hX]; omega)
    obtain ⟨f1, f2⟩ := rsquare_reduce_fuel n (shl1 r 0) nw _ hn s2 hln (by rw [s1, hl]) ho
      (by rw [hX]; omega) fuel hf
    rw [hX] at q3
    refine ⟨f1, ?_, q3, by rw [q3]; exact Nat.mod_lt _ hNpos, q4⟩
    rcases f2 with h | h
    · exact Or.inl h.2
    · exact Or.inr h.2

/-- C32, for the two-word modulus 7 + 3 * 2^64. -/
theorem C32_rsquare_correct_witness :
    (rsquare [7, 3] 2).length = 2 ∧ WordsOk (rsquare [7, 3] 2) ∧
    wval (rsquare [7, 3] 2) = 2 ^ (2 * 64 * 2) % wval [7, 3] ∧
    (∀ cnt, wval (rsquare_loop [7, 3] 2 cnt ((List.replicate 2 0).set 0 1)) < wval [7, 3]) ∧
    (∀ r, WordsOk r → r.length = 2 → wval r < wval [7, 3] → ∀ fuel, 2 ≤ fuel →
      rsquare_reduce [7, 3] 2 fuel (r.getD (2 - 1) 0 >>> 63) (shl1 r 0)
        = rsquare_reduce [7, 3] 2 2 (r.getD (2 - 1) 0 >>> 63) (shl1 r 0) ∧
      (rsquare_reduce [7, 3] 2 2 (r.getD (2 - 1) 0 >>> 63) (shl1 r 0) = shl1 r 0 ∨
        rsquare_reduce [7, 3] 2 2 (r.getD (2 - 1) 0 >>> 63) (shl1 r 0)
          = (sub (shl1 r 0) [7, 3] 2).1) ∧
      wval (rsquare_reduce [7, 3] 2 2 (r.getD (2 - 1) 0 >>> 63) (shl1 r 0))
        = 2 * wval r % wval [7, 3] ∧
      wval (rsquare_reduce [7, 3] 2 2 (r.getD (2 - 1) 0 >>> 63) (shl1 r 0)) < wval [7, 3] ∧
      ge (rsquare_reduce [7, 3] 2 2 (r.getD (2 - 1) 0 >>> 63) (shl1 r 0)) [7, 3] 2 = 0) :=
  C32_rsquare_correct [7, 3] 2 (by decide) (by decide) (by decide) (by decide)

/-- C33. For every nw >= 1 and all arrays x, y of nw little-endian 64-bit
words, `ge` returns 1 if the integer value of x is greater than or equal to
that of y and 0 otherwise. -/
theorem C33_ge_correct (x y : List Nat) (nw : Nat) (hnw : 1 ≤ nw) (hlx : x.length = nw)
    (hly : y.length = nw) (hx : WordsOk x) (hy : WordsOk y) :
    ge x y nw = (if wval y ≤ wval x then 1 else 0) ∧
    (wval y ≤ wval x → ge x y nw = 1) ∧ (wval x < wval y → ge x y nw = 0) := by
  have _ := hnw
  have h := ge_spec x y nw (by omega) (by omega) hx hy
  rw [List.take_of_length_le (by omega), List.take_of_length_le (by omega)] at h
  refine ⟨h, ?_, ?_⟩
  · intro hle; rw [h, if_pos hle]
  · intro hlt; rw [h, if_neg (by omega)]

/-- C33, for two arrays of two words that differ in the low word only. -/
theorem C33_ge_correct_witness :
    ge [5, 9] [6, 9] 2 = (if wval [6, 9] ≤ wval [5, 9] then 1 else 0) ∧
    (wval [6, 9] ≤ wval [5, 9] → ge [5, 9] [6, 9] 2 = 1) ∧
    (wval [5, 9] < wval [6, 9] → ge [5, 9] [6, 9] 2 = 0) :=
  C33_ge_correct [5, 9] [6, 9] 2 (by decide) rfl rfl (by decide) (by decide)

theorem getD_append_length (pre : List Nat) (x : Nat) (l : List Nat) :
    (pre ++ x :: l).getD pre.length 0 = x := by
  induction pre with
  | nil => rfl
  | cons p pre ih => simpa using ih

theorem set_append_length (pre : List Nat) (x v : Nat) (l : List Nat) :
    (pre ++ x :: l).set pre.length v = pre ++ v :: l := by
  induction pre with
  | nil => rfl
  | cons p pre ih => simp [ih]

/-- The loop of `sub` on explicit arrays, `out` separate from `a`: the words
of `out` from index `pre.length` on become those computed by `sub_loop`. -/
theorem sub_mem_loop_separate (arest : List Nat) :
    ∀ (pre apre bpre rest brest : List Nat) (borrow : Nat),
      rest.length = arest.length → brest.length = arest.length →
      apre.length = pre.length → bpre.length = pre.length →
      sub_mem_loop false (bpre ++ brest) arest.length pre.length
          (pre ++ rest, apre ++ arest, borrow)
        = (pre ++ (sub_loop arest brest borrow).1, apre ++ arest,
            (sub_loop arest brest borrow).2) := by
  induction arest with
  | nil =>
    intro pre apre bpre rest brest borrow h1 h2 _ _
    have e1 : rest = [] := List.length_eq_zero.mp h1
    have e2 : brest = [] := List.length_eq_zero.mp h2
    subst e1; subst e2
    simp [sub_mem_loop, sub_loop]
  | cons a as ih =>
    intro pre apre bpre rest brest borrow h1 h2 h3 h4
    cases rest with
    | nil => simp at h1
    | cons o os =>
      cases brest with
      | nil => simp at h2
      | cons b bs =>
        simp only [List.length_cons, Nat.add_right_cancel_iff] at h1 h2
        have ga : (apre ++ a :: as).getD pre.length 0 = a := by
          rw [← h3]; exact getD_append_length _ _ _
        have gb : (bpre ++ b :: bs).getD pre.length 0 = b := by
          rw [← h4]; exact getD_append_length _ _ _
        have step : sub_mem_step false (bpre ++ b :: bs) pre.length
              (pre ++ o :: os, apre ++ a :: as, borrow)
            = ((pre ++ [sub64 (sub64 a b) borrow]) ++ os, (apre ++ [a]) ++ as,
                lt64 a b ||| lt64 (sub64 a b) borrow) := by
          unfold sub_mem_step
          simp only [ga, gb, set_append_length, getD_append_length, Bool.false_eq_true,
            if_false, List.append_assoc, List.singleton_append]
        have hb : bpre ++ b :: bs = (bpre ++ [b]) ++ bs := by simp
        simp only [List.length_cons, sub_mem_loop]
        rw [step, hb]
        have hl : (pre ++ [sub64 (sub64 a b) borrow]).length = pre.length + 1 := by simp
        rw [← hl]
        rw [ih (pre ++ [sub64 (sub64 a b) borrow]) (apre ++ [a]) (bpre ++ [b]) os bs _ h1 h2
          (by simp [h3]) (by simp [h4])]
        simp [sub_loop]

/-- The loop of `sub` on explicit arrays, `out` and `a` the same array. -/
theorem sub_mem_loop_alias (arest : List Nat) :
    ∀ (pre bpre brest : List Nat) (borrow : Nat),
      brest.length = arest.length → bpre.length = pre.length →
      sub_mem_loop true (bpre ++ brest) arest.length pre.length
          (pre ++ arest, pre ++ arest, borrow)
        = (pre ++ (sub_loop arest brest borrow).1, pre ++ (sub_loop arest brest borrow).1,
            (sub_loop arest brest borrow).2) := by
  induction arest with
  | nil =>
    intro pre bpre brest borrow h2 _
    have e2 : brest = [] := List.length_eq_zero.mp h2
    subst e2
    simp [sub_mem_loop, sub_loop]
  | cons a as ih =>
    intro pre bpre brest borrow h2 h4
    cases brest with
    | nil => simp at h2
    | cons b bs =>
      simp only [List.length_cons, Nat.add_right_cancel_iff] at h2
      have gb : (bpre ++ b :: bs).getD pre.length 0 = b := by
        rw [← h4]; exact getD_append_length _ _ _
      have step : sub_mem_step true (bpre ++ b :: bs) pre.length
            (pre ++ a :: as, pre ++ a :: as, borrow)
          = ((pre ++ [sub64 (sub64 a b) borrow]) ++ as,
              (pre ++ [sub64 (sub64 a b) borrow]) ++ as,
              lt64 a b ||| lt64 (sub64 a b) borrow) := by
        unfold sub_mem_step
        simp only [gb, set_append_length, getD_append_length, if_true, List.append_assoc,
          List.singleton_append]
      have hb : bpre ++ b :: bs = (bpre ++ [b]) ++ bs := by simp
      simp only [List.length_cons, sub_mem_loop]
      rw [step, hb]
      have hl : (pre ++ [sub64 (sub64 a b) borrow]).length = pre.length + 1 := by simp
      rw [← hl]
      rw [ih (pre ++ [sub64 (sub64 a b) borrow]) (bpre ++ [b]) bs _ h2 (by simp [h4])]
      simp [sub_loop]

/-- `sub` on explicit arrays computes what the word-by-word model `sub`
computes, whether `out` is a separate array or the array `a`. -/
theorem sub_mem_eq_sub (out_is_a : Bool) (out a b : List Nat) (nw : Nat)
    (hlo : out.length = nw) (hla : a.length = nw) (hlb : b.length = nw) :
    sub_mem out_is_a out a b nw = sub a b nw := by
  have ta : a.take nw = a := List.take_of_length_le (by omega)
  have tb : b.take nw = b := List.take_of_length_le (by omega)
  unfold sub_mem sub
  rw [ta, tb]
  cases out_is_a
  · have h := sub_mem_loop_separate a [] [] [] out b 0 (by omega) (by omega) rfl rfl
    simp only [List.nil_append, List.length_nil] at h
    rw [hla] at h
    simp only [Bool.false_eq_true, if_false]
    rw [h]
  · have h := sub_mem_loop_alias a [] [] b 0 (by omega) rfl
    simp only [List.nil_append, List.length_nil] at h
    rw [hla] at h
    simp only [if_true]
    rw [h]

/-- C34. For every nw and all arrays a, b of nw words, `sub` writes to `out`
the value (a - b) mod 2^(64 nw) and returns 1 if a < b and 0 otherwise, whether
`out` is a separate array of nw words or the array `a` itself; the result is
that of the word-by-word model `sub`. -/
theorem C34_sub_correct (out_is_a : Bool) (out a b : List Nat) (nw : Nat)
    (hlo : out.length = nw) (hla : a.length = nw) (hlb : b.length = nw) (ha : WordsOk a)
    (hb : WordsOk b) :
    sub_mem out_is_a out a b nw = sub a b nw ∧
    (sub_mem out_is_a out a b nw).1.length = nw ∧
    WordsOk (sub_mem out_is_a out a b nw).1 ∧
    (wval (sub_mem out_is_a out a b nw).1 : Int)
      = ((wval a : Int) - (wval b : Int)) % ((W64 : Int) ^ nw) ∧
    wval (sub_mem out_is_a out a b nw).1 = (wval a + W64 ^ nw - wval b) % W64 ^ nw ∧
    (sub_mem out_is_a out a b nw).2 = (if wval a < wval b then 1 else 0) := by
  have e := sub_mem_eq_sub out_is_a out a b nw hlo hla hlb
  rw [e]
  obtain ⟨b1, b2, b3, b4⟩ := sub_spec a b nw (by omega) (by omega) ha hb
  rw [List.take_of_length_le (by omega), List.take_of_length_le (by omega)] at b4
  have hA : wval a < W64 ^ nw := by have := wval_lt ha; rwa [hla] at this
  have hB : wval b < W64 ^ nw := by have := wval_lt hb; rwa [hlb] at this
  have hS : wval (sub a b nw).1 < W64 ^ nw := by have := wval_lt b2; rwa [b1] at this
  have hRpos : 0 < W64 ^ nw := pow_pos W64_pos _
  generalize (sub a b nw).2 = bw at *
  generalize wval (sub a b nw).1 = sv at *
  generalize hR : W64 ^ nw = R at *
  have hRi : ((W64 : Int) ^ nw) = (R : Int) := by rw [← hR]; push_cast; rfl
  have hbw : bw = if wval a < wval b then 1 else 0 := by
    rcases Nat.eq_zero_or_pos bw with h0 | h0
    · subst h0
      rw [if_neg (by omega)]
    · have h1 : bw = 1 := by omega
      subst h1
      rw [if_pos (by omega)]
  have hnat : sv = (wval a + R - wval b) % R := by
    by_cases hlt : wval a < wval b
    · rw [if_pos hlt] at hbw
      subst hbw
      rw [Nat.mod_eq_of_lt (by omega)]
      omega
    · rw [if_neg hlt] at hbw
      subst hbw
      have h2 : wval a + R - wval b = (wval a - wval b) + R := by omega
      rw [h2, Nat.add_mod_right, Nat.mod_eq_of_lt (by omega)]
      omega
  refine ⟨rfl, b1, b2, ?_, hnat, hbw⟩
  rw [hRi]
  by_cases hlt : wval a < wval b
  · rw [if_pos hlt] at hbw
    subst hbw
    have h3 : ((wval a : Int) - (wval b : Int)) % (R : Int)
        = ((wval a : Int) - (wval b : Int) + (R : Int)) % (R : Int) := by
      rw [Int.add_emod_self]
    rw [h3, Int.emod_eq_of_lt (by omega) (by omega)]
    omega
  · rw [if_neg hlt] at hbw
    subst hbw
    rw [Int.emod_eq_of_lt (by omega) (by omega)]
    omega

/-- C34, for a = 5 + 2^64, b = 6 + 2^64 (so a < b), with `out` the array `a`. -/
theorem C34_sub_correct_witness :
    sub_mem true [5, 1] [5, 1] [6, 1] 2 = sub [5, 1] [6, 1] 2 ∧
    (sub_mem true [5, 1] [5, 1] [6, 1] 2).1.length = 2 ∧
    WordsOk (sub_mem true [5, 1] [5, 1] [6, 1] 2).1 ∧
    (wval (sub_mem true [5, 1] [5, 1] [6, 1] 2).1 : Int)
      = ((wval [5, 1] : Int) - (wval [6, 1] : Int)) % ((W64 : Int) ^ 2) ∧
    wval (sub_mem true [5, 1] [5, 1] [6, 1] 2).1
      = (wval [5, 1] + W64 ^ 2 - wval [6, 1]) % W64 ^ 2 ∧
    (sub_mem true [5, 1] [5, 1] [6, 1] 2).2 = (if wval [5, 1] < wval [6, 1] then 1 else 0) :=
  C34_sub_correct true [5, 1] [5, 1] [6, 1] 2 rfl rfl rfl (by decide) (by decide)

end Mont

namespace EcWs

open Mont

/-! ## The zero scalar -/

theorem skip_zero_bytes_zeros (k : List Nat) (h : ∀ b ∈ k, b = 0) : skip_zero_bytes k = [] := by
  induction k with
  | nil => rfl
  | cons b k ih =>
    have hb : b = 0 := h b (List.mem_cons_self _ _)
    subst hb
    simp only [skip_zero_bytes, if_true]
    exact ih (fun x hx => h x (List.mem_cons_of_mem _ hx))

/-- `ec_exp` on an exponent of zero bytes only: no window is processed and the
starting point (1, 1, 0) is the result. -/
theorem ec_exp_zeros (ar : MontArith) (x y z k : List Nat) (ctx : MontContext)
    (h : ∀ b ∈ k, b = 0) :
    ec_exp ar x y z k ctx = (mont_set 1 ctx, mont_set 1 ctx, mont_set 0 ctx) := by
  unfold ec_exp
  simp only [skip_zero_bytes_zeros k h, window_digits, ec_exp_ladder]

/-- C36. Zero scalar: for every point P of a context with the invariants of
`mont_context_init` and every scalar of len >= 1 bytes that are all zero,
`ec_ws_scalar_multiply` with seed 0 succeeds and leaves in P the canonical
point at infinity (1, 1, 0) in Montgomery form: x = y = R mod N and z = 0, the
same context. -/
theorem C36_zero_scalar (ar : MontArith) (expand_seed : Nat → Nat → List Nat) (p : EcPoint)
    (k : List Nat) (len : Nat) (hc : MontCtxOk p.ec_ctx.mont_ctx) (hlen : k.length = len)
    (hpos : 1 ≤ len)
    (hk : ∀ b ∈ k, b = 0) :
    ec_ws_scalar_multiply ar expand_seed p k len 0
      = .ok { p with x := mont_set 1 p.ec_ctx.mont_ctx, y := mont_set 1 p.ec_ctx.mont_ctx,
                     z := mont_set 0 p.ec_ctx.mont_ctx } ∧
    mont_set 1 p.ec_ctx.mont_ctx = p.ec_ctx.mont_ctx.r_mod_n ∧
    wval (mont_set 1 p.ec_ctx.mont_ctx)
      = W64 ^ p.ec_ctx.mont_ctx.words % wval p.ec_ctx.mont_ctx.modulus ∧
    mont_set 0 p.ec_ctx.mont_ctx = List.replicate p.ec_ctx.mont_ctx.words 0 ∧
    wval (mont_set 0 p.ec_ctx.mont_ctx) = 0 := by
  have h1 := mont_set_one p.ec_ctx.mont_ctx hc
  have ht : k.take len = k := List.take_of_length_le (by omega)
  refine ⟨?_, h1, by rw [h1]; exact hc.r_val, rfl, (mont_set_zero_spec _).2.2⟩
  unfold ec_ws_scalar_multiply
  simp only [if_neg (show ¬ len = 0 by omega), ne_eq, not_true_eq_false, if_false, ht,
    ec_exp_zeros _ _ _ _ _ _ hk]

/-- C36, for the point (24, 4) of the curve over the field of 31 elements and
the scalar of two zero bytes. -/
theorem C36_zero_scalar_witness :
    ec_ws_scalar_multiply mod_arith (fun _ _ => []) c31_p [0, 0] 2 0
      = .ok { c31_p with x := mont_set 1 c31_p.ec_ctx.mont_ctx,
                         y := mont_set 1 c31_p.ec_ctx.mont_ctx,
                         z := mont_set 0 c31_p.ec_ctx.mont_ctx } ∧
    mont_set 1 c31_p.ec_ctx.mont_ctx = c31_p.ec_ctx.mont_ctx.r_mod_n ∧
    wval (mont_set 1 c31_p.ec_ctx.mont_ctx)
      = W64 ^ c31_p.ec_ctx.mont_ctx.words % wval c31_p.ec_ctx.mont_ctx.modulus ∧
    mont_set 0 c31_p.ec_ctx.mont_ctx = List.replicate c31_p.ec_ctx.mont_ctx.words 0 ∧
    wval (mont_set 0 c31_p.ec_ctx.mont_ctx) = 0 :=
  C36_zero_scalar mod_arith (fun _ _ => []) c31_p [0, 0] 2 c31_mont_ok rfl (by decide) (by decide)

end EcWs

namespace EcWs

open Mont
open scoped WeierstrassCurve.Jacobian

theorem rinv_mul_R (ctx : MontContext) (hc : MontCtxOk ctx) :
    rinv ctx * ((W64 ^ ctx.words : Nat) : ZMod (wval ctx.modulus)) = 1 := by
  rw [mul_comm]; exact R_mul_rinv ctx hc

theorem dec_eq_iff (ctx : MontContext) (hc : MontCtxOk ctx) (u v : List Nat) :
    dec ctx u = dec ctx v ↔ res ctx u = res ctx v := by
  unfold dec
  constructor
  · intro h
    have := congrArg (fun t => t * ((W64 ^ ctx.words : Nat) : ZMod (wval ctx.modulus))) h
    simp only [mul_assoc, rinv_mul_R ctx hc, mul_one] at this
    exact this
  · intro h; rw [h]

theorem dec_inj (ctx : MontContext) (hc : MontCtxOk ctx) (u v : List Nat)
    (hu : Canon u ctx) (hv : Canon v ctx) (h : dec ctx u = dec ctx v) : u = v :=
  (res_eq_iff ctx u v hu hv).mpr ((dec_eq_iff ctx hc u v).mp h)

theorem dec_copy (ctx : MontContext) (a : List Nat) (ha : Canon a ctx) : mont_copy a ctx = a := by
  exact mont_copy_eq a ctx ha.1

end EcWs

namespace EcWs

open Mont
open scoped WeierstrassCurve.Jacobian

end EcWs

namespace EcWs

open Mont
open scoped WeierstrassCurve.Jacobian

/-! ## The digits of the exponent -/

end EcWs

namespace EcWs

open Mont
open scoped WeierstrassCurve.Jacobian

end EcWs

namespace EcWs

open Mont
open scoped WeierstrassCurve.Jacobian

/-! ## The blinded base point -/

end EcWs

namespace EcWs

open Mont
open scoped WeierstrassCurve.Jacobian

/-! ## The ladder at the pair (0, 0) with z = 1 -/

end EcWs
